import Mathlib

/-!
# gopard: a shallow embedding of `src/src/gopard.c`

The supervisor's C functions are rendered as pure functions.  A region of
memory is a list of bytes, a pointer is an offset into it, every call of
`time(0)` and every answer of the kernel (`read`, `fork`, `waitpid`) is an
explicit argument, and a file is the list of what has been written to it.
-/

namespace Gopard

/-! ## Bytes, memory and C strings -/

/-- A region of memory, one number per `char`. -/
abbrev Mem := List Nat

/-- The character `'\n'`. -/
def NL : Nat := 10

/-- The character `' '`. -/
def SP : Nat := 32

/-- The character `':'`. -/
def COLON : Nat := 58

/-- The C string that starts at offset `p`: the bytes before the first NUL. -/
def cstr (b : Mem) (p : Nat) : List Nat :=
  (b.drop p).takeWhile (fun c => c != 0)

/-- The function `strlen` at offset `p`. -/
def strlen (b : Mem) (p : Nat) : Nat :=
  (cstr b p).length

/-- The function `memmove(b + dst, b + src, n)`; the copy is made as if through
a temporary, so the two areas may overlap. -/
def memmove (b : Mem) (dst src n : Nat) : Mem :=
  b.take dst ++ (b.drop src).take n ++ b.drop (dst + n)

/-- The `for` loop of `zapNextChar` on the pointer `b + off`: `n` iterations
remain and the loop variable is `i`.  The result is the memory and the value
returned, `none` standing for `-1`. -/
def zapNextCharLoop (b : Mem) (off z : Nat) : Nat → Nat → Mem × Option Nat
  | 0, _ => (b, none)
  | n + 1, i =>
    if b.getD (off + i) 0 = z then (b.set (off + i) 0, some (i + 1))
    else zapNextCharLoop b off z n (i + 1)

/-- The function `zapNextChar(b + off, sz, z)`: the first `z` among the next
`sz` bytes is overwritten with NUL and the offset just after it is returned. -/
def zapNextChar (b : Mem) (off sz z : Nat) : Mem × Option Nat :=
  zapNextCharLoop b off z sz 0

/-- The `while` loop of `zapAll(b + off, sz, z)` with the counters `c` and `p`.
Every round moves `p` forward, so `sz + 1` rounds are enough; `none` is
returned only if the rounds allowed run out. -/
def zapAllLoop (off sz z : Nat) : Nat → Mem → Nat → Nat → Option (Mem × Nat)
  | 0, _, _, _ => none
  | fuel + 1, b, c, p =>
    match zapNextChar b (off + p) (sz - p) z with
    | (b1, some offset) => zapAllLoop off sz z fuel b1 (c + 1) (p + offset)
    | (b1, none) => some (b1, c)

/-- The function `zapAll(b + off, sz, z)`: memory afterwards and the count. -/
def zapAll (b : Mem) (off sz z : Nat) : Option (Mem × Nat) :=
  zapAllLoop off sz z (sz + 1) b 0 0

/-- One pass of the inner loop of `extractStrings(b + off, s)`: `n` iterations
remain, the loop variable is `i`, and `strings` holds the pointers stored so
far, so that `count` is its length. -/
def extractStringsLoop (b : Mem) (off : Nat) : Nat → Nat → Bool → List Nat → List Nat
  | 0, _, _, strings => strings
  | n + 1, i, wasZero, strings =>
    if b.getD (off + i) 0 ≠ 0 then
      extractStringsLoop b off n (i + 1) false
        (if wasZero then strings ++ [off + i] else strings)
    else
      extractStringsLoop b off n (i + 1) true strings

/-- The function `extractStrings(b + off, s)`: the pointers in the array
returned, before its closing `NULL`.  Both passes of the source scan the same
bytes; the first only counts what the second stores. -/
def extractStrings (b : Mem) (off s : Nat) : List Nat :=
  extractStringsLoop b off s 0 true []

/-! ## Buffers -/

/-- The struct `Buff`: `head` is the allocated area, of `size` bytes. -/
structure Buff where
  head : Mem
  size : Nat
  used : Nat
  deriving DecidableEq, Repr

/-- The function `_buff_allocate`. -/
def _buff_allocate (sz : Nat) : Buff :=
  { head := List.replicate sz 0, size := sz, used := 0 }

/-- The function `_buff_reset`. -/
def _buff_reset (buff : Buff) : Buff :=
  { buff with used := 0 }

/-- The macro `_buff_tail`, as an offset into `head`. -/
def _buff_tail (b : Buff) : Nat := b.used

/-- The macro `_buff_left`. -/
def _buff_left (b : Buff) : Nat := b.size - b.used

/-- What `_buff_processLines` leaves behind: the state the callbacks threaded,
the buffer, and the arguments of the callback's calls in order (the memory as
it stood at the call, and the pointer passed). -/
structure Drained (σ : Type) where
  state : σ
  buff : Buff
  calls : List (Mem × Nat)

/-- The `while` loop of `_buff_processLines`.  The callback receives the
memory and the pointer `head + p` and gives back the memory as it leaves it.
Every round moves `p` forward by at least one, so `used + 1` rounds are
enough; `none` is returned only if the rounds allowed run out. -/
def processLinesLoop {σ : Type} (callback : σ → Mem → Nat → σ × Mem) (used : Nat) :
    Nat → σ → Mem → Nat → List (Mem × Nat) → Option (σ × Mem × Nat × List (Mem × Nat))
  | 0, _, _, _, _ => none
  | fuel + 1, st, head, p, calls =>
    match zapNextChar head p (used - p) NL with
    | (head1, some next) =>
      let r := callback st head1 p
      processLinesLoop callback used fuel r.1 r.2 (p + next) (calls ++ [(head1, p)])
    | (head1, none) => some (st, head1, p, calls)

/-- The function `_buff_processLines`. -/
def _buff_processLines {σ : Type} (callback : σ → Mem → Nat → σ × Mem) (st : σ)
    (buff : Buff) : Option (Drained σ) :=
  match processLinesLoop callback buff.used (buff.used + 1) st buff.head 0 [] with
  | none => none
  | some (st1, head1, p, calls) =>
    let used1 := buff.used - p
    some { state := st1
           buff := { head := memmove head1 0 p used1, size := buff.size, used := used1 }
           calls := calls }

/-- The used region `r1 '\n' r2 '\n' ... rk '\n' s` of a buffer that holds the
records `rs` and the unfinished rest `s`. -/
def lines : List (List Nat) → List Nat → List Nat
  | [], s => s
  | r :: rs, s => r ++ NL :: lines rs s

/-- The offsets at which the records `rs` start when the first starts at `p`. -/
def offsets : Nat → List (List Nat) → List Nat
  | _, [] => []
  | p, r :: rs => p :: offsets (p + r.length + 1) rs

/-- A callback that only touches the record it is given: it keeps the size of
the memory and every byte outside the C string at `p` and its terminator. -/
def TouchesOnlyRecord {σ : Type} (callback : σ → Mem → Nat → σ × Mem) : Prop :=
  ∀ st m p, (callback st m p).2.length = m.length ∧
    ∀ i, (i < p ∨ p + strlen m p < i) → (callback st m p).2.getD i 0 = m.getD i 0

/-! ## The control protocol -/

/-- The enum `RunType`. -/
inductive RunType
  | CONTROL
  | RUNNING
  | DONE
  | DEFAULT
  deriving DecidableEq, Repr

/-- What `_processControlCommand` does with one record: the diagnostic for a
record without `':'`, the call `_run_new(execStrings, runType)` with the
strings `execStrings` points to, the call `puts`, or the diagnostic for an
unknown verb. -/
inductive ControlAction
  | unrecognized (cmd : List Nat)
  | spawn (execStrings : List (List Nat)) (runType : RunType)
  | print (text : List Nat)
  | unknown (verb rest : List Nat)
  deriving DecidableEq, Repr

/-- The literal `"exec"`. -/
def execVerb : List Nat := [101, 120, 101, 99]

/-- The literal `"print"`. -/
def printVerb : List Nat := [112, 114, 105, 110, 116]

/-- The function `_processControlCommand(b + cmd)`: the memory afterwards and
the action taken.  `strcmp(x, y) == 0` is equality of the two C strings.  The
result is `none` only if the loop of `zapAll` runs out of rounds. -/
def _processControlCommand (b : Mem) (cmd : Nat) : Option (Mem × ControlAction) :=
  let sz := strlen b cmd
  match zapNextChar b cmd sz COLON with
  | (b1, none) => some (b1, ControlAction.unrecognized (cstr b1 cmd))
  | (b1, some p) =>
    if cstr b1 cmd = execVerb then
      match zapAll b1 (cmd + p) (sz - p) SP with
      | none => none
      | some (b2, _) =>
        let execStrings := extractStrings b2 (cmd + p) (sz - p)
        some (b2, ControlAction.spawn (execStrings.map (cstr b2)) RunType.RUNNING)
    else if cstr b1 cmd = printVerb then
      some (b1, ControlAction.print (cstr b1 (cmd + p)))
    else
      some (b1, ControlAction.unknown (cstr b1 cmd) (cstr b1 (cmd + p)))

/-- The modulus of `size_t` arithmetic. -/
def SIZE_MOD : Nat := 2 ^ 64

/-- The struct `PipeEvent`. -/
structure PipeEvent where
  stored : Bool
  size : Nat
  time : Int
  deriving DecidableEq, Repr

/-- The function `_event_set`; `now` is what its call of `time(0)` returns. -/
def _event_set (size : Nat) (now : Int) : PipeEvent :=
  { stored := false, size := size, time := now }

/-- The function `_event_set_iftime`; `now1` is what the call of `time(0)` in
the condition returns and `now2` what the one inside `_event_set` returns. -/
def _event_set_iftime (event : PipeEvent) (size : Nat) (now1 now2 : Int) : PipeEvent :=
  if event.size < size ∧ event.time < now1 - 9 then _event_set size now2 else event

/-- The struct `FilePipe`.  The field `in` is spelled `in_`; `sink` is the
content of the file behind the descriptor `out`, that is, all that `write` has
accepted so far. -/
structure FilePipe where
  in_ : Int
  out : Int
  counter : Nat
  event : PipeEvent
  name : String
  sink : List Nat
  deriving DecidableEq, Repr

/-- The function `_pipe_init`; `now` is what `time(0)` returns. -/
def _pipe_init (name : String) (now : Int) : FilePipe :=
  { in_ := -1, out := -1, counter := 0, event := _event_set 0 now, name := name, sink := [] }

/-- What the kernel answers to one `read`: a failure with its `errno`, or the
bytes it has ready, of which it delivers at most as many as were asked for
(none at end of file). -/
inductive ReadResult
  | failed (errno : Int)
  | bytes (data : List Nat)
  deriving DecidableEq, Repr

/-- The function `_pipe_copy`.  `set` lists the descriptors that are ready,
`rd` is the kernel's answer to the `read`, the callback works on the buffer and
on the rest of the program's state `st`; it gives `none` if it does not return.
The `write` is taken to accept all `cnt` bytes.  The last component is `cnt`. -/
def _pipe_copy {σ : Type} (pipe : FilePipe) (set : List Int) (buff : Buff)
    (callback : Option (σ → Buff → Option (σ × Buff))) (st : σ) (rd : ReadResult)
    (now1 now2 : Int) : Option (FilePipe × Buff × σ × Int) :=
  if pipe.in_ ∈ set then
    let tail := _buff_tail buff
    match rd with
    | ReadResult.failed _ => some (pipe, buff, st, -1)
    | ReadResult.bytes data =>
      let chunk := data.take (_buff_left buff)
      let cnt := chunk.length
      if 0 < cnt then
        let head1 := buff.head.take tail ++ chunk ++ buff.head.drop (tail + cnt)
        let pipe1 : FilePipe :=
          { pipe with
            event := _event_set_iftime pipe.event pipe.counter now1 now2
            sink := pipe.sink ++ (head1.drop tail).take cnt
            counter := (pipe.counter + cnt) % SIZE_MOD }
        let buff1 : Buff := { buff with head := head1, used := buff.used + cnt }
        match callback with
        | none => some (pipe1, buff1, st, cnt)
        | some f =>
          match f st buff1 with
          | none => none
          | some (st1, buff2) => some (pipe1, buff2, st1, cnt)
      else some (pipe, buff, st, 0)
  else some (pipe, buff, st, 0)

/-- The callback `_buff_reset` in the form `_pipe_copy` takes. -/
def resetCallback {σ : Type} : σ → Buff → Option (σ × Buff) :=
  fun st buff => some (st, _buff_reset buff)

/-- The function `_process_control_output` in the form `_pipe_copy` takes, for
a command callback `command` in the place of `_processControlCommand`. -/
def _process_control_output {σ : Type} (command : σ → Mem → Nat → σ × Mem) :
    σ → Buff → Option (σ × Buff) :=
  fun st buff => (_buff_processLines command st buff).map (fun d => (d.state, d.buff))

/-- The arguments of one call of `_pipe_copy` on an endpoint. -/
structure CopyArgs (σ : Type) where
  set : List Int
  buff : Buff
  callback : Option (σ → Buff → Option (σ × Buff))
  st : σ
  rd : ReadResult
  now1 : Int
  now2 : Int

/-- The bytes the `read` of a call delivers from the source `fd`. -/
def delivered {σ : Type} (fd : Int) (a : CopyArgs σ) : List Nat :=
  if fd ∈ a.set then
    match a.rd with
    | ReadResult.failed _ => []
    | ReadResult.bytes data => data.take (_buff_left a.buff)
  else []

/-- A sequence of calls of `_pipe_copy` on one endpoint. -/
def copyAll {σ : Type} : FilePipe → List (CopyArgs σ) → Option FilePipe
  | pipe, [] => some pipe
  | pipe, a :: as =>
    match _pipe_copy pipe a.set a.buff a.callback a.st a.rd a.now1 a.now2 with
    | none => none
    | some r => copyAll r.1 as

/-- The first call of the C7 witness: the control child's stdout into the
control buffer, which still holds the partial line `ab`. -/
def witnessCallControl : CopyArgs Unit :=
  { set := [5]
    buff := { head := [97, 98, 0, 0, 0, 0, 0, 0], size := 8, used := 2 }
    callback := some (_process_control_output (fun (st : Unit) (m : Mem) (_ : Nat) => (st, m)))
    st := ()
    rd := ReadResult.bytes [99, 10, 100]
    now1 := 0
    now2 := 0 }

/-- The second call of the C7 witness: a read into the scratch buffer whose
free space is smaller than what the kernel has ready. -/
def witnessCallScratch : CopyArgs Unit :=
  { set := [5]
    buff := { head := [0, 0], size := 2, used := 0 }
    callback := some resetCallback
    st := ()
    rd := ReadResult.bytes [101, 102, 103]
    now1 := 20
    now2 := 20 }


/-! ## Run records -/

/-- What can go wrong where the C program has undefined behaviour: a member
access through `NULL`, an access to a record after `free`, a read of
`runs[MAX_RUN]`; and a callback that does not return. -/
inductive Fault
  | nullDeref
  | useAfterFree
  | outOfBounds
  | noReturn
  deriving DecidableEq, Repr

/-- The string `toId(tt, pid)` builds, `dYYYYMMDDtHHMMSSp<pid>`, kept as the
two values it prints. -/
structure RunId where
  time : Int
  pid : Int
  deriving DecidableEq, Repr

/-- The function `toId`. -/
def toId (tt pid : Int) : RunId :=
  { time := tt, pid := pid }

/-- The size of the static scratch array `buff`. -/
def BUFF_SIZE : Nat := 1024

/-- The function `toCmd`: every string followed by a space, as far as the
scratch array has room. -/
def toCmd (cmdArray : List (List Nat)) : List Nat :=
  (cmdArray.map (fun a => a ++ [SP])).flatten.take (BUFF_SIZE - 1)

/-- The enum `PathType`. -/
inductive PathType
  | DIRECTORY
  | OUT_FILE
  | ERR_FILE
  | INDEX_FILE
  | RUNNING_FILE
  | INVOKED_FILE
  | FINISHED_FILE
  deriving DecidableEq, Repr

/-- A path `statusRoot/runTypeName/id` followed by the suffix of its type. -/
structure Path where
  runType : RunType
  id : RunId
  pathType : PathType
  deriving DecidableEq, Repr

/-- A line of `stdindex.csv` below the header; `time` is the `time_t` value
that the line prints as local time, `size` the `size_t` value that it prints
with `%ld` (the number `longOf size`). -/
structure IndexRow where
  stream : String
  time : Int
  size : Nat
  deriving DecidableEq, Repr

/-- The struct `Run`.  The field `end` is spelled `end_`.  `index` is `none`
for a `NULL` stream and otherwise holds the lines the supervisor has printed
to the stream below the header.
`returnCode` is not initialised by `_runs_add`; it stands as 0 until set. -/
structure Run where
  id : RunId
  runType : RunType
  pid : Int
  std_out : FilePipe
  std_err : FilePipe
  index : Option (List IndexRow)
  control_in : Int
  start : Int
  end_ : Int
  returnCode : Int
  cmd : List Nat
  deriving DecidableEq, Repr

/-- The function `_run_path`. -/
def _run_path (run : Run) (rt : RunType) (pt : PathType) : Path :=
  { runType := if rt = RunType.DEFAULT then run.runType else rt, id := run.id, pathType := pt }

/-- The two endpoints of a run, for the pointers `&(run->std_out)` and
`&(run->std_err)`. -/
inductive Endpoint
  | std_out
  | std_err
  deriving DecidableEq, Repr

/-- The endpoint a pointer selects. -/
def Run.pipe (run : Run) : Endpoint → FilePipe
  | Endpoint.std_out => run.std_out
  | Endpoint.std_err => run.std_err

/-- An assignment through the pointer to an endpoint. -/
def Run.setPipe (run : Run) : Endpoint → FilePipe → Run
  | Endpoint.std_out, p => { run with std_out := p }
  | Endpoint.std_err, p => { run with std_err := p }

/-- The record `_runs_add` fills in; `tOut` and `tErr` are what `time(0)`
returns in the two calls of `_pipe_init`. -/
def newRun (type : RunType) (tt pid : Int) (cmdArray : List (List Nat)) (tOut tErr : Int) : Run :=
  { id := toId tt pid
    runType := type
    pid := pid
    std_out := _pipe_init "out" tOut
    std_err := _pipe_init "err" tErr
    index := none
    start := tt
    end_ := 0
    control_in := -1
    returnCode := 0
    cmd := toCmd cmdArray }

/-- The function `_run_open` on the record: `outFd` and `errFd` are the
descriptors the two calls of `open` return; the index file is created empty
and its header written. -/
def openRun (run : Run) (inputStdOut inputStdErr outFd errFd : Int) : Run :=
  { run with
    std_out := { run.std_out with in_ := inputStdOut, out := outFd }
    std_err := { run.std_err with in_ := inputStdErr, out := errFd }
    index := some [] }

/-- The function `_run_storePipeEvent(run, pipe)` for the endpoint `e` of the
run. -/
def _run_storePipeEvent (run : Run) (e : Endpoint) : Except Fault Run :=
  if (run.pipe e).event.stored then Except.ok run
  else
    match run.index with
    | none => Except.error Fault.nullDeref
    | some rows =>
      let pipe : FilePipe := run.pipe e
      let run1 : Run := { run with
        index := some (rows ++ [{ stream := pipe.name, time := pipe.event.time,
                                  size := pipe.event.size }]) }
      Except.ok (run1.setPipe e { pipe with event := { pipe.event with stored := true } })

/-- The first statements of `_run_free`: the forced samples of both endpoints
and their flush.  `tOut` and `tErr` are what `time(0)` returns in the two calls
of `_event_set`. -/
def finalSamples (run : Run) (tOut tErr : Int) : Except Fault Run :=
  let run1 := { run with std_out := { run.std_out with
                  event := _event_set run.std_out.counter tOut } }
  let run2 := { run1 with std_err := { run1.std_err with
                  event := _event_set run1.std_err.counter tErr } }
  match _run_storePipeEvent run2 Endpoint.std_out with
  | Except.error f => Except.error f
  | Except.ok run3 => _run_storePipeEvent run3 Endpoint.std_err

/-- A line of `invoked.csv` below the header. -/
structure InvokedRow where
  id : RunId
  pid : Int
  runType : RunType
  startTime : Int
  statusDirectory : Path
  cmd : List Nat
  deriving DecidableEq, Repr

/-- A line of `running.csv` below the header. -/
structure RunningRow where
  id : RunId
  pid : Int
  runType : RunType
  startTime : Int
  duration : Int
  statusDirectory : Path
  cmd : List Nat
  deriving DecidableEq, Repr

/-- A line of `finished.csv` below the header. -/
structure FinishedRow where
  id : RunId
  pid : Int
  runType : RunType
  returnCode : Int
  startTime : Int
  endTime : Int
  duration : Int
  statusDirectory : Path
  cmd : List Nat
  deriving DecidableEq, Repr

/-- The line `_run_new` prints to `invoked`. -/
def invokedRow (run : Run) : InvokedRow :=
  { id := run.id
    pid := run.pid
    runType := run.runType
    startTime := run.start
    statusDirectory := _run_path run RunType.DEFAULT PathType.DIRECTORY
    cmd := run.cmd }

/-- The line `_runs_updateRunning` prints for a run; `now` is what `time(0)`
returns for this line. -/
def runningRow (run : Run) (now : Int) : RunningRow :=
  { id := run.id
    pid := run.pid
    runType := run.runType
    startTime := run.start
    duration := now - run.start
    statusDirectory := _run_path run RunType.DEFAULT PathType.DIRECTORY
    cmd := run.cmd }

/-- The line `_run_free` prints to `finished`; `renamed` tells whether the
`rename` of the run's directory succeeded. -/
def finishedRow (run : Run) (renamed : Bool) : FinishedRow :=
  { id := run.id
    pid := run.pid
    runType := run.runType
    returnCode := run.returnCode
    startTime := run.start
    endTime := run.end_
    duration := run.end_ - run.start
    statusDirectory :=
      if run.runType = RunType.CONTROL then _run_path run RunType.CONTROL PathType.DIRECTORY
      else if renamed then _run_path run RunType.DONE PathType.DIRECTORY
      else _run_path run RunType.DEFAULT PathType.DIRECTORY
    cmd := run.cmd }

/-! ## The supervisor's state -/

/-- The static variables of the program and the files it keeps.  `heap` holds
the records `malloc` has handed out, `none` once freed; an address is an index
into it.  `runs` is the array of pointers, `none` for `NULL`.  `invoked` and
`finished` are the two streams, `none` for `NULL`, with the lines the
supervisor has printed to them below their headers (what of them is on disk
is told by `Disk`).  `running` gives for a path the lines below the header of the
`running.csv` last written there.  `finalised` lists the records destroyed so
far, as they stood at `free`, for the files they leave behind. -/
structure Supervisor where
  heap : List (Option Run)
  runs : List (Option Nat)
  maxRun : Nat
  ctrlRun : Option Nat
  invoked : Option (List InvokedRow)
  finished : Option (List FinishedRow)
  running : Path → Option (List RunningRow)
  finalised : List Run

/-- The value of `FD_SETSIZE` in the system headers. -/
def FD_SETSIZE : Nat := 1024

/-- The macro `MAX_RUN`. -/
def MAX_RUN : Nat := FD_SETSIZE / 2

/-- The state after `_runs_init`, for a table of `maxRun` slots. -/
def _runs_init (maxRun : Nat) : Supervisor :=
  { heap := []
    runs := List.replicate maxRun none
    maxRun := maxRun
    ctrlRun := none
    invoked := none
    finished := none
    running := fun _ => none
    finalised := [] }

/-- The search loop of `_runs_add`: `n` counts the rounds left before
`runIdx` reaches `maxRun`; the result is the free slot, `none` for the
`return NULL`. -/
def findSlot (runs : List (Option Nat)) (maxRun : Nat) : Nat → Nat → Option Nat
  | 0, _ => none
  | n + 1, runIdx =>
    if runs.getD runIdx none = none then some runIdx
    else if runIdx + 1 ≥ maxRun then none
    else findSlot runs maxRun n (runIdx + 1)

/-- The function `_runs_add`: the state and the pointer returned, `none` for
`NULL`. -/
def _runs_add (s : Supervisor) (type : RunType) (tt pid : Int) (cmdArray : List (List Nat))
    (tOut tErr : Int) : Supervisor × Option Nat :=
  match findSlot s.runs s.maxRun s.maxRun 0 with
  | none => (s, none)
  | some runIdx =>
    let addr := s.heap.length
    ({ s with heap := s.heap ++ [some (newRun type tt pid cmdArray tOut tErr)]
              runs := s.runs.set runIdx (some addr) }, some addr)

/-- A member access through the pointer `p`. -/
def deref (s : Supervisor) (p : Option Nat) : Except Fault Run :=
  match p with
  | none => Except.error Fault.nullDeref
  | some addr =>
    match s.heap.getD addr none with
    | none => Except.error Fault.useAfterFree
    | some run => Except.ok run

/-- The loop of `_runs_updateRunning` over the table: `n` counts the slots left
before `runIdx` reaches `maxRun`; `now` gives what `time(0)` returns for the
line of each slot. -/
def runningRows (s : Supervisor) (now : Nat → Int) : Nat → Nat → Except Fault (List RunningRow)
  | 0, _ => Except.ok []
  | n + 1, runIdx =>
    match s.runs.getD runIdx none with
    | none => Except.ok []
    | some addr =>
      match deref s (some addr) with
      | Except.error f => Except.error f
      | Except.ok run =>
        match runningRows s now n (runIdx + 1) with
        | Except.error f => Except.error f
        | Except.ok rows => Except.ok (runningRow run (now runIdx) :: rows)

/-- The function `_runs_updateRunning`. -/
def _runs_updateRunning (s : Supervisor) (now : Nat → Int) : Except Fault Supervisor :=
  match deref s s.ctrlRun with
  | Except.error f => Except.error f
  | Except.ok ctrl =>
    match runningRows s now s.maxRun 0 with
    | Except.error f => Except.error f
    | Except.ok rows =>
      let path := _run_path ctrl RunType.DEFAULT PathType.RUNNING_FILE
      Except.ok { s with running := fun p => if p = path then some rows else s.running p }

/-- What the environment answers during one `_run_new` on the parent's side:
the descriptors `pipe` and `open` return, the times `time(0)` returns, and the
pid `fork` returns. -/
structure SpawnEnv where
  runPipes0 : Int
  runPipes2 : Int
  runPipes5 : Int
  outFd : Int
  errFd : Int
  tt : Int
  pid : Int
  tOut : Int
  tErr : Int
  now : Nat → Int

/-- The function `_run_new` in the parent process (`fork` returned the pid of
the child): the state of the supervisor and the pointer returned.  The branch
of the child is `_run_new_child`, the two together are `forkRun`. -/
def _run_new (s : Supervisor) (cmd : List (List Nat)) (runType : RunType) (env : SpawnEnv) :
    Except Fault (Supervisor × Nat) :=
  match _runs_add s runType env.tt env.pid cmd env.tOut env.tErr with
  | (s1, run) =>
    match deref s1 run with
    | Except.error f => Except.error f
    | Except.ok r0 =>
      match run with
      | none => Except.error Fault.nullDeref
      | some addr =>
        let r1 : Run := if runType = RunType.CONTROL then { r0 with control_in := env.runPipes5 }
                        else r0
        let s2 := if runType = RunType.CONTROL then
                    { s1 with ctrlRun := some addr, invoked := some [], finished := some [] }
                  else s1
        let r2 := openRun r1 env.runPipes0 env.runPipes2 env.outFd env.errFd
        let s3 := { s2 with heap := s2.heap.set addr (some r2) }
        match s3.invoked with
        | none => Except.error Fault.nullDeref
        | some rows =>
          let s4 := { s3 with invoked := some (rows ++ [invokedRow r2]) }
          match _runs_updateRunning s4 env.now with
          | Except.error f => Except.error f
          | Except.ok s5 => Except.ok (s5, addr)

/-- What the environment answers while one terminated child is handled: the
pid and status `waitpid` returns, the times `time(0)` returns for `run->end`
and for the two forced samples, and whether `rename` succeeds. -/
structure ReapEnv where
  pid : Int
  status : Int
  now : Int
  tOut : Int
  tErr : Int
  renamed : Bool

/-- The function `_run_free` on the record at `addr`. -/
def _run_free (s : Supervisor) (addr : Nat) (env : ReapEnv) : Except Fault Supervisor :=
  match deref s (some addr) with
  | Except.error f => Except.error f
  | Except.ok run =>
    match finalSamples run env.tOut env.tErr with
    | Except.error f => Except.error f
    | Except.ok run1 =>
      match s.finished with
      | none => Except.error Fault.nullDeref
      | some rows =>
        Except.ok { s with
          finished := some (rows ++ [finishedRow run1 env.renamed])
          heap := s.heap.set addr none
          finalised := s.finalised ++ [run1] }

/-- The statement `if( run->pid == pid ){ ... }` in the loop of
`_runs_checkForTerminatedJobs` for the run at `addr`: the state and the value
of `collapse` afterwards. -/
def reapVisit (env : ReapEnv) (s : Supervisor) (addr : Nat) (run : Run) (collapse : Bool) :
    Except Fault (Supervisor × Bool) :=
  if run.pid = env.pid then
    let run1 : Run := { run with returnCode := env.status, end_ := env.now }
    let s1 : Supervisor := { s with heap := s.heap.set addr (some run1) }
    match _run_free s1 addr env with
    | Except.error f => Except.error f
    | Except.ok s2 => Except.ok (s2, true)
  else Except.ok (s, collapse)

/-- The statement `runs[runIdx] = runs[runIdx+1]`; the array has `maxRun`
elements. -/
def reapShift (s : Supervisor) (runIdx : Nat) : Except Fault Supervisor :=
  if runIdx + 1 < s.maxRun then
    Except.ok { s with runs := s.runs.set runIdx (s.runs.getD (runIdx + 1) none) }
  else Except.error Fault.outOfBounds

/-- The `for` loop in `_runs_checkForTerminatedJobs` for one pid: `n` counts
the slots left before `runIdx` reaches `maxRun`. -/
def reapLoop (env : ReapEnv) : Nat → Nat → Bool → Supervisor → Except Fault Supervisor
  | 0, _, _, s => Except.ok s
  | n + 1, runIdx, collapse, s =>
    match s.runs.getD runIdx none with
    | none => Except.ok s
    | some addr =>
      match deref s (some addr) with
      | Except.error f => Except.error f
      | Except.ok run =>
        match reapVisit env s addr run collapse with
        | Except.error f => Except.error f
        | Except.ok (s3, collapse1) =>
          if collapse1 then
            match reapShift s3 runIdx with
            | Except.error f => Except.error f
            | Except.ok s4 => reapLoop env n (runIdx + 1) collapse1 s4
          else reapLoop env n (runIdx + 1) collapse1 s3

/-- One round of the `while` loop of `_runs_checkForTerminatedJobs`: `waitpid`
has returned the pid of `env`. -/
def reapOne (s : Supervisor) (env : ReapEnv) : Except Fault Supervisor :=
  reapLoop env s.maxRun 0 false s

/-- The rounds of the `while` loop for the children `waitpid` reports, in
order. -/
def reapAll : Supervisor → List ReapEnv → Except Fault Supervisor
  | s, [] => Except.ok s
  | s, env :: envs =>
    match reapOne s env with
    | Except.error f => Except.error f
    | Except.ok s1 => reapAll s1 envs

/-- The function `_runs_checkForTerminatedJobs`: `waits` lists the children
`waitpid` reports before it returns a value that is not positive; the result
is the state and the value returned. -/
def _runs_checkForTerminatedJobs (s : Supervisor) (waits : List ReapEnv) (now : Nat → Int) :
    Except Fault (Supervisor × Bool) :=
  match reapAll s waits with
  | Except.error f => Except.error f
  | Except.ok s1 =>
    let changes := !waits.isEmpty
    let updated := if changes then _runs_updateRunning s1 now else Except.ok s1
    match updated with
    | Except.error f => Except.error f
    | Except.ok s2 => Except.ok (s2, decide (s2.runs.getD 0 none ≠ none))

/-- The pid of the record at an address, `none` when the record is freed. -/
def pidAt (s : Supervisor) (addr : Nat) : Option Int :=
  (s.heap.getD addr none).map Run.pid

/-- The lines of one stream in an index file. -/
def streamRows (label : String) (rows : List IndexRow) : List IndexRow :=
  rows.filter (fun r => r.stream = label)

/-- What the environment answers in the witnesses' calls of `_run_new`: child
`pid`, started at time `t`. -/
def witnessSpawn (pid t : Int) : SpawnEnv :=
  { runPipes0 := 3, runPipes2 := 5, runPipes5 := 8, outFd := 9, errFd := 10
    tt := t, pid := pid, tOut := t, tErr := t, now := fun _ => t }

/-- What the environment answers in the witnesses' reaps: child `pid` found
terminated at time `t`. -/
def witnessReap (pid t : Int) : ReapEnv :=
  { pid := pid, status := 0, now := t, tOut := t, tErr := t, renamed := true }

/-- The state of a supervisor with `maxRun` slots after the control child
(pid 50, command `c`) has been started at time 100, or the initial state if
that faults. -/
def controlStarted (maxRun : Nat) : Supervisor :=
  match _run_new (_runs_init maxRun) [[99]] RunType.CONTROL (witnessSpawn 50 100) with
  | Except.ok r => r.1
  | Except.error _ => _runs_init maxRun

/-- The state after the control child and then a job (pid 51, command `j`,
started at time 101), or the state before if the second spawn faults. -/
def jobStarted (maxRun : Nat) : Supervisor :=
  match _run_new (controlStarted maxRun) [[106]] RunType.RUNNING (witnessSpawn 51 101) with
  | Except.ok r => r.1
  | Except.error _ => controlStarted maxRun

/-- A table of `n` slots that all hold live runs: the control run at slot 0
with pid 1000 and jobs with the pids 1001, 1002, ... behind it. -/
def saturated (n : Nat) : Supervisor :=
  { heap := (List.range n).map (fun i => some (openRun
      (newRun (if i = 0 then RunType.CONTROL else RunType.RUNNING) 100 (1000 + i) [[106]] 100 100)
      3 5 9 10))
    runs := (List.range n).map some
    maxRun := n
    ctrlRun := some 0
    invoked := some ((List.range n).map (fun i => invokedRow (openRun
      (newRun (if i = 0 then RunType.CONTROL else RunType.RUNNING) 100 (1000 + i) [[106]] 100 100)
      3 5 9 10)))
    finished := some []
    running := fun _ => none
    finalised := [] }

/-! ## The life of one run -/

/-- The call `_pipe_copy(&(run->e), ...)` on the endpoint `e` of a run. -/
def copyOn {σ : Type} (run : Run) (e : Endpoint) (a : CopyArgs σ) : Except Fault Run :=
  match _pipe_copy (run.pipe e) a.set a.buff a.callback a.st a.rd a.now1 a.now2 with
  | none => Except.error Fault.noReturn
  | some r => Except.ok (run.setPipe e r.1)

/-- The statements of `_runs_prepareDescriptors` that change a run: the flush
of the pending samples of its two endpoints. -/
def prepareRun (run : Run) : Except Fault Run :=
  match _run_storePipeEvent run Endpoint.std_out with
  | Except.error f => Except.error f
  | Except.ok run1 => _run_storePipeEvent run1 Endpoint.std_err

/-- The arguments of the two calls of `_pipe_copy` that `_runs_processOutput`
makes for one run, on `std_out` and then on `std_err`; a call whose descriptor
is not in its `set` does nothing, as when `select` reports nothing. -/
structure Cycle (σ : Type) where
  out : CopyArgs σ
  err : CopyArgs σ

/-- The body of `_runs_processOutput` for one run. -/
def outputRun {σ : Type} (run : Run) (c : Cycle σ) : Except Fault Run :=
  match copyOn run Endpoint.std_out c.out with
  | Except.error f => Except.error f
  | Except.ok run1 => copyOn run1 Endpoint.std_err c.err

/-- One iteration of the loop of `main` as one run sees it:
`_runs_prepareDescriptors`, then `_runs_processOutput`. -/
def cycleRun {σ : Type} (run : Run) (c : Cycle σ) : Except Fault Run :=
  match prepareRun run with
  | Except.error f => Except.error f
  | Except.ok run1 => outputRun run1 c

/-- Successive iterations of the loop of `main` as one run sees them. -/
def runCycles {σ : Type} : Run → List (Cycle σ) → Except Fault Run
  | run, [] => Except.ok run
  | run, c :: cs =>
    match cycleRun run c with
    | Except.error f => Except.error f
    | Except.ok run1 => runCycles run1 cs

/-- All that happens to one run between its creation and its destruction.
The run is created by `_runs_add` and `_run_open` inside `_run_new`; when that
happens inside `_runs_processOutput`, the rest of that call may already copy
from the new run (`first`); then come full iterations of the loop of `main`
(`cycles`); at last `_run_free` forces and flushes the final samples, with the
times `fOut` and `fErr`. -/
structure Life (σ : Type) where
  type : RunType
  tt : Int
  pid : Int
  cmdArray : List (List Nat)
  tOut : Int
  tErr : Int
  inputStdOut : Int
  inputStdErr : Int
  outFd : Int
  errFd : Int
  first : Cycle σ
  cycles : List (Cycle σ)
  fOut : Int
  fErr : Int

/-- The record of a run at the end of its life, as `_run_free` leaves it
before it closes the index file. -/
def lifeRun {σ : Type} (l : Life σ) : Except Fault Run :=
  let run0 := openRun (newRun l.type l.tt l.pid l.cmdArray l.tOut l.tErr)
    l.inputStdOut l.inputStdErr l.outFd l.errFd
  match outputRun run0 l.first with
  | Except.error f => Except.error f
  | Except.ok run1 =>
    match runCycles run1 l.cycles with
    | Except.error f => Except.error f
    | Except.ok run2 => finalSamples run2 l.fOut l.fErr

/-- The values `time(0)` may return during the two copies of a cycle, in the
order of the calls. -/
def Cycle.clock {σ : Type} (c : Cycle σ) : List Int :=
  [c.out.now1, c.out.now2, c.err.now1, c.err.now2]

/-- The values `time(0)` may return during the life of a run, in the order of
the calls. -/
def Life.clock {σ : Type} (l : Life σ) : List Int :=
  [l.tOut, l.tErr] ++ l.first.clock ++ (l.cycles.map Cycle.clock).flatten ++ [l.fOut, l.fErr]

/-- The arguments of all calls of `_pipe_copy` during the life of a run. -/
def Life.calls {σ : Type} (l : Life σ) : List (CopyArgs σ) :=
  [l.first.out, l.first.err] ++ (l.cycles.map (fun c => [c.out, c.err])).flatten

/-- What ties the lines of one stream in the index to the sample its endpoint
holds, when no call of `time(0)` so far has returned more than `T`: every line
of the stream is no later and no larger than the sample, and at least ten
seconds older while the sample is still pending; a pending sample is no older
than any line of the file. -/
structure StreamInv (T : Int) (p : FilePipe) (rows : List IndexRow) : Prop where
  counter_eq : p.counter = p.sink.length
  size_le : p.event.size ≤ p.counter
  time_le : p.event.time ≤ T
  row_le : ∀ row ∈ streamRows p.name rows, row.size ≤ p.event.size ∧
    row.time ≤ p.event.time ∧ (p.event.stored = false → row.time + 9 < p.event.time)
  pending_ge : p.event.stored = false → ∀ row ∈ rows, row.time ≤ p.event.time
  sizes_sorted : ((streamRows p.name rows).map IndexRow.size).Pairwise (fun a b => a ≤ b)
  spaced : (streamRows p.name rows).Chain' (fun a b => a.time + 9 ≤ b.time)

/-- The invariant of a run with an open index file that holds `rows`. -/
structure RunInv (T : Int) (r : Run) (rows : List IndexRow) : Prop where
  index_eq : r.index = some rows
  name_out : r.std_out.name = "out"
  name_err : r.std_err.name = "err"
  out : StreamInv T r.std_out rows
  err : StreamInv T r.std_err rows
  rows_le : ∀ row ∈ rows, row.time ≤ T
  times_sorted : (rows.map IndexRow.time).Pairwise (fun a b => a ≤ b)

/-- When both samples of a run are pending, that of `std_out` is the older. -/
def PendingOrder (r : Run) : Prop :=
  r.std_out.event.stored = false → r.std_err.event.stored = false →
    r.std_out.event.time ≤ r.std_err.event.time

/-- A call of `_pipe_copy` for the witnesses: the scratch buffer of four bytes
with the callback `_buff_reset`, the kernel having `data` ready at time `t`. -/
def witnessArgs (set : List Int) (data : List Nat) (t : Int) : CopyArgs Unit :=
  { set := set
    buff := { head := [0, 0, 0, 0], size := 4, used := 0 }
    callback := some resetCallback
    st := ()
    rd := ReadResult.bytes data
    now1 := t
    now2 := t }

/-- The life of a job for the witness of the index order: started at time 0,
it writes three bytes to its stdout at time 10 and two more at time 25, is
seen idle at time 27 and is reaped at time 30. -/
def witnessLife : Life Unit :=
  { type := RunType.RUNNING, tt := 0, pid := 51, cmdArray := [[106]], tOut := 0, tErr := 0
    inputStdOut := 3, inputStdErr := 5, outFd := 9, errFd := 10
    first := { out := witnessArgs [] [] 0, err := witnessArgs [] [] 0 }
    cycles :=
      [{ out := witnessArgs [3] [97, 98, 99] 10, err := witnessArgs [3] [] 10 },
       { out := witnessArgs [3] [100, 101] 25, err := witnessArgs [3] [] 25 },
       { out := witnessArgs [] [] 27, err := witnessArgs [] [] 27 }]
    fOut := 30, fErr := 30 }

/-! ## The supervisor's steps -/

/-- The loop of `_runs_prepareDescriptors`: `n` counts the slots left before
`runIdx` reaches `maxRun`; `fds` collects the descriptors put into the set. -/
def prepareLoop : Nat → Nat → Supervisor → List Int → Except Fault (Supervisor × List Int)
  | 0, _, s, fds => Except.ok (s, fds)
  | n + 1, runIdx, s, fds =>
    match s.runs.getD runIdx none with
    | none => Except.ok (s, fds)
    | some addr =>
      match deref s (some addr) with
      | Except.error f => Except.error f
      | Except.ok run =>
        match prepareRun run with
        | Except.error f => Except.error f
        | Except.ok run1 =>
          prepareLoop n (runIdx + 1) { s with heap := s.heap.set addr (some run1) }
            (fds ++ [run1.std_out.in_, run1.std_err.in_])

/-- The function `_runs_prepareDescriptors`: the state, the descriptors of the
set, and the value returned. -/
def _runs_prepareDescriptors (s : Supervisor) : Except Fault (Supervisor × List Int × Int) :=
  match prepareLoop s.maxRun 0 s [] with
  | Except.error f => Except.error f
  | Except.ok (s1, fds) => Except.ok (s1, fds, fds.foldl max 0 + 1)

/-- One call of `_pipe_copy` inside `_runs_processOutput`, on the endpoint `e`
of the run in slot `runIdx`, as far as it changes the run; what the callback
does to the rest of the state, the calls of `_run_new` for the commands of the
control child, are steps of their own. -/
def copyAt {σ : Type} (s : Supervisor) (runIdx : Nat) (e : Endpoint) (a : CopyArgs σ) :
    Except Fault Supervisor :=
  match s.runs.getD runIdx none with
  | none => Except.ok s
  | some addr =>
    match deref s (some addr) with
    | Except.error f => Except.error f
    | Except.ok run =>
      match copyOn run e a with
      | Except.error f => Except.error f
      | Except.ok run1 => Except.ok { s with heap := s.heap.set addr (some run1) }

/-- The steps of the supervisor that touch the run table, the records or the
ledgers, each with what the environment answers during it. -/
inductive Op
  | spawn (cmd : List (List Nat)) (runType : RunType) (env : SpawnEnv)
  | reap (env : ReapEnv)
  | update (now : Nat → Int)
  | prepare
  | copy (runIdx : Nat) (e : Endpoint) (a : CopyArgs Unit)

/-- The state after a step. -/
def applyOp (s : Supervisor) : Op → Except Fault Supervisor
  | Op.spawn cmd runType env =>
    match _run_new s cmd runType env with
    | Except.error f => Except.error f
    | Except.ok r => Except.ok r.1
  | Op.reap env => reapOne s env
  | Op.update now => _runs_updateRunning s now
  | Op.prepare =>
    match _runs_prepareDescriptors s with
    | Except.error f => Except.error f
    | Except.ok r => Except.ok r.1
  | Op.copy runIdx e a => copyAt s runIdx e a

/-- The state after a sequence of steps. -/
def applyOps : Supervisor → List Op → Except Fault Supervisor
  | s, [] => Except.ok s
  | s, op :: ops =>
    match applyOp s op with
    | Except.error f => Except.error f
    | Except.ok s1 => applyOps s1 ops

/-- The pid `fork` returns is not the pid of a child that has not been waited
for: no run of the table has the pid of a spawn. -/
def FreshPid (s : Supervisor) (pid : Int) : Prop :=
  ∀ addr, some addr ∈ s.runs → pidAt s addr ≠ some pid

/-- A step that can happen in state `s`: a spawn gets a fresh pid, and the
control child is spawned by `main` before anything else, into the empty
table. -/
def Admissible (s : Supervisor) : Op → Prop
  | Op.spawn _ runType env =>
    FreshPid s env.pid ∧ (runType = RunType.CONTROL → ∀ addr, some addr ∉ s.runs)
  | _ => True

/-- A sequence of steps that can happen from state `s` on. -/
def AdmissibleOps : Supervisor → List Op → Prop
  | _, [] => True
  | s, op :: ops => Admissible s op ∧ ∀ s1, applyOp s op = Except.ok s1 → AdmissibleOps s1 ops

/-- The four fields that the invoked line and the finished line of a run
share. -/
def key (r : Run) : RunId × Int × RunType × Int :=
  (r.id, r.pid, r.runType, r.start)

/-- The invariant of the run table: a dense prefix of pointers to live records
with open index files and pairwise distinct pids, followed by empty slots; the
ledgers are open once a run exists, and `finished` whenever `invoked` is. -/
structure TableInv (s : Supervisor) : Prop where
  dense : ∃ (live : List Nat) (k : Nat), s.runs = live.map some ++ List.replicate k none ∧
    s.maxRun = live.length + k ∧
    (∀ a ∈ live, ∃ r, s.heap.getD a none = some r ∧ r.index ≠ none) ∧
    (live.map (pidAt s)).Nodup
  invoked_open : (∃ a, some a ∈ s.runs) → s.invoked ≠ none
  finished_open : s.invoked ≠ none → s.finished ≠ none

/-- A step from heap `h` to heap `h1` that destroys no record and keeps the
four shared fields of every record and its index file open. -/
def HeapKeep (h h1 : List (Option Run)) : Prop :=
  ∀ a r, h.getD a none = some r →
    ∃ r1, h1.getD a none = some r1 ∧ key r1 = key r ∧ (r.index ≠ none → r1.index ≠ none)

/-- The run whose record is at `addr` is in the table and has the four shared
fields `k`. -/
def Tracked (s : Supervisor) (addr : Nat) (k : RunId × Int × RunType × Int) : Prop :=
  some addr ∈ s.runs ∧ ∃ r, s.heap.getD addr none = some r ∧ key r = k

/-- A step from `s` to `s1` that writes no ledger line for the child `pid`:
each of `invoked` and `finished` is left as it was or gets one line of some
other child appended. -/
def OthersOnly (pid : Int) (s s1 : Supervisor) : Prop :=
  (s1.invoked = s.invoked ∨
    ∃ rows row, s.invoked = some rows ∧ s1.invoked = some (rows ++ [row]) ∧ row.pid ≠ pid) ∧
  (s1.finished = s.finished ∨
    ∃ rows row, s.finished = some rows ∧ s1.finished = some (rows ++ [row]) ∧ row.pid ≠ pid)

/-- The state after the steps `ops` from `s`, or `s` if a step faults. -/
def stateAfter (s : Supervisor) (ops : List Op) : Supervisor :=
  match applyOps s ops with
  | Except.ok s1 => s1
  | Except.error _ => s

/-- The steps between the spawn and the reap of the job with pid 51 in the
witness of the ledger lines: `running.csv` is rewritten, the descriptors are
collected, two bytes of the job's stdout are copied, and a second job (pid 52)
is spawned and reaped. -/
def witnessOps : List Op :=
  [Op.update (fun _ => 102), Op.prepare,
   Op.copy 1 Endpoint.std_out (witnessArgs [3] [104, 105] 103),
   Op.spawn [[107]] RunType.RUNNING (witnessSpawn 52 104),
   Op.reap (witnessReap 52 106)]

/-! ## Control commands carried out -/

/-- The supervisor process as a control command sees it: the run table with
the ledgers, and the bytes written so far to its own stdout and stderr. -/
structure Process where
  sup : Supervisor
  stdout : List Nat
  stderr : List Nat

/-- The literal `"Unrecognized command="`. -/
def unrecognizedText : List Nat :=
  [85, 110, 114, 101, 99, 111, 103, 110, 105, 122, 101, 100, 32, 99, 111, 109, 109, 97, 110,
    100, 61]

/-- The literal `"Unknown command="`. -/
def unknownText : List Nat :=
  [85, 110, 107, 110, 111, 119, 110, 32, 99, 111, 109, 109, 97, 110, 100, 61]

/-- What the branch of `_processControlCommand` that was taken does to the
process: the `fprintf(stderr, ...)` of a diagnostic, the call of `_run_new` on
the parent's side, or `puts`. -/
def perform (w : Process) (env : SpawnEnv) : ControlAction → Except Fault Process
  | ControlAction.unrecognized cmd =>
    Except.ok { w with stderr := w.stderr ++ unrecognizedText ++ cmd ++ [NL] }
  | ControlAction.spawn execStrings runType =>
    match _run_new w.sup execStrings runType env with
    | Except.error f => Except.error f
    | Except.ok r => Except.ok { w with sup := r.1 }
  | ControlAction.print text =>
    Except.ok { w with stdout := w.stdout ++ text ++ [NL] }
  | ControlAction.unknown verb rest =>
    Except.ok { w with stderr := w.stderr ++ unknownText ++ verb ++ [COLON] ++ rest ++ [NL] }

/-- The call `_processControlCommand(b + cmd)` with its effects: the process
and the memory afterwards; `env` is what the environment answers if the
command spawns a job. -/
def runControlCommand (w : Process) (b : Mem) (cmd : Nat) (env : SpawnEnv) :
    Except Fault (Process × Mem) :=
  match _processControlCommand b cmd with
  | none => Except.error Fault.noReturn
  | some (b1, action) =>
    match perform w env action with
    | Except.error f => Except.error f
    | Except.ok w1 => Except.ok (w1, b1)

/-- The prefix of a record before its first `':'`. -/
def verbOf (r : List Nat) : List Nat :=
  r.takeWhile (fun c => c != COLON)

/-- The process of the witnesses for control commands: the control child has
been started, and `x` has been printed. -/
def witnessProcess : Process :=
  { sup := controlStarted 4, stdout := [120], stderr := [] }

/-! ## The states the supervisor reaches -/

/-- No control child has been started yet: `ctrlRun` is `NULL`, the table is
empty and no ledger is open. -/
def Pristine (s : Supervisor) : Prop :=
  s.ctrlRun = none ∧ (∀ addr, some addr ∉ s.runs) ∧ s.invoked = none

/-- The pointer `ctrlRun` points to the record of a run of the table. -/
def CtrlLive (s : Supervisor) : Prop :=
  ∃ c, s.ctrlRun = some c ∧ some c ∈ s.runs

/-- The states of a supervisor with `maxRun` slots between the calls `main`
makes: the state after `_runs_init`, and from there on the states after a
spawn (with a fresh pid; the control child only into the empty table), after
`_runs_prepareDescriptors`, after a `_pipe_copy` of `_runs_processOutput`, and
after a reap pass, whenever these return. -/
inductive Reachable (maxRun : Nat) : Supervisor → Prop
  | init : Reachable maxRun (_runs_init maxRun)
  | spawn (s s1 : Supervisor) (cmd : List (List Nat)) (runType : RunType) (env : SpawnEnv)
      (addr : Nat) :
      Reachable maxRun s → FreshPid s env.pid →
      (runType = RunType.CONTROL → ∀ a, some a ∉ s.runs) →
      _run_new s cmd runType env = Except.ok (s1, addr) → Reachable maxRun s1
  | prepare (s s1 : Supervisor) (fds : List Int) (n : Int) :
      Reachable maxRun s → _runs_prepareDescriptors s = Except.ok (s1, fds, n) →
      Reachable maxRun s1
  | copy (s s1 : Supervisor) (runIdx : Nat) (e : Endpoint) (a : CopyArgs Unit) :
      Reachable maxRun s → copyAt s runIdx e a = Except.ok s1 → Reachable maxRun s1
  | pass (s s1 : Supervisor) (waits : List ReapEnv) (now : Nat → Int) (r : Bool) :
      Reachable maxRun s → _runs_checkForTerminatedJobs s waits now = Except.ok (s1, r) →
      Reachable maxRun s1

/-! ## Both sides of `fork`, and the files on disk -/

/-- A line of a csv file: the header that is printed right after `fopen`, or
a row. -/
inductive Line (α : Type)
  | header
  | row (r : α)
  deriving DecidableEq, Repr

/-- The rows among the lines of a file. -/
def rowsOf {α : Type} : List (Line α) → List α
  | [] => []
  | Line.header :: ls => rowsOf ls
  | Line.row r :: ls => r :: rowsOf ls

/-- The stdio buffer of a stream to which a process has printed the header and
then `rows`.  The streams `invoked`, `finished` and `run->index` are opened on
files, so they are fully buffered, and the program calls no `fflush`: what is
printed stays in the buffer of the process until `fclose` or `exit`, as long
as it fits the buffer. -/
def unflushed {α : Type} (rows : List α) : List (Line α) :=
  Line.header :: rows.map Line.row

/-- The number `%ld` prints for a `size_t` value, as the index lines print
their size. -/
def longOf (n : Nat) : Int :=
  if n % SIZE_MOD < SIZE_MOD / 2 then ((n % SIZE_MOD : Nat) : Int)
  else ((n % SIZE_MOD : Nat) : Int) - ((SIZE_MOD : Nat) : Int)

/-- The files behind the streams as they are on disk: `invoked.csv`,
`finished.csv`, and the `stdindex.csv` of every run, by the id of the run.  A
process that inherited the descriptor of a stream writes at the same file
offset as the process it inherited it from, so every flush appends. -/
structure Disk where
  invoked : List (Line InvokedRow)
  finished : List (Line FinishedRow)
  index : RunId → List (Line IndexRow)

/-- The stdio buffers of the index streams of the run `id` that are open in
the state `s`. -/
def openIndexes (s : Supervisor) (id : RunId) : List (Line IndexRow) :=
  (s.heap.map (fun slot =>
    match slot with
    | none => []
    | some run =>
      if run.id = id then
        match run.index with
        | none => []
        | some rows => unflushed rows
      else [])).flatten

/-- The call of `exit` in a process that holds a copy of the state `s`: every
open stream is flushed, that is, the copy of its buffer is written to the
file. -/
def exitFlush (s : Supervisor) (d : Disk) : Disk :=
  { invoked := d.invoked ++
      (match s.invoked with
       | none => []
       | some rows => unflushed rows)
    finished := d.finished ++
      (match s.finished with
       | none => []
       | some rows => unflushed rows)
    index := fun id => d.index id ++ openIndexes s id }

/-- The function `_run_new` in the child process (`fork` returned 0), as far
as the files are concerned.  The child holds a copy of the state `s` at the
`fork`, stdio buffers included.  It calls `_runs_add` and `_run_mkdir` on its
copy; at a full table `_run_mkdir(NULL)` kills it and nothing is flushed.
Then it calls `execve`: if that succeeds the copy is gone with the process
image; if it fails (`execFails`) the child prints a diagnostic to stderr and
calls `exit(-1)`. -/
def _run_new_child (s : Supervisor) (cmd : List (List Nat)) (runType : RunType)
    (env : SpawnEnv) (execFails : Bool) (d : Disk) : Disk :=
  match (_runs_add s runType env.tt env.pid cmd env.tOut env.tErr).2 with
  | none => d
  | some _ => if execFails then exitFlush s d else d

/-- The supervisor process and the files on disk. -/
structure World where
  sup : Supervisor
  disk : Disk

/-- The world after `_runs_init`, before any file is opened. -/
def initialWorld (maxRun : Nat) : World :=
  { sup := _runs_init maxRun
    disk := { invoked := [], finished := [], index := fun _ => [] } }

/-- The files the parent's side of `_run_new` creates or truncates with
`fopen(..., "w")`: the two ledgers in `_ctrlRun_init` for the control child,
and the index file of the new run in `_run_open`. -/
def createFiles (runType : RunType) (env : SpawnEnv) (d : Disk) : Disk :=
  { invoked := if runType = RunType.CONTROL then [] else d.invoked
    finished := if runType = RunType.CONTROL then [] else d.finished
    index := fun id => if id = toId env.tt env.pid then [] else d.index id }

/-- The call `_run_new(cmd, runType)` with both sides of the `fork`: the
parent's side gives the state of the supervisor and creates the new files;
the child, which works on a copy of the state at the `fork`, leaves on disk
what it flushes when it exits.  A child whose `execve` fails is taken to have
exited before the supervisor's next step. -/
def forkRun (w : World) (cmd : List (List Nat)) (runType : RunType) (env : SpawnEnv)
    (execFails : Bool) : Except Fault World :=
  match _run_new w.sup cmd runType env with
  | Except.error f => Except.error f
  | Except.ok r =>
    Except.ok { sup := r.1
                disk := _run_new_child w.sup cmd runType env execFails
                  (createFiles runType env w.disk) }

/-- The call `fclose(run->index)` at the end of `_run_free`, for the record as
it stood then: the supervisor's buffer of the index stream is written to the
file. -/
def closeIndex (d : Disk) (run : Run) : Disk :=
  match run.index with
  | none => d
  | some rows =>
    { d with index := fun id => if id = run.id then d.index id ++ unflushed rows else d.index id }

/-- One round of the reap loop with the files: the index stream of every run
the round has finalised is closed. -/
def reapWorld (w : World) (env : ReapEnv) : Except Fault World :=
  match reapOne w.sup env with
  | Except.error f => Except.error f
  | Except.ok s1 =>
    Except.ok { sup := s1
                disk := (s1.finalised.drop w.sup.finalised.length).foldl closeIndex w.disk }

/-- The steps of the supervisor with their effect on the files: a spawn with
both sides of the `fork`, a round of the reap loop, and the steps that only
print into the supervisor's own buffers or touch no stream at all. -/
inductive Act
  | fork (cmd : List (List Nat)) (runType : RunType) (env : SpawnEnv) (execFails : Bool)
  | reap (env : ReapEnv)
  | prepare
  | copy (runIdx : Nat) (e : Endpoint) (a : CopyArgs Unit)

/-- The world after a step. -/
def act (w : World) : Act → Except Fault World
  | Act.fork cmd runType env execFails => forkRun w cmd runType env execFails
  | Act.reap env => reapWorld w env
  | Act.prepare =>
    match _runs_prepareDescriptors w.sup with
    | Except.error f => Except.error f
    | Except.ok r => Except.ok { w with sup := r.1 }
  | Act.copy runIdx e a =>
    match copyAt w.sup runIdx e a with
    | Except.error f => Except.error f
    | Except.ok s1 => Except.ok { w with sup := s1 }

/-- The world after a sequence of steps. -/
def acts : World → List Act → Except Fault World
  | w, [] => Except.ok w
  | w, a :: as =>
    match act w a with
    | Except.error f => Except.error f
    | Except.ok w1 => acts w1 as

/-- The world after the steps `as` from the initial world with four slots, or
the initial world if a step faults. -/
def worldAfter (as : List Act) : World :=
  match acts (initialWorld 4) as with
  | Except.ok w => w
  | Except.error _ => initialWorld 4

/-- The steps that show ledger rows twice on disk: the control child (pid 50)
and a job (pid 51) are started, the job is reaped, and two more jobs (pids 52
and 53) are started whose `execve` fails. -/
def ledgerTrace : List Act :=
  [Act.fork [[99]] RunType.CONTROL (witnessSpawn 50 100) false,
   Act.fork [[106]] RunType.RUNNING (witnessSpawn 51 101) false,
   Act.reap (witnessReap 51 110),
   Act.fork [[107]] RunType.RUNNING (witnessSpawn 52 111) true,
   Act.fork [[108]] RunType.RUNNING (witnessSpawn 53 112) true]

/-- The steps that show index rows twice on disk: the control child (pid 50)
and a job (pid 51) are started; the job's first samples are flushed into the
index stream; the job writes three bytes at time 110 and two more at time
125, the sample taken then is flushed into the stream; a second job (pid 52)
is started whose `execve` fails; at time 130 the first job is reaped. -/
def indexTrace : List Act :=
  [Act.fork [[99]] RunType.CONTROL (witnessSpawn 50 100) false,
   Act.fork [[106]] RunType.RUNNING (witnessSpawn 51 101) false,
   Act.prepare,
   Act.copy 1 Endpoint.std_out (witnessArgs [3] [97, 98, 99] 110),
   Act.copy 1 Endpoint.std_out (witnessArgs [3] [100, 101] 125),
   Act.prepare,
   Act.fork [[107]] RunType.RUNNING (witnessSpawn 52 126) true,
   Act.reap (witnessReap 51 130)]

theorem getD_append_mid (pre : Mem) (x : Nat) (B : Mem) :
    (pre ++ x :: B).getD pre.length 0 = x := by
  rw [List.getD_eq_getElem?_getD, List.getElem?_append_right (le_refl _)]
  simp

theorem set_append_mid (pre : Mem) (x y : Nat) (B : Mem) :
    (pre ++ x :: B).set pre.length y = pre ++ y :: B := by
  simp [List.set_append]

theorem zapNextCharLoop_found (A B : Mem) (z : Nat) :
    ∀ (r skip : Mem) (n : Nat), z ∉ r → r.length < n →
      zapNextCharLoop (A ++ skip ++ r ++ z :: B) A.length z n skip.length
        = (A ++ skip ++ r ++ 0 :: B, some (skip.length + r.length + 1)) := by
  intro r
  induction r with
  | nil =>
    intro skip n _ hn
    obtain ⟨m, rfl⟩ : ∃ m, n = m + 1 := ⟨n - 1, by simp at hn; omega⟩
    have h1 : (A ++ skip ++ [] ++ z :: B).getD (A.length + skip.length) 0 = z := by
      have := getD_append_mid (A ++ skip) z B
      simpa using this
    have h2 : (A ++ skip ++ [] ++ z :: B).set (A.length + skip.length) 0
        = A ++ skip ++ [] ++ 0 :: B := by
      have := set_append_mid (A ++ skip) z 0 B
      simp [this]
    simp only [zapNextCharLoop, h1, if_true, h2, List.length_nil, Nat.add_zero]
  | cons x r ih =>
    intro skip n hz hn
    obtain ⟨m, rfl⟩ : ∃ m, n = m + 1 := ⟨n - 1, by simp at hn; omega⟩
    have hx : x ≠ z := fun h => hz (by simp [h])
    have hz2 : z ∉ r := fun h => hz (List.mem_cons_of_mem _ h)
    have h1 : (A ++ skip ++ (x :: r) ++ z :: B).getD (A.length + skip.length) 0 = x := by
      have := getD_append_mid (A ++ skip) x (r ++ z :: B)
      simpa using this
    have hlen : r.length < m := by simp at hn; omega
    have e := ih (skip ++ [x]) m hz2 hlen
    simp only [List.append_assoc, List.singleton_append, List.length_append,
      List.length_singleton, List.cons_append, List.nil_append] at e h1 ⊢
    simp only [zapNextCharLoop, h1, if_neg hx, e, List.length_cons]
    congr 2; omega

theorem zapNextCharLoop_none (A B : Mem) (z : Nat) :
    ∀ (r skip : Mem), z ∉ r →
      zapNextCharLoop (A ++ skip ++ r ++ B) A.length z r.length skip.length
        = (A ++ skip ++ r ++ B, none) := by
  intro r
  induction r with
  | nil => intro skip _; simp [zapNextCharLoop]
  | cons x r ih =>
    intro skip hz
    have hx : x ≠ z := fun h => hz (by simp [h])
    have hz2 : z ∉ r := fun h => hz (List.mem_cons_of_mem _ h)
    have h1 : (A ++ skip ++ (x :: r) ++ B).getD (A.length + skip.length) 0 = x := by
      have := getD_append_mid (A ++ skip) x (r ++ B)
      simpa using this
    have e := ih (skip ++ [x]) hz2
    simp only [List.append_assoc, List.singleton_append, List.length_append,
      List.length_singleton, List.cons_append, List.nil_append] at e h1 ⊢
    simp only [List.length_cons, zapNextCharLoop, h1, if_neg hx, e]

theorem zapNextChar_found (A r B : Mem) (z sz : Nat) (hz : z ∉ r) (hsz : r.length < sz) :
    zapNextChar (A ++ r ++ z :: B) A.length sz z = (A ++ r ++ 0 :: B, some (r.length + 1)) := by
  have := zapNextCharLoop_found A B z r [] sz hz hsz
  simpa [zapNextChar] using this

theorem zapNextChar_none (A r B : Mem) (z : Nat) (hz : z ∉ r) :
    zapNextChar (A ++ r ++ B) A.length r.length z = (A ++ r ++ B, none) := by
  have := zapNextCharLoop_none A B z r [] hz
  simpa [zapNextChar] using this

theorem drop_eq_of_getD_eq (l1 l2 : Mem) (n : Nat) (hlen : l1.length = l2.length)
    (h : ∀ i, n ≤ i → l1.getD i 0 = l2.getD i 0) : l1.drop n = l2.drop n := by
  apply List.ext_getElem?
  intro i
  simp only [List.getElem?_drop]
  have := h (n + i) (Nat.le_add_right _ _)
  simp only [List.getD_eq_getElem?_getD] at this
  by_cases hi : n + i < l1.length
  · have hi2 : n + i < l2.length := hlen ▸ hi
    simp only [List.getElem?_eq_getElem hi, List.getElem?_eq_getElem hi2, Option.getD_some] at this ⊢
    rw [this]
  · have hi2 : ¬ n + i < l2.length := hlen ▸ hi
    rw [List.getElem?_eq_none (by omega), List.getElem?_eq_none (by omega)]

theorem length_takeWhile_append_le (p : Nat → Bool) (x : Nat) (hx : p x = false) (B : Mem) :
    ∀ r : Mem, ((r ++ x :: B).takeWhile p).length ≤ r.length := by
  intro r
  induction r with
  | nil => simp [List.takeWhile, hx]
  | cons y r ih =>
    simp only [List.cons_append, List.takeWhile_cons]
    split
    · simp only [List.length_cons]; omega
    · simp

theorem strlen_le_of_terminated (A r B : Mem) :
    strlen (A ++ r ++ 0 :: B) A.length ≤ r.length := by
  unfold strlen cstr
  rw [List.append_assoc, List.drop_left]
  exact length_takeWhile_append_le _ 0 (by simp) B r

theorem processLinesLoop_spec {σ : Type} (callback : σ → Mem → Nat → σ × Mem)
    (hcb : TouchesOnlyRecord callback) (used : Nat) (s rest : Mem) (hs : NL ∉ s) :
    ∀ (rs : List (List Nat)) (fuel : Nat) (st : σ) (A : Mem) (calls : List (Mem × Nat)),
      (∀ r ∈ rs, NL ∉ r) → used = A.length + (lines rs s).length →
      (lines rs s).length < fuel →
      ∃ st1 head1 newcalls,
        processLinesLoop callback used fuel st (A ++ lines rs s ++ rest) A.length calls
          = some (st1, head1, used - s.length, calls ++ newcalls) ∧
        head1.length = (A ++ lines rs s ++ rest).length ∧
        head1.drop (used - s.length) = s ++ rest ∧
        newcalls.map Prod.snd = offsets A.length rs ∧
        List.Forall₂ (fun c r => (c.1.drop c.2).take (r.length + 1) = r ++ [0]) newcalls rs ∧
        st1 = newcalls.foldl (fun t c => (callback t c.1 c.2).1) st := by
  intro rs
  induction rs with
  | nil =>
    intro fuel st A calls _ hused hfuel
    obtain ⟨f, rfl⟩ : ∃ f, fuel = f + 1 := ⟨fuel - 1, by omega⟩
    simp only [lines] at hused hfuel ⊢
    have hsz : used - A.length = s.length := by omega
    have hp : used - s.length = A.length := by omega
    refine ⟨st, A ++ s ++ rest, [], ?_, rfl, ?_, rfl, List.Forall₂.nil, rfl⟩
    · simp only [processLinesLoop, hsz, zapNextChar_none A s rest NL hs, hp, List.append_nil]
    · rw [hp, List.append_assoc, List.drop_left]
  | cons r rs ih =>
    intro fuel st A calls hrs hused hfuel
    obtain ⟨f, rfl⟩ : ∃ f, fuel = f + 1 := ⟨fuel - 1, by omega⟩
    have hr : NL ∉ r := hrs r (List.mem_cons_self _ _)
    have hrs2 : ∀ x ∈ rs, NL ∉ x := fun x hx => hrs x (List.mem_cons_of_mem _ hx)
    simp only [lines, List.length_append, List.length_cons] at hused hfuel
    have hmem : A ++ lines (r :: rs) s ++ rest = A ++ r ++ NL :: (lines rs s ++ rest) := by
      simp [lines]
    have hzap := zapNextChar_found A r (lines rs s ++ rest) NL (used - A.length) hr (by omega)
    obtain ⟨hlen, hframe⟩ := hcb st (A ++ r ++ 0 :: (lines rs s ++ rest)) A.length
    set res := callback st (A ++ r ++ 0 :: (lines rs s ++ rest)) A.length with hres
    have hstr := strlen_le_of_terminated A r (lines rs s ++ rest)
    have hdrop : res.2.drop (A.length + r.length + 1) = lines rs s ++ rest := by
      rw [drop_eq_of_getD_eq res.2 (A ++ r ++ 0 :: (lines rs s ++ rest)) _ hlen
        (fun i hi => hframe i (Or.inr (by omega)))]
      have : A.length + r.length + 1 = (A ++ r ++ [0]).length := by
        simp only [List.length_append, List.length_singleton]
      rw [this, show A ++ r ++ 0 :: (lines rs s ++ rest) = (A ++ r ++ [0]) ++ (lines rs s ++ rest)
        by simp, List.drop_left]
    have hsplit : res.2 = res.2.take (A.length + r.length + 1) ++ lines rs s ++ rest := by
      rw [List.append_assoc, ← hdrop, List.take_append_drop]
    have hA2 : (res.2.take (A.length + r.length + 1)).length = A.length + r.length + 1 := by
      rw [List.length_take, hlen]; simp; omega
    obtain ⟨st1, head1, newcalls, hrun, hl, hd, hoff, hall, hst⟩ :=
      ih f res.1 (res.2.take (A.length + r.length + 1))
        (calls ++ [(A ++ r ++ 0 :: (lines rs s ++ rest), A.length)]) hrs2
        (by rw [hA2]; omega) (by omega)
    refine ⟨st1, head1, (A ++ r ++ 0 :: (lines rs s ++ rest), A.length) :: newcalls,
      ?_, ?_, hd, ?_, ?_, ?_⟩
    · rw [hmem]
      simp only [processLinesLoop, hzap]
      rw [← hsplit, hA2] at hrun
      rw [← hres, show A.length + (r.length + 1) = A.length + r.length + 1 by omega, hrun]
      simp
    · rw [hl, ← hsplit, hlen, hmem]
      simp
    · simp only [List.map_cons, offsets, hoff, hA2]
    · refine List.Forall₂.cons ?_ hall
      simp only [List.append_assoc, List.drop_left]
      rw [show r ++ 0 :: (lines rs s ++ rest) = (r ++ [0]) ++ (lines rs s ++ rest) by simp]
      rw [List.take_left']
      simp
    · simp only [List.foldl_cons, hst, ← hres]

theorem cstr_of_take_eq (m : Mem) (p : Nat) (r : List Nat) (h0 : 0 ∉ r)
    (h : (m.drop p).take (r.length + 1) = r ++ [0]) : cstr m p = r := by
  unfold cstr
  rw [← List.take_append_drop (r.length + 1) (m.drop p), h, List.append_assoc,
    List.takeWhile_append_of_pos, List.singleton_append, List.takeWhile_cons_of_neg]
  · simp
  · simp
  · intro x hx
    have : x ≠ 0 := fun e => h0 (e ▸ hx)
    simpa using this

/-- C1: when the used region of the buffer is `r1 '\n' ... rk '\n' s` and the
callback only touches the record it is given, `_buff_processLines` returns,
having called the callback exactly once per record, in order, the i-th time
with the pointer to where `ri` starts and `ri` followed by a terminator in
place of its newline there (so the C string passed is `ri` when `ri` has no
NUL); afterwards the used region is exactly `s`, at offset zero, and
`used = |s|`. -/
theorem buff_processLines_records {σ : Type} (callback : σ → Mem → Nat → σ × Mem)
    (st : σ) (buff : Buff) (rs : List (List Nat)) (s : List Nat)
    (hcb : TouchesOnlyRecord callback)
    (hused : buff.used ≤ buff.head.length)
    (hregion : buff.head.take buff.used = lines rs s)
    (hrs : ∀ r ∈ rs, NL ∉ r) (hs : NL ∉ s) :
    ∃ d, _buff_processLines callback st buff = some d ∧
      d.calls.length = rs.length ∧
      d.calls.map Prod.snd = offsets 0 rs ∧
      List.Forall₂ (fun c r => (c.1.drop c.2).take (r.length + 1) = r ++ [0] ∧
        (0 ∉ r → cstr c.1 c.2 = r)) d.calls rs ∧
      d.state = d.calls.foldl (fun t c => (callback t c.1 c.2).1) st ∧
      d.buff.used = s.length ∧ d.buff.head.take d.buff.used = s ∧
      d.buff.size = buff.size ∧ d.buff.head.length = buff.head.length := by
  have hhead : buff.head = [] ++ lines rs s ++ buff.head.drop buff.used := by
    rw [List.nil_append, ← hregion, List.take_append_drop]
  have hlen : buff.used = ([] : Mem).length + (lines rs s).length := by
    rw [← hregion, List.length_take]; simp; omega
  obtain ⟨st1, head1, newcalls, hrun, hl, hd, hoff, hall, hst⟩ :=
    processLinesLoop_spec callback hcb buff.used s (buff.head.drop buff.used) hs rs
      (buff.used + 1) st [] [] hrs hlen (by omega)
  rw [← hhead, List.length_nil, List.nil_append] at hrun
  rw [← hhead] at hl
  have hsl : s.length ≤ buff.used := by
    have : s.length ≤ (lines rs s).length := by
      clear hhead hlen hrun hall hoff hst hregion hrs
      induction rs with
      | nil => simp [lines]
      | cons r rs ih => simp only [lines, List.length_append, List.length_cons]; omega
    simp at hlen; omega
  have hu : buff.used - (buff.used - s.length) = s.length := by omega
  refine ⟨{ state := st1
            buff := { head := memmove head1 0 (buff.used - s.length)
                        (buff.used - (buff.used - s.length))
                      size := buff.size
                      used := buff.used - (buff.used - s.length) }
            calls := newcalls }, ?_, ?_, hoff, ?_, hst, hu, ?_, rfl, ?_⟩
  · simp only [_buff_processLines, hrun]
  · exact hall.length_eq
  · exact List.Forall₂.imp (fun c r h => ⟨h, fun h0 => cstr_of_take_eq c.1 c.2 r h0 h⟩) hall
  · simp only [memmove, hu, hd, List.take_zero, List.nil_append, Nat.zero_add]
    rw [List.take_left', List.take_left']
    · rfl
    · simp
  · simp only [memmove, hu, hd, List.take_zero, List.nil_append, Nat.zero_add]
    rw [List.take_left' rfl, List.length_append, List.length_drop]
    omega

/-- C1 at a buffer of twelve bytes holding `"ab\ncd\n\nef"` and a callback
that counts its calls. -/
theorem buff_processLines_records_witness :
    ∃ d, _buff_processLines (fun (n : Nat) (m : Mem) (_ : Nat) => (n + 1, m)) 0
        { head := [97, 98, 10, 99, 100, 10, 10, 101, 102, 1, 2, 3], size := 12, used := 9 }
          = some d ∧
      d.calls.length = [[97, 98], [99, 100], []].length ∧
      d.calls.map Prod.snd = offsets 0 [[97, 98], [99, 100], []] ∧
      List.Forall₂ (fun c r => (c.1.drop c.2).take (r.length + 1) = r ++ [0] ∧
        (0 ∉ r → cstr c.1 c.2 = r)) d.calls [[97, 98], [99, 100], []] ∧
      d.state = d.calls.foldl
        (fun t c => ((fun (n : Nat) (m : Mem) (_ : Nat) => (n + 1, m)) t c.1 c.2).1) 0 ∧
      d.buff.used = [101, 102].length ∧ d.buff.head.take d.buff.used = [101, 102] ∧
      d.buff.size = 12 ∧ d.buff.head.length = 12 :=
  buff_processLines_records (fun (n : Nat) (m : Mem) (_ : Nat) => (n + 1, m)) 0
    { head := [97, 98, 10, 99, 100, 10, 10, 101, 102, 1, 2, 3], size := 12, used := 9 }
    [[97, 98], [99, 100], []] [101, 102]
    (fun _ _ _ => ⟨rfl, fun _ _ => rfl⟩) (by decide) (by decide) (by decide) (by decide)
/-! ## Splitting an exec payload -/

theorem exists_first_occurrence (z : Nat) :
    ∀ l : List Nat, z ∈ l → ∃ r t, l = r ++ z :: t ∧ z ∉ r := by
  intro l
  induction l with
  | nil => intro h; simp at h
  | cons x l ih =>
    intro h
    by_cases hx : x = z
    · exact ⟨[], l, by simp [hx], by simp⟩
    · have hl : z ∈ l := by
        rcases List.mem_cons.mp h with h1 | h1
        · exact absurd h1.symm hx
        · exact h1
      obtain ⟨r, t, rfl, hr⟩ := ih hl
      refine ⟨x :: r, t, by simp, ?_⟩
      intro hm
      rcases List.mem_cons.mp hm with h1 | h1
      · exact hx h1.symm
      · exact hr h1

theorem cstr_terminated (A r B : Mem) (h0 : 0 ∉ r) : cstr (A ++ r ++ 0 :: B) A.length = r := by
  apply cstr_of_take_eq _ _ _ h0
  rw [List.append_assoc, List.drop_left,
    show r ++ 0 :: B = (r ++ [0]) ++ B by simp, List.take_left']
  simp

theorem zapNextCharLoop_some_bound (b : Mem) (off z : Nat) :
    ∀ (n i : Nat) (b1 : Mem) (k : Nat), zapNextCharLoop b off z n i = (b1, some k) →
      i < k ∧ k ≤ i + n := by
  intro n
  induction n with
  | zero => intro i b1 k h; simp [zapNextCharLoop] at h
  | succ n ih =>
    intro i b1 k h
    simp only [zapNextCharLoop] at h
    split at h
    · simp only [Prod.mk.injEq, Option.some.injEq] at h
      omega
    · have := ih (i + 1) b1 k h
      omega

theorem processLinesLoop_isSome {σ : Type} (callback : σ → Mem → Nat → σ × Mem) (used : Nat) :
    ∀ (fuel : Nat) (st : σ) (head : Mem) (p : Nat) (calls : List (Mem × Nat)),
      used - p < fuel → (processLinesLoop callback used fuel st head p calls).isSome := by
  intro fuel
  induction fuel with
  | zero => intro st head p calls h; omega
  | succ f ih =>
    intro st head p calls h
    simp only [processLinesLoop]
    cases hz : zapNextChar head p (used - p) NL with
    | mk head1 res =>
      cases res with
      | none => simp
      | some next =>
        have hb := zapNextCharLoop_some_bound head p NL (used - p) 0 head1 next hz
        simp only
        exact ih _ _ _ _ (by omega)

theorem process_control_output_returns {σ : Type} (command : σ → Mem → Nat → σ × Mem)
    (st : σ) (buff : Buff) : (_process_control_output command st buff).isSome := by
  have h := processLinesLoop_isSome command buff.used (buff.used + 1) st buff.head 0 [] (by omega)
  obtain ⟨r, hr⟩ := Option.isSome_iff_exists.mp h
  obtain ⟨st1, head1, p, calls⟩ := r
  simp [_process_control_output, _buff_processLines, hr]

/-! ## A full control buffer -/

theorem buff_processLines_no_newline {σ : Type} (callback : σ → Mem → Nat → σ × Mem) (st : σ)
    (buff : Buff) (hused : buff.used ≤ buff.head.length) (hnl : NL ∉ buff.head.take buff.used) :
    _buff_processLines callback st buff = some { state := st, buff := buff, calls := [] } := by
  have hzap := zapNextChar_none [] (buff.head.take buff.used) (buff.head.drop buff.used) NL hnl
  rw [List.nil_append, List.take_append_drop, List.length_nil, List.length_take,
    Nat.min_eq_left hused] at hzap
  cases buff with
  | mk head size used =>
    simp only at hzap hused
    simp only [_buff_processLines, processLinesLoop, Nat.sub_zero, hzap, memmove, List.take_zero,
      List.drop_zero, List.nil_append, Nat.zero_add, List.take_append_drop]

/-- C4, as the code has it: when the control buffer is completely full and
holds no newline, draining it calls no callback and leaves it as it is, still
full; and every later `_pipe_copy` into it returns without reading a byte and
without changing the endpoint, the buffer or the state. -/
theorem full_control_buffer_stays_full {σ : Type} (command : σ → Mem → Nat → σ × Mem)
    (st : σ) (buff : Buff) (pipe : FilePipe) (set : List Int) (rd : ReadResult)
    (now1 now2 : Int)
    (hsize : buff.head.length = buff.size) (hfull : buff.used = buff.size)
    (hnl : NL ∉ buff.head.take buff.used) :
    _process_control_output command st buff = some (st, buff) ∧
    ∃ cnt, _pipe_copy pipe set buff (some (_process_control_output command)) st rd now1 now2
        = some (pipe, buff, st, cnt) ∧ cnt ≤ 0 := by
  constructor
  · simp [_process_control_output,
      buff_processLines_no_newline command st buff (by omega) hnl]
  · unfold _pipe_copy
    by_cases hready : pipe.in_ ∈ set
    · cases rd with
      | failed e => exact ⟨-1, by simp [hready], by decide⟩
      | bytes data => exact ⟨0, by simp [hready, _buff_left, hfull], le_refl _⟩
    · exact ⟨0, by simp [hready], le_refl _⟩

/-- C4 as stated fails: a read that fills a control buffer of four bytes with
`abcd` leaves it full, `used` is 4 and not 0, and the next read is offered no
free capacity. -/
theorem full_control_buffer_not_discarded :
    ∃ r, _pipe_copy (_pipe_init "out" 0) [-1] { head := [0, 0, 0, 0], size := 4, used := 0 }
        (some (_process_control_output (fun (st : Unit) (m : Mem) (_ : Nat) => (st, m)))) ()
        (ReadResult.bytes [97, 98, 99, 100]) 0 0 = some r ∧
      r.2.1.used = r.2.1.size ∧ NL ∉ r.2.1.head.take r.2.1.used ∧
      r.2.1.used ≠ 0 ∧ _buff_left r.2.1 = 0 :=
  ⟨_, rfl, by decide, by decide, by decide, by decide⟩

/-- C4, as the code has it, at a full buffer of four bytes. -/
theorem full_control_buffer_stays_full_witness :
    _process_control_output (fun (st : Unit) (m : Mem) (_ : Nat) => (st, m)) ()
        { head := [97, 98, 99, 100], size := 4, used := 4 }
      = some ((), { head := [97, 98, 99, 100], size := 4, used := 4 }) ∧
    ∃ cnt, _pipe_copy (_pipe_init "out" 0) [-1] { head := [97, 98, 99, 100], size := 4, used := 4 }
        (some (_process_control_output (fun (st : Unit) (m : Mem) (_ : Nat) => (st, m)))) ()
        (ReadResult.bytes [101, 10]) 0 0
        = some (_pipe_init "out" 0, { head := [97, 98, 99, 100], size := 4, used := 4 }, (), cnt) ∧
      cnt ≤ 0 :=
  full_control_buffer_stays_full (fun (st : Unit) (m : Mem) (_ : Nat) => (st, m)) ()
    { head := [97, 98, 99, 100], size := 4, used := 4 } (_pipe_init "out" 0) [-1]
    (ReadResult.bytes [101, 10]) 0 0 rfl rfl (by decide)

/-! ## Copying a stream to its sink -/

theorem read_back (h : Mem) (t : Nat) (c : Mem) (ht : t ≤ h.length) :
    ((h.take t ++ c ++ h.drop (t + c.length)).drop t).take c.length = c := by
  have hl : (h.take t).length = t := by
    rw [List.length_take]; exact Nat.min_eq_left ht
  generalize h.take t = A at hl
  subst hl
  rw [List.append_assoc, List.drop_left, List.take_left']
  rfl

theorem pipe_copy_effect {σ : Type} (pipe : FilePipe) (a : CopyArgs σ)
    (hbuff : a.buff.used ≤ a.buff.head.length)
    (r : FilePipe × Buff × σ × Int)
    (h : _pipe_copy pipe a.set a.buff a.callback a.st a.rd a.now1 a.now2 = some r) :
    r.1.sink = pipe.sink ++ delivered pipe.in_ a ∧ r.1.in_ = pipe.in_ ∧
      r.1.counter = (if delivered pipe.in_ a = [] then pipe.counter
        else (pipe.counter + (delivered pipe.in_ a).length) % SIZE_MOD) := by
  unfold _pipe_copy at h
  unfold delivered
  by_cases hready : pipe.in_ ∈ a.set
  · simp only [hready, if_true] at h ⊢
    cases hrd : a.rd with
    | failed e =>
      simp only [hrd, Option.some.injEq] at h
      subst h; simp
    | bytes data =>
      simp only [hrd] at h ⊢
      by_cases hcnt : 0 < (data.take (_buff_left a.buff)).length
      · simp only [hcnt, if_true] at h
        have hne : data.take (_buff_left a.buff) ≠ [] := List.ne_nil_of_length_pos hcnt
        rw [read_back a.buff.head (_buff_tail a.buff) _ hbuff] at h
        split at h
        · simp only [Option.some.injEq] at h
          subst h; simp [hne]
        · split at h
          · exact absurd h (by simp)
          · simp only [Option.some.injEq] at h
            subst h; simp [hne]
      · simp only [hcnt, if_false, Option.some.injEq] at h
        have hnil : data.take (_buff_left a.buff) = [] := by
          apply List.eq_nil_of_length_eq_zero; omega
        subst h; simp [hnil]
  · simp only [hready, if_false, Option.some.injEq] at h ⊢
    subst h; simp

theorem pipe_copy_returns {σ : Type} (pipe : FilePipe) (a : CopyArgs σ)
    (hret : ∀ f, a.callback = some f → ∀ st b, (f st b).isSome) :
    ∃ r, _pipe_copy pipe a.set a.buff a.callback a.st a.rd a.now1 a.now2 = some r := by
  unfold _pipe_copy
  by_cases hready : pipe.in_ ∈ a.set
  · simp only [hready, if_true]
    cases a.rd with
    | failed e => exact ⟨_, rfl⟩
    | bytes data =>
      simp only
      by_cases hcnt : 0 < (data.take (_buff_left a.buff)).length
      · simp only [hcnt, if_true]
        cases hcb : a.callback with
        | none => exact ⟨_, rfl⟩
        | some f =>
          simp only
          obtain ⟨res, hres⟩ := Option.isSome_iff_exists.mp (hret f hcb a.st
            { a.buff with
              head := a.buff.head.take (_buff_tail a.buff) ++ data.take (_buff_left a.buff) ++
                a.buff.head.drop (_buff_tail a.buff + (data.take (_buff_left a.buff)).length)
              used := a.buff.used + (data.take (_buff_left a.buff)).length })
          rw [hres]
          exact ⟨_, rfl⟩
      · simp only [hcnt, if_false]
        exact ⟨_, rfl⟩
  · simp only [hready, if_false]
    exact ⟨_, rfl⟩

theorem copyAll_spec {σ : Type} :
    ∀ (calls : List (CopyArgs σ)) (p0 : FilePipe),
      (∀ a ∈ calls, a.buff.used ≤ a.buff.head.length) →
      (∀ a ∈ calls, ∀ f, a.callback = some f → ∀ st b, (f st b).isSome) →
      p0.counter = p0.sink.length →
      (p0.sink ++ (calls.map (delivered p0.in_)).flatten).length < SIZE_MOD →
      ∃ p, copyAll p0 calls = some p ∧
        p.sink = p0.sink ++ (calls.map (delivered p0.in_)).flatten ∧
        p.counter = p.sink.length ∧ p0.counter ≤ p.counter ∧ p.in_ = p0.in_ := by
  intro calls
  induction calls with
  | nil => intro p0 _ _ h _; exact ⟨p0, rfl, by simp, h, le_refl _, rfl⟩
  | cons a as ih =>
    intro p0 hb hret hc hlt
    obtain ⟨r, hr⟩ := pipe_copy_returns p0 a (hret a (List.mem_cons_self _ _))
    obtain ⟨hs, hin, hcnt⟩ := pipe_copy_effect p0 a (hb a (List.mem_cons_self _ _)) r hr
    simp only [List.map_cons, List.flatten_cons, List.length_append] at hlt
    have hc1 : r.1.counter = r.1.sink.length := by
      rw [hcnt, hs, List.length_append]
      split
      · rename_i hnil; rw [hnil, hc]; simp
      · rw [hc, Nat.mod_eq_of_lt (by omega)]
    obtain ⟨p, hp, hsink, hpc, hmono, hpin⟩ := ih r.1
      (fun x hx => hb x (List.mem_cons_of_mem _ hx))
      (fun x hx => hret x (List.mem_cons_of_mem _ hx)) hc1
      (by rw [hs, hin]; simp only [List.length_append]; omega)
    refine ⟨p, by simp only [copyAll, hr, hp], ?_, hpc, ?_, by rw [hpin, hin]⟩
    · rw [hsink, hs, hin]; simp
    · have : p0.counter ≤ r.1.counter := by
        rw [hc1, hs, hc, List.length_append]; omega
      omega

theorem copyAll_append {σ : Type} :
    ∀ (c1 c2 : List (CopyArgs σ)) (p0 : FilePipe),
      copyAll p0 (c1 ++ c2) = (copyAll p0 c1).bind (fun p1 => copyAll p1 c2) := by
  intro c1
  induction c1 with
  | nil => intro c2 p0; rfl
  | cons a as ih =>
    intro c2 p0
    simp only [List.cons_append, copyAll]
    cases _pipe_copy p0 a.set a.buff a.callback a.st a.rd a.now1 a.now2 with
    | none => rfl
    | some r => exact ih c2 r.1

/-- C7: with a sink taken as the bytes written to it and every `write`
accepting all its bytes, any sequence of `_pipe_copy` calls on an endpoint
(whatever the buffer and the callback of each call, the control buffer with
its line parser included) returns and leaves in the sink exactly the chunks its
reads delivered, in order and unmodified, after what the sink held before;
`counter` equals the length of the sink after every call, and so never
decreases, as long as the sink stays below `2 ^ 64` bytes. -/
theorem pipe_copy_sink_roundtrip {σ : Type} (p0 : FilePipe) (calls : List (CopyArgs σ))
    (hbuff : ∀ a ∈ calls, a.buff.used ≤ a.buff.head.length)
    (hret : ∀ a ∈ calls, ∀ f, a.callback = some f → ∀ st b, (f st b).isSome)
    (hc : p0.counter = p0.sink.length)
    (hlt : (p0.sink ++ (calls.map (delivered p0.in_)).flatten).length < SIZE_MOD) :
    ∃ p, copyAll p0 calls = some p ∧
      p.sink = p0.sink ++ (calls.map (delivered p0.in_)).flatten ∧
      p.counter = p.sink.length ∧
      ∀ c1 c2, calls = c1 ++ c2 →
        ∃ p1, copyAll p0 c1 = some p1 ∧ copyAll p1 c2 = some p ∧
          p1.sink = p0.sink ++ (c1.map (delivered p0.in_)).flatten ∧
          p1.counter = p1.sink.length ∧ p0.counter ≤ p1.counter ∧ p1.counter ≤ p.counter := by
  obtain ⟨p, hp, hsink, hpc, _, _⟩ := copyAll_spec calls p0 hbuff hret hc hlt
  refine ⟨p, hp, hsink, hpc, ?_⟩
  intro c1 c2 hsplit
  subst hsplit
  simp only [List.map_append, List.flatten_append, List.length_append] at hlt
  obtain ⟨p1, hp1, hs1, hc1, hm1, hin1⟩ := copyAll_spec c1 p0
    (fun a ha => hbuff a (List.mem_append_left _ ha))
    (fun a ha => hret a (List.mem_append_left _ ha)) hc
    (by simp only [List.length_append]; omega)
  obtain ⟨p2, hp2, _, _, hm2, _⟩ := copyAll_spec c2 p1
    (fun a ha => hbuff a (List.mem_append_right _ ha))
    (fun a ha => hret a (List.mem_append_right _ ha)) hc1
    (by rw [hs1, hin1]; simp only [List.length_append]; omega)
  have hcomp := copyAll_append c1 c2 p0
  rw [hp, hp1] at hcomp
  simp only [Option.some_bind] at hcomp
  rw [hp2] at hcomp
  cases hcomp
  exact ⟨p1, hp1, hp2, hs1, hc1, hm1, hm2⟩

/-- C7 at two calls on an endpoint whose source is descriptor 5. -/
theorem pipe_copy_sink_roundtrip_witness :
    ∃ p, copyAll { _pipe_init "out" 0 with in_ := 5 }
        [witnessCallControl, witnessCallScratch] = some p ∧
      p.sink = [] ++ [99, 10, 100, 101, 102] ∧
      p.counter = p.sink.length ∧
      ∀ c1 c2, [witnessCallControl, witnessCallScratch] = c1 ++ c2 →
        ∃ p1, copyAll { _pipe_init "out" 0 with in_ := 5 } c1 = some p1 ∧
          copyAll p1 c2 = some p ∧
          p1.sink = [] ++ (c1.map (delivered 5)).flatten ∧
          p1.counter = p1.sink.length ∧ 0 ≤ p1.counter ∧ p1.counter ≤ p.counter :=
  pipe_copy_sink_roundtrip { _pipe_init "out" 0 with in_ := 5 }
    [witnessCallControl, witnessCallScratch]
    (by decide)
    (by
      intro a ha f hf st b
      simp only [List.mem_cons, List.mem_singleton, List.not_mem_nil, or_false] at ha
      rcases ha with rfl | rfl
      · simp only [witnessCallControl, Option.some.injEq] at hf
        subst hf
        exact process_control_output_returns _ st b
      · simp only [witnessCallScratch, Option.some.injEq] at hf
        subst hf
        rfl)
    rfl (by decide)
/-! ## The run table -/

theorem getD_append_cons {α : Type} (Q : List α) (x d : α) (T : List α) :
    (Q ++ x :: T).getD Q.length d = x := by
  rw [List.getD_eq_getElem?_getD, List.getElem?_append_right (le_refl _)]
  simp

theorem getD_append_cons_succ {α : Type} (Q : List α) (x d : α) (T : List α) :
    (Q ++ x :: T).getD (Q.length + 1) d = T.headD d := by
  rw [List.getD_eq_getElem?_getD, List.getElem?_append_right (by omega)]
  cases T <;> simp

theorem set_append_cons {α : Type} (Q : List α) (x y : α) (T : List α) :
    (Q ++ x :: T).set Q.length y = Q ++ y :: T := by
  simp [List.set_append]

theorem finalSamples_eq (run : Run) (tOut tErr : Int) (rows : List IndexRow)
    (h : run.index = some rows) :
    finalSamples run tOut tErr = Except.ok
      { run with
        std_out := { run.std_out with
          event := { stored := true, size := run.std_out.counter, time := tOut } }
        std_err := { run.std_err with
          event := { stored := true, size := run.std_err.counter, time := tErr } }
        index := some (rows ++
          [{ stream := run.std_out.name, time := tOut, size := run.std_out.counter },
           { stream := run.std_err.name, time := tErr, size := run.std_err.counter }]) } := by
  simp [finalSamples, _run_storePipeEvent, Run.pipe, Run.setPipe, _event_set, h]

theorem finalSamples_ok (run : Run) (tOut tErr : Int) (rows : List IndexRow)
    (h : run.index = some rows) :
    ∃ run1, finalSamples run tOut tErr = Except.ok run1 ∧ run1.id = run.id ∧
      run1.pid = run.pid ∧ run1.runType = run.runType ∧ run1.start = run.start ∧
      run1.end_ = run.end_ ∧ run1.returnCode = run.returnCode ∧ run1.cmd = run.cmd ∧
      run1.index = some (rows ++
        [{ stream := run.std_out.name, time := tOut, size := run.std_out.counter },
         { stream := run.std_err.name, time := tErr, size := run.std_err.counter }]) :=
  ⟨_, finalSamples_eq run tOut tErr rows h, rfl, rfl, rfl, rfl, rfl, rfl, rfl, rfl⟩
theorem reapLoop_collapse (env : ReapEnv) :
    ∀ (rest : List Nat) (Q0 : List (Option Nat)) (s : Supervisor) (k : Nat), 0 < k →
      s.runs = Q0 ++ (rest.map some ++ List.replicate k none).headD none ::
        (rest.map some ++ List.replicate k none) →
      s.maxRun = Q0.length + 1 + rest.length + k →
      (∀ a ∈ rest, ∃ r, s.heap.getD a none = some r ∧ r.pid ≠ env.pid) →
      reapLoop env (rest.length + k) (Q0.length + 1) true s
        = Except.ok { s with runs := Q0 ++ (rest.map some ++ List.replicate k none) ++ [none] } := by
  intro rest
  induction rest with
  | nil =>
    intro Q0 s k hk hruns _ _
    obtain ⟨k1, rfl⟩ : ∃ k1, k = k1 + 1 := ⟨k - 1, by omega⟩
    simp only [List.map_nil, List.nil_append, List.replicate_succ, List.headD_cons] at hruns
    have hget : s.runs.getD (Q0.length + 1) none = none := by
      rw [hruns, getD_append_cons_succ]; rfl
    have hs : s = { s with runs := Q0 ++ (List.map some [] ++ List.replicate (k1 + 1) none) ++ [none] } := by
      cases s
      simp only [Supervisor.mk.injEq, true_and, and_true] at hruns ⊢
      rw [hruns, List.map_nil, List.nil_append, List.append_assoc, ← List.replicate_succ']
      rfl
    rw [← hs]
    simp only [List.length_nil, Nat.zero_add, reapLoop, hget]
  | cons r rest ih =>
    intro Q0 s k hk hruns hmax hlive
    obtain ⟨rec, hrec, hpid⟩ := hlive r (List.mem_cons_self _ _)
    simp only [List.map_cons, List.cons_append, List.headD_cons] at hruns
    have hruns1 : s.runs = (Q0 ++ [some r]) ++ some r :: (rest.map some ++ List.replicate k none) := by
      rw [hruns]; simp
    have hlen1 : (Q0 ++ [some r]).length = Q0.length + 1 := by simp
    have hget : s.runs.getD (Q0.length + 1) none = some r := by
      rw [hruns1, ← hlen1, getD_append_cons]
    have hget2 : s.runs.getD (Q0.length + 1 + 1) none
        = (rest.map some ++ List.replicate k none).headD none := by
      rw [hruns1, ← hlen1, getD_append_cons_succ]
    have hset : s.runs.set (Q0.length + 1) ((rest.map some ++ List.replicate k none).headD none)
        = (Q0 ++ [some r]) ++ (rest.map some ++ List.replicate k none).headD none ::
          (rest.map some ++ List.replicate k none) := by
      rw [hruns1, ← hlen1, set_append_cons]
    have hih := ih (Q0 ++ [some r])
      { s with runs := List.set s.runs (Q0.length + 1) (List.headD (rest.map some ++ List.replicate k none) none) }
      k hk hset
      (by simp only [hlen1, hmax, List.length_cons]; omega)
      (fun a ha => hlive a (List.mem_cons_of_mem _ ha))
    rw [hlen1] at hih
    have hlt : Q0.length + 1 + 1 < s.maxRun := by
      rw [hmax]; simp only [List.length_cons]; omega
    rw [show (r :: rest).length + k = (rest.length + k) + 1 by simp only [List.length_cons]; omega]
    simp only [reapLoop, hget, deref, hrec, reapVisit, hpid, if_false, if_true, reapShift, hlt,
      hget2, hih]
    simp
theorem getD_set_ne {α : Type} (l : List α) (a b : Nat) (x d : α) (h : b ≠ a) :
    (l.set a x).getD b d = l.getD b d := by
  simp only [List.getD_eq_getElem?_getD]
  rw [List.getElem?_set_ne (Ne.symm h)]

theorem getD_set_self {α : Type} (l : List (Option α)) (a : Nat) (x y : α)
    (h : l.getD a none = some y) : (l.set a (some x)).getD a none = some x := by
  have hlt : a < l.length := by
    by_contra hge
    rw [List.getD_eq_getElem?_getD, List.getElem?_eq_none (by omega)] at h
    simp at h
  simp [List.getD_eq_getElem?_getD, List.getElem?_set, hlt]

theorem reapLoop_no_match (env : ReapEnv) :
    ∀ (rest : List Nat) (done : List (Option Nat)) (s : Supervisor) (k : Nat),
      s.runs = done ++ (rest.map some ++ List.replicate k none) →
      (∀ a ∈ rest, ∃ r, s.heap.getD a none = some r ∧ r.pid ≠ env.pid) →
      reapLoop env (rest.length + k) done.length false s = Except.ok s := by
  intro rest
  induction rest with
  | nil =>
    intro done s k hruns _
    cases k with
    | zero => simp [reapLoop]
    | succ k1 =>
      have hget : s.runs.getD done.length none = none := by
        rw [hruns]
        simp only [List.map_nil, List.nil_append, List.replicate_succ]
        exact getD_append_cons done none none _
      simp only [List.length_nil, Nat.zero_add, reapLoop, hget]
  | cons r rest ih =>
    intro done s k hruns hlive
    obtain ⟨rec, hrec, hpid⟩ := hlive r (List.mem_cons_self _ _)
    have hget : s.runs.getD done.length none = some r := by
      rw [hruns]
      simp only [List.map_cons, List.cons_append]
      exact getD_append_cons done (some r) none _
    have hih := ih (done ++ [some r]) s k (by rw [hruns]; simp)
      (fun a ha => hlive a (List.mem_cons_of_mem _ ha))
    rw [show (done ++ [some r]).length = done.length + 1 by simp] at hih
    rw [show (r :: rest).length + k = (rest.length + k) + 1 by simp only [List.length_cons]; omega]
    simp only [reapLoop, hget, deref, hrec, reapVisit, hpid, if_false, hih]
    simp

theorem reapLoop_match (env : ReapEnv) (a : Nat) (after : List Nat) (k : Nat) (run : Run)
    (rows : List IndexRow) (frows : List FinishedRow) (hk : 0 < k)
    (hpid : run.pid = env.pid) (hindex : run.index = some rows) :
    ∀ (before : List Nat) (done : List (Option Nat)) (s : Supervisor),
      s.runs = done ++ (before.map some ++ some a :: (after.map some ++ List.replicate k none)) →
      s.maxRun = done.length + before.length + 1 + after.length + k →
      (∀ b ∈ before, ∃ r, s.heap.getD b none = some r ∧ r.pid ≠ env.pid) →
      s.heap.getD a none = some run → s.finished = some frows →
      (∀ b ∈ after, b ≠ a ∧ ∃ r, s.heap.getD b none = some r ∧ r.pid ≠ env.pid) →
      ∃ run1, finalSamples { run with returnCode := env.status, end_ := env.now }
          env.tOut env.tErr = Except.ok run1 ∧
        reapLoop env (before.length + 1 + after.length + k) done.length false s
          = Except.ok { s with
              heap := s.heap.set a none
              finished := some (frows ++ [finishedRow run1 env.renamed])
              finalised := s.finalised ++ [run1]
              runs := done ++ (before.map some ++ (after.map some ++ List.replicate (k + 1) none)) } := by
  intro before
  induction before with
  | nil =>
    intro done s hruns hmax _ hrun hfin hafter
    obtain ⟨run1, hfs, -⟩ := finalSamples_ok { run with returnCode := env.status, end_ := env.now }
      env.tOut env.tErr rows hindex
    refine ⟨run1, hfs, ?_⟩
    simp only [List.map_nil, List.nil_append] at hruns
    have hget : s.runs.getD done.length none = some a := by
      rw [hruns]; exact getD_append_cons done (some a) none _
    have hget2 : s.runs.getD (done.length + 1) none
        = (after.map some ++ List.replicate k none).headD none := by
      rw [hruns]; exact getD_append_cons_succ done (some a) none _
    have hset : s.runs.set done.length ((after.map some ++ List.replicate k none).headD none)
        = done ++ (after.map some ++ List.replicate k none).headD none ::
          (after.map some ++ List.replicate k none) := by
      rw [hruns]; exact set_append_cons done (some a) _ _
    have hself := getD_set_self s.heap a
      { run with returnCode := env.status, end_ := env.now } run hrun
    have hlt : done.length + 1 < s.maxRun := by
      rw [hmax]; simp only [List.length_nil]; omega
    have hcol := reapLoop_collapse env after done
      { s with
        heap := s.heap.set a none
        finished := some (frows ++ [finishedRow run1 env.renamed])
        finalised := s.finalised ++ [run1]
        runs := List.set s.runs done.length (List.headD (after.map some ++ List.replicate k none) none) }
      k hk hset (by simp only [hmax, List.length_nil])
      (fun b hb => by
        obtain ⟨hne, r, hr, hp⟩ := hafter b hb
        exact ⟨r, by simp only [getD_set_ne s.heap a b none none hne, hr], hp⟩)
    have hfree : _run_free
          { s with heap := List.set s.heap a (some { run with returnCode := env.status, end_ := env.now }) }
          a env
        = Except.ok { s with
            heap := s.heap.set a none
            finished := some (frows ++ [finishedRow run1 env.renamed])
            finalised := s.finalised ++ [run1] } := by
      simp only [_run_free, deref, hself, hfs, hfin, List.set_set]
    rw [show ([] : List Nat).length + 1 + after.length + k = (after.length + k) + 1
      by simp only [List.length_nil]; omega]
    rw [reapLoop]
    simp only [hget, deref, hrun, reapVisit]
    rw [if_pos hpid]
    simp only [hfree, if_true, reapShift, hlt, hget2, hcol]
    simp [List.replicate_succ']
  | cons b before ih =>
    intro done s hruns hmax hbefore hrun hfin hafter
    obtain ⟨rec, hrec, hp⟩ := hbefore b (List.mem_cons_self _ _)
    have hget : s.runs.getD done.length none = some b := by
      rw [hruns]
      simp only [List.map_cons, List.cons_append]
      exact getD_append_cons done (some b) none _
    obtain ⟨run1, hfs, hih⟩ := ih (done ++ [some b]) s (by rw [hruns]; simp)
      (by simp only [hmax, List.length_append, List.length_cons, List.length_nil]; omega)
      (fun x hx => hbefore x (List.mem_cons_of_mem _ hx)) hrun hfin hafter
    refine ⟨run1, hfs, ?_⟩
    rw [show (done ++ [some b]).length = done.length + 1 by simp] at hih
    rw [show (b :: before).length + 1 + after.length + k
      = (before.length + 1 + after.length + k) + 1 by simp only [List.length_cons]; omega]
    simp only [reapLoop, hget, deref, hrec, reapVisit, hp, if_false, hih]
    simp
theorem getD_set_none {α : Type} (l : List (Option α)) (a : Nat) :
    (l.set a none).getD a none = none := by
  simp only [List.getD_eq_getElem?_getD, List.getElem?_set]
  by_cases h : a < l.length <;> simp [h]

/-- C5: when the table is a dense prefix of live runs with pairwise distinct
pids followed by at least one empty slot, one round of the reap loop for a pid
of the table returns and leaves the table as the original sequence with exactly
that run removed, the runs before it in place, the later ones one slot to the
left, followed only by empty slots, the other records untouched; for a pid of
no run it returns and leaves the whole state unchanged. -/
theorem reap_compacts_table (s : Supervisor) (env : ReapEnv) (live : List Nat) (k : Nat)
    (hk : 0 < k)
    (hruns : s.runs = live.map some ++ List.replicate k none)
    (hmax : s.maxRun = live.length + k)
    (hheap : ∀ a ∈ live, ∃ r, s.heap.getD a none = some r ∧ r.index ≠ none)
    (hfin : s.finished ≠ none)
    (hpids : (live.map (pidAt s)).Nodup) :
    (∀ before a after, live = before ++ a :: after → pidAt s a = some env.pid →
      ∃ s1, reapOne s env = Except.ok s1 ∧
        s1.runs = (before ++ after).map some ++ List.replicate (k + 1) none ∧
        s1.maxRun = s.maxRun ∧
        s1.heap.getD a none = none ∧
        (∀ b ∈ before ++ after, s1.heap.getD b none = s.heap.getD b none)) ∧
    ((∀ a ∈ live, pidAt s a ≠ some env.pid) → reapOne s env = Except.ok s) := by
  constructor
  · intro before a after hsplit hpa
    subst hsplit
    obtain ⟨run, hrun, hidx⟩ := hheap a (by simp)
    obtain ⟨rows, hrows⟩ := Option.ne_none_iff_exists'.mp hidx
    obtain ⟨frows, hfrows⟩ := Option.ne_none_iff_exists'.mp hfin
    have hrp : run.pid = env.pid := by
      simp only [pidAt, hrun, Option.map_some', Option.some.injEq] at hpa
      exact hpa
    simp only [List.map_append, List.map_cons] at hpids
    have hnd := List.nodup_append.mp hpids
    have hnd2 := List.nodup_cons.mp hnd.2.1
    have hother : ∀ b, b ∈ before ∨ b ∈ after →
        b ≠ a ∧ ∃ r, s.heap.getD b none = some r ∧ r.pid ≠ env.pid := by
      intro b hb
      obtain ⟨r, hr, -⟩ := hheap b (by
        rcases hb with h | h
        · exact List.mem_append_left _ h
        · exact List.mem_append_right _ (List.mem_cons_of_mem _ h))
      have hne : pidAt s b ≠ pidAt s a := by
        rcases hb with h | h
        · intro e
          exact hnd.2.2 (List.mem_map_of_mem _ h) (by rw [e]; exact List.mem_cons_self _ _)
        · intro e
          exact hnd2.1 (by rw [← e]; exact List.mem_map_of_mem _ h)
      refine ⟨fun e => hne (by rw [e]), r, hr, fun e => hne ?_⟩
      simp only [pidAt, hr, hrun, Option.map_some', hrp, e]
    obtain ⟨run1, -, hloop⟩ := reapLoop_match env a after k run rows frows hk hrp hrows
      before [] s (by rw [hruns]; simp) (by rw [hmax]; simp; omega)
      (fun b hb => (hother b (Or.inl hb)).2) hrun hfrows (fun b hb => hother b (Or.inr hb))
    refine ⟨{ s with
        heap := s.heap.set a none
        finished := some (frows ++ [finishedRow run1 env.renamed])
        finalised := s.finalised ++ [run1]
        runs := [] ++ (before.map some ++ (after.map some ++ List.replicate (k + 1) none)) },
      ?_, ?_, rfl, ?_, ?_⟩
    · have hm : s.maxRun = before.length + 1 + after.length + k := by
        rw [hmax]; simp; omega
      unfold reapOne
      conv_lhs => rw [hm]
      exact hloop
    · simp
    · exact getD_set_none s.heap a
    · intro b hb
      exact getD_set_ne s.heap a b none none (hother b (List.mem_append.mp hb)).1
  · intro hno
    have := reapLoop_no_match env live [] s k (by rw [hruns]; simp) (fun a ha => by
      obtain ⟨r, hr, -⟩ := hheap a ha
      refine ⟨r, hr, fun e => hno a ha ?_⟩
      simp only [pidAt, hr, Option.map_some', e])
    rw [reapOne, hmax]
    exact this
/-! ## Saturation, and the control run's record after its reap -/

theorem findSlot_full (maxRun : Nat) :
    ∀ (rest : List Nat) (done : List (Option Nat)), maxRun = done.length + rest.length →
      findSlot (done ++ rest.map some) maxRun rest.length done.length = none := by
  intro rest
  induction rest with
  | nil => intro done _; rfl
  | cons r rest ih =>
    intro done hmax
    have hget : (done ++ List.map some (r :: rest)).getD done.length none = some r := by
      simp only [List.map_cons]
      exact getD_append_cons done (some r) none _
    have hih := ih (done ++ [some r]) (by
      simp only [hmax, List.length_append, List.length_cons, List.length_nil]; omega)
    simp only [List.append_assoc, List.singleton_append, List.length_append,
      List.length_singleton] at hih
    simp only [List.length_cons, findSlot, hget]
    by_cases hlast : done.length + 1 ≥ maxRun
    · simp [hlast]
    · simp only [List.map_cons, hih, hlast]
      simp

theorem findSlot_saturated (n : Nat) :
    findSlot (saturated n).runs (saturated n).maxRun (saturated n).maxRun 0 = none := by
  have := findSlot_full n (List.range n) []
    (by rw [List.length_range, List.length_nil, Nat.zero_add])
  rw [List.length_range, List.length_nil, List.nil_append] at this
  exact this

theorem run_new_saturated (n : Nat) (cmd : List (List Nat)) (runType : RunType)
    (env : SpawnEnv) :
    (saturated n).runs.length = n ∧ (∀ slot ∈ (saturated n).runs, slot ≠ none) ∧
    _runs_add (saturated n) runType env.tt env.pid cmd env.tOut env.tErr = (saturated n, none) ∧
    _run_new (saturated n) cmd runType env = Except.error Fault.nullDeref := by
  have hruns : (saturated n).runs = (List.range n).map some := rfl
  refine ⟨by rw [hruns, List.length_map, List.length_range], ?_, ?_, ?_⟩
  · intro slot hslot
    rw [hruns] at hslot
    obtain ⟨i, -, rfl⟩ := List.mem_map.mp hslot
    exact Option.some_ne_none i
  · simp only [_runs_add, findSlot_saturated]
  · simp only [_run_new, _runs_add, findSlot_saturated, deref]

/-- C3 fails on the code: with all `MAX_RUN` slots live `_runs_add` reports
saturation and leaves the state as it was, but `_run_new` does not test the
pointer and accesses a member through `NULL`. -/
theorem run_new_saturated_null_deref :
    (saturated MAX_RUN).runs.length = MAX_RUN ∧
    (∀ slot ∈ (saturated MAX_RUN).runs, slot ≠ none) ∧
    _runs_add (saturated MAX_RUN) RunType.RUNNING 200 2000 [[106]] 200 200
      = (saturated MAX_RUN, none) ∧
    _run_new (saturated MAX_RUN) [[106]] RunType.RUNNING (witnessSpawn 2000 200)
      = Except.error Fault.nullDeref :=
  run_new_saturated MAX_RUN [[106]] RunType.RUNNING (witnessSpawn 2000 200)

/-- C6 fails on the code: in the reap pass in which the control child is
reaped, alone in the table or with a job still running, `_runs_updateRunning`
takes the path of `running.csv` from the control record that `_run_free` has
just freed; after the reap of the control child the table holds the job alone,
while `running.csv` still lists both runs. -/
theorem running_rewrite_after_control_reap :
    _runs_checkForTerminatedJobs (controlStarted 4) [witnessReap 50 110] (fun _ => 110)
      = Except.error Fault.useAfterFree ∧
    _runs_checkForTerminatedJobs (jobStarted 4) [witnessReap 50 110] (fun _ => 110)
      = Except.error Fault.useAfterFree ∧
    (∃ s1, reapOne (jobStarted 4) (witnessReap 50 110) = Except.ok s1 ∧
      s1.runs = [some 1, none, none, none] ∧
      s1.heap.getD 0 none = none ∧ s1.ctrlRun = some 0 ∧
      (s1.running (_run_path (newRun RunType.CONTROL 100 50 [] 0 0) RunType.DEFAULT
        PathType.RUNNING_FILE)).map (fun rows => rows.map (fun r => r.pid)) = some [50, 51]) := by
  refine ⟨rfl, rfl, ?_⟩
  exact ⟨_, rfl, rfl, rfl, rfl, rfl⟩
/-- C5 at a table of three slots holding the control run (pid 50) and a job
(pid 51). -/
theorem reap_compacts_table_witness :
    (∀ before a after, [0, 1] = before ++ a :: after →
      pidAt (jobStarted 3) a = some (witnessReap 50 110).pid →
      ∃ s1, reapOne (jobStarted 3) (witnessReap 50 110) = Except.ok s1 ∧
        s1.runs = (before ++ after).map some ++ List.replicate (1 + 1) none ∧
        s1.maxRun = (jobStarted 3).maxRun ∧
        s1.heap.getD a none = none ∧
        (∀ b ∈ before ++ after, s1.heap.getD b none = (jobStarted 3).heap.getD b none)) ∧
    ((∀ a ∈ [0, 1], pidAt (jobStarted 3) a ≠ some (witnessReap 50 110).pid) →
      reapOne (jobStarted 3) (witnessReap 50 110) = Except.ok (jobStarted 3)) :=
  reap_compacts_table (jobStarted 3) (witnessReap 50 110) [0, 1] 1 (by decide) rfl rfl
    (by
      intro a ha
      simp only [List.mem_cons, List.mem_singleton, List.not_mem_nil, or_false] at ha
      rcases ha with rfl | rfl
      · exact ⟨_, rfl, by decide⟩
      · exact ⟨_, rfl, by decide⟩)
    (by decide) (by decide)

/-! ## The final sample -/

theorem StreamInv.mono {T T1 : Int} {p : FilePipe} {rows : List IndexRow}
    (h : StreamInv T p rows) (hT : T ≤ T1) : StreamInv T1 p rows :=
  { h with time_le := le_trans h.time_le hT }

theorem streamRows_append (label : String) (rows1 rows2 : List IndexRow) :
    streamRows label (rows1 ++ rows2) = streamRows label rows1 ++ streamRows label rows2 := by
  simp [streamRows]

theorem streamRows_single_self (row : IndexRow) : streamRows row.stream [row] = [row] := by
  simp [streamRows]

theorem streamRows_single_ne (label : String) (row : IndexRow) (h : row.stream ≠ label) :
    streamRows label [row] = [] := by
  simp [streamRows, h]

theorem mem_of_mem_streamRows {label : String} {rows : List IndexRow} {row : IndexRow}
    (h : row ∈ streamRows label rows) : row ∈ rows :=
  (List.mem_filter.mp h).1

/-- Flushing the pending sample of endpoint `p` keeps the invariant of `p`. -/
theorem StreamInv.store_self {T : Int} {p : FilePipe} {rows : List IndexRow}
    (h : StreamInv T p rows) (hp : p.event.stored = false) :
    StreamInv T { p with event := { p.event with stored := true } }
      (rows ++ [{ stream := p.name, time := p.event.time, size := p.event.size }]) := by
  have hsr : streamRows p.name
      (rows ++ [{ stream := p.name, time := p.event.time, size := p.event.size }])
      = streamRows p.name rows ++ [{ stream := p.name, time := p.event.time, size := p.event.size }] := by
    rw [streamRows_append]
    congr 1
    exact streamRows_single_self { stream := p.name, time := p.event.time, size := p.event.size }
  refine
    { counter_eq := h.counter_eq
      size_le := h.size_le
      time_le := h.time_le
      row_le := ?_
      pending_ge := ?_
      sizes_sorted := ?_
      spaced := ?_ }
  · intro row hrow
    simp only [hsr, List.mem_append, List.mem_singleton] at hrow
    rcases hrow with h1 | h1
    · obtain ⟨a, b, -⟩ := h.row_le row h1
      exact ⟨a, b, fun hc => by simp at hc⟩
    · subst h1
      exact ⟨le_refl _, le_refl _, fun hc => by simp at hc⟩
  · intro hc; simp at hc
  · simp only [hsr, List.map_append, List.map_cons, List.map_nil]
    rw [List.pairwise_append]
    refine ⟨h.sizes_sorted, List.pairwise_singleton _ _, ?_⟩
    intro a ha b hb
    simp only [List.mem_singleton] at hb
    subst hb
    obtain ⟨row, hrow, rfl⟩ := List.mem_map.mp ha
    exact (h.row_le row hrow).1
  · simp only [hsr]
    rw [List.chain'_append]
    refine ⟨h.spaced, List.chain'_singleton _, ?_⟩
    intro a ha b hb
    simp only [List.head?_cons, Option.mem_def, Option.some.injEq] at hb
    subst hb
    have := (h.row_le a (List.mem_of_mem_getLast? ha)).2.2 hp
    simp only
    omega

/-- Flushing the pending sample of endpoint `p` keeps the invariant of the
other endpoint `q`, if a pending sample of `q` is not older than that of `p`. -/
theorem StreamInv.store_other {T : Int} {p q : FilePipe} {rows : List IndexRow}
    (h : StreamInv T q rows) (hne : p.name ≠ q.name)
    (hord : q.event.stored = false → p.event.time ≤ q.event.time) :
    StreamInv T q (rows ++ [{ stream := p.name, time := p.event.time, size := p.event.size }]) := by
  have hsr : streamRows q.name
      (rows ++ [{ stream := p.name, time := p.event.time, size := p.event.size }])
      = streamRows q.name rows := by
    rw [streamRows_append, streamRows_single_ne q.name _ hne, List.append_nil]
  refine
    { counter_eq := h.counter_eq
      size_le := h.size_le
      time_le := h.time_le
      row_le := by rw [hsr]; exact h.row_le
      pending_ge := ?_
      sizes_sorted := by rw [hsr]; exact h.sizes_sorted
      spaced := by rw [hsr]; exact h.spaced }
  intro hc row hrow
  simp only [List.mem_append, List.mem_singleton] at hrow
  rcases hrow with h1 | h1
  · exact h.pending_ge hc row h1
  · subst h1; exact hord hc
theorem pipe_copy_event {σ : Type} (pipe : FilePipe) (a : CopyArgs σ)
    (r : FilePipe × Buff × σ × Int)
    (h : _pipe_copy pipe a.set a.buff a.callback a.st a.rd a.now1 a.now2 = some r) :
    r.1.name = pipe.name ∧
      (r.1.event = pipe.event ∨
        (r.1.event = _event_set pipe.counter a.now2 ∧ pipe.event.size < pipe.counter ∧
          pipe.event.time < a.now1 - 9)) := by
  have hev : _event_set_iftime pipe.event pipe.counter a.now1 a.now2 = pipe.event ∨
      (_event_set_iftime pipe.event pipe.counter a.now1 a.now2 = _event_set pipe.counter a.now2 ∧
        pipe.event.size < pipe.counter ∧ pipe.event.time < a.now1 - 9) := by
    unfold _event_set_iftime
    by_cases hc : pipe.event.size < pipe.counter ∧ pipe.event.time < a.now1 - 9
    · right; exact ⟨by rw [if_pos hc], hc.1, hc.2⟩
    · left; rw [if_neg hc]
  unfold _pipe_copy at h
  by_cases hready : pipe.in_ ∈ a.set
  · simp only [hready, if_true] at h
    cases hrd : a.rd with
    | failed e =>
      simp only [hrd, Option.some.injEq] at h
      subst h; exact ⟨rfl, Or.inl rfl⟩
    | bytes data =>
      simp only [hrd] at h
      by_cases hcnt : 0 < (data.take (_buff_left a.buff)).length
      · simp only [hcnt, if_true] at h
        split at h
        · simp only [Option.some.injEq] at h
          subst h; exact ⟨rfl, hev⟩
        · split at h
          · exact absurd h (by simp)
          · simp only [Option.some.injEq] at h
            subst h; exact ⟨rfl, hev⟩
      · simp only [hcnt, if_false, Option.some.injEq] at h
        subst h; exact ⟨rfl, Or.inl rfl⟩
  · simp only [hready, if_false, Option.some.injEq] at h
    subst h; exact ⟨rfl, Or.inl rfl⟩

/-- A call of `_pipe_copy` keeps the invariant of its endpoint, as long as
the sink stays below `2 ^ 64` bytes. -/
theorem StreamInv.copy {σ : Type} {T : Int} {p : FilePipe} {rows : List IndexRow}
    (h : StreamInv T p rows) (hrows : ∀ row ∈ rows, row.time ≤ T) (a : CopyArgs σ)
    (hT : T ≤ a.now1) (hnow : a.now1 ≤ a.now2) (hbuff : a.buff.used ≤ a.buff.head.length)
    (r : FilePipe × Buff × σ × Int)
    (hr : _pipe_copy p a.set a.buff a.callback a.st a.rd a.now1 a.now2 = some r)
    (hlt : r.1.sink.length < SIZE_MOD) :
    StreamInv a.now2 r.1 rows := by
  obtain ⟨hsink, -, hcnt⟩ := pipe_copy_effect p a hbuff r hr
  obtain ⟨hname, hev⟩ := pipe_copy_event p a r hr
  have hce : r.1.counter = r.1.sink.length := by
    rw [hcnt, hsink, List.length_append]
    split
    · rename_i hnil; rw [hnil, h.counter_eq]; simp
    · rw [h.counter_eq, Nat.mod_eq_of_lt]
      rw [hsink, List.length_append] at hlt
      exact hlt
  have hmono : p.counter ≤ r.1.counter := by
    rw [hce, hsink, h.counter_eq, List.length_append]; omega
  rcases hev with he | ⟨he, hsz, htm⟩
  · exact
      { counter_eq := hce
        size_le := by rw [he]; exact le_trans h.size_le hmono
        time_le := by rw [he]; exact le_trans h.time_le (le_trans hT hnow)
        row_le := by rw [he, hname]; exact h.row_le
        pending_ge := by rw [he]; exact h.pending_ge
        sizes_sorted := by rw [hname]; exact h.sizes_sorted
        spaced := by rw [hname]; exact h.spaced }
  · refine
      { counter_eq := hce
        size_le := by rw [he]; exact hmono
        time_le := by rw [he]; exact le_refl _
        row_le := ?_
        pending_ge := ?_
        sizes_sorted := by rw [hname]; exact h.sizes_sorted
        spaced := by rw [hname]; exact h.spaced }
    · intro row hrow
      rw [hname] at hrow
      obtain ⟨h1, h2, -⟩ := h.row_le row hrow
      rw [he]
      simp only [_event_set]
      refine ⟨by omega, by omega, fun _ => by omega⟩
    · intro _ row hrow
      rw [he]
      simp only [_event_set]
      have := hrows row hrow
      omega
theorem RunInv.names {T : Int} {r : Run} {rows : List IndexRow} (h : RunInv T r rows) :
    r.std_out.name ≠ r.std_err.name := by
  rw [h.name_out, h.name_err]; decide

theorem storeOut_step {T : Int} {r r1 : Run} {rows : List IndexRow} (hinv : RunInv T r rows)
    (hord : PendingOrder r) (h : _run_storePipeEvent r Endpoint.std_out = Except.ok r1) :
    ∃ rows1, RunInv T r1 rows1 ∧ r1.std_out.event.stored = true ∧ r1.std_err = r.std_err ∧
      r1.std_out.sink = r.std_out.sink := by
  unfold _run_storePipeEvent at h
  by_cases hst : r.std_out.event.stored = true
  · simp only [Run.pipe, hst, if_true, Except.ok.injEq] at h
    subst h
    exact ⟨rows, hinv, hst, rfl, rfl⟩
  · have hst2 : r.std_out.event.stored = false := by simpa using hst
    simp only [Run.pipe, hst2, Bool.false_eq_true, if_false, hinv.index_eq, Run.setPipe,
      Except.ok.injEq] at h
    subst h
    refine ⟨rows ++ [IndexRow.mk r.std_out.name r.std_out.event.time r.std_out.event.size],
      ?_, rfl, rfl, rfl⟩
    exact
      { index_eq := rfl
        name_out := hinv.name_out
        name_err := hinv.name_err
        out := hinv.out.store_self hst2
        err := hinv.err.store_other hinv.names (fun hc => hord hst2 hc)
        rows_le := by
          intro row hrow
          simp only [List.mem_append, List.mem_singleton] at hrow
          rcases hrow with h1 | h1
          · exact hinv.rows_le row h1
          · subst h1; exact hinv.out.time_le
        times_sorted := by
          simp only [List.map_append, List.map_cons, List.map_nil]
          rw [List.pairwise_append]
          refine ⟨hinv.times_sorted, List.pairwise_singleton _ _, ?_⟩
          intro x hx y hy
          simp only [List.mem_singleton] at hy
          subst hy
          obtain ⟨row, hrow, rfl⟩ := List.mem_map.mp hx
          exact hinv.out.pending_ge hst2 row hrow }

theorem storeErr_step {T : Int} {r r1 : Run} {rows : List IndexRow} (hinv : RunInv T r rows)
    (hout : r.std_out.event.stored = true)
    (h : _run_storePipeEvent r Endpoint.std_err = Except.ok r1) :
    ∃ rows1, RunInv T r1 rows1 ∧ r1.std_out.event.stored = true ∧
      r1.std_err.event.stored = true ∧ r1.std_out.sink = r.std_out.sink ∧
      r1.std_err.sink = r.std_err.sink := by
  unfold _run_storePipeEvent at h
  by_cases hst : r.std_err.event.stored = true
  · simp only [Run.pipe, hst, if_true, Except.ok.injEq] at h
    subst h
    exact ⟨rows, hinv, hout, hst, rfl, rfl⟩
  · have hst2 : r.std_err.event.stored = false := by simpa using hst
    simp only [Run.pipe, hst2, Bool.false_eq_true, if_false, hinv.index_eq, Run.setPipe,
      Except.ok.injEq] at h
    subst h
    refine ⟨rows ++ [IndexRow.mk r.std_err.name r.std_err.event.time r.std_err.event.size],
      ?_, hout, rfl, rfl, rfl⟩
    exact
      { index_eq := rfl
        name_out := hinv.name_out
        name_err := hinv.name_err
        out := hinv.out.store_other (Ne.symm hinv.names) (fun hc => by simp [hout] at hc)
        err := hinv.err.store_self hst2
        rows_le := by
          intro row hrow
          simp only [List.mem_append, List.mem_singleton] at hrow
          rcases hrow with h1 | h1
          · exact hinv.rows_le row h1
          · subst h1; exact hinv.err.time_le
        times_sorted := by
          simp only [List.map_append, List.map_cons, List.map_nil]
          rw [List.pairwise_append]
          refine ⟨hinv.times_sorted, List.pairwise_singleton _ _, ?_⟩
          intro x hx y hy
          simp only [List.mem_singleton] at hy
          subst hy
          obtain ⟨row, hrow, rfl⟩ := List.mem_map.mp hx
          exact hinv.err.pending_ge hst2 row hrow }

theorem prepareRun_step {T : Int} {r r1 : Run} {rows : List IndexRow} (hinv : RunInv T r rows)
    (hord : PendingOrder r) (h : prepareRun r = Except.ok r1) :
    ∃ rows1, RunInv T r1 rows1 ∧ r1.std_out.event.stored = true ∧
      r1.std_err.event.stored = true ∧ r1.std_out.sink = r.std_out.sink ∧
      r1.std_err.sink = r.std_err.sink := by
  unfold prepareRun at h
  cases hA : _run_storePipeEvent r Endpoint.std_out with
  | error f => simp [hA] at h
  | ok rA =>
    simp only [hA] at h
    obtain ⟨rowsA, hinvA, hstA, herrA, hsinkA⟩ := storeOut_step hinv hord hA
    obtain ⟨rows1, hinv1, ho, he, hs1, hs2⟩ := storeErr_step hinvA hstA h
    exact ⟨rows1, hinv1, ho, he, by rw [hs1, hsinkA], by rw [hs2, herrA]⟩

theorem copyOut_step {σ : Type} {T : Int} {r r1 : Run} {rows : List IndexRow}
    (hinv : RunInv T r rows) (a : CopyArgs σ) (hT : T ≤ a.now1) (hnow : a.now1 ≤ a.now2)
    (hbuff : a.buff.used ≤ a.buff.head.length)
    (h : copyOn r Endpoint.std_out a = Except.ok r1)
    (hlt : r1.std_out.sink.length < SIZE_MOD) :
    RunInv a.now2 r1 rows ∧ r1.std_err = r.std_err ∧
      r.std_out.sink.length ≤ r1.std_out.sink.length ∧
      (r1.std_out.event = r.std_out.event ∨
        (r1.std_out.event.time = a.now2 ∧ r.std_out.event.size < r.std_out.counter)) := by
  unfold copyOn at h
  cases hc : _pipe_copy (r.pipe Endpoint.std_out) a.set a.buff a.callback a.st a.rd a.now1 a.now2 with
  | none => simp [hc] at h
  | some res =>
    simp only [hc, Except.ok.injEq] at h
    subst h
    simp only [Run.pipe] at hc
    simp only [Run.setPipe] at hlt ⊢
    have hs := StreamInv.copy hinv.out hinv.rows_le a hT hnow hbuff res hc hlt
    obtain ⟨hname, hev⟩ := pipe_copy_event r.std_out a res hc
    obtain ⟨hsink, -, -⟩ := pipe_copy_effect r.std_out a hbuff res hc
    refine ⟨?_, trivial, by rw [hsink, List.length_append]; omega, ?_⟩
    · exact
        { index_eq := hinv.index_eq
          name_out := by rw [hname]; exact hinv.name_out
          name_err := hinv.name_err
          out := hs
          err := hinv.err.mono (le_trans hT hnow)
          rows_le := fun row hrow => le_trans (hinv.rows_le row hrow) (le_trans hT hnow)
          times_sorted := hinv.times_sorted }
    · rcases hev with he | ⟨he, hsz, -⟩
      · exact Or.inl he
      · right; rw [he]; exact ⟨rfl, hsz⟩

theorem copyErr_step {σ : Type} {T : Int} {r r1 : Run} {rows : List IndexRow}
    (hinv : RunInv T r rows) (a : CopyArgs σ) (hT : T ≤ a.now1) (hnow : a.now1 ≤ a.now2)
    (hbuff : a.buff.used ≤ a.buff.head.length)
    (h : copyOn r Endpoint.std_err a = Except.ok r1)
    (hlt : r1.std_err.sink.length < SIZE_MOD) :
    RunInv a.now2 r1 rows ∧ r1.std_out = r.std_out ∧
      r.std_err.sink.length ≤ r1.std_err.sink.length ∧
      (r1.std_err.event = r.std_err.event ∨
        (r1.std_err.event.time = a.now2 ∧ r.std_err.event.size < r.std_err.counter)) := by
  unfold copyOn at h
  cases hc : _pipe_copy (r.pipe Endpoint.std_err) a.set a.buff a.callback a.st a.rd a.now1 a.now2 with
  | none => simp [hc] at h
  | some res =>
    simp only [hc, Except.ok.injEq] at h
    subst h
    simp only [Run.pipe] at hc
    simp only [Run.setPipe] at hlt ⊢
    have hs := StreamInv.copy hinv.err hinv.rows_le a hT hnow hbuff res hc hlt
    obtain ⟨hname, hev⟩ := pipe_copy_event r.std_err a res hc
    obtain ⟨hsink, -, -⟩ := pipe_copy_effect r.std_err a hbuff res hc
    refine ⟨?_, trivial, by rw [hsink, List.length_append]; omega, ?_⟩
    · exact
        { index_eq := hinv.index_eq
          name_out := hinv.name_out
          name_err := by rw [hname]; exact hinv.name_err
          out := hinv.out.mono (le_trans hT hnow)
          err := hs
          rows_le := fun row hrow => le_trans (hinv.rows_le row hrow) (le_trans hT hnow)
          times_sorted := hinv.times_sorted }
    · rcases hev with he | ⟨he, hsz, -⟩
      · exact Or.inl he
      · right; rw [he]; exact ⟨rfl, hsz⟩
theorem store_frame {r r1 : Run} {e : Endpoint} (h : _run_storePipeEvent r e = Except.ok r1) :
    r1.std_out.sink = r.std_out.sink ∧ r1.std_err.sink = r.std_err.sink := by
  unfold _run_storePipeEvent at h
  split at h
  · simp only [Except.ok.injEq] at h
    subst h; exact ⟨rfl, rfl⟩
  · split at h
    · exact absurd h (by simp)
    · simp only [Except.ok.injEq] at h
      subst h
      cases e <;> exact ⟨rfl, rfl⟩

theorem store_returns (r : Run) (e : Endpoint) (rows : List IndexRow) (h : r.index = some rows) :
    ∃ r1 rows1, _run_storePipeEvent r e = Except.ok r1 ∧ r1.index = some rows1 := by
  unfold _run_storePipeEvent
  by_cases hst : (r.pipe e).event.stored = true
  · exact ⟨r, rows, by simp [hst], h⟩
  · simp only [hst, if_false, h]
    cases e <;> exact ⟨_, _, rfl, rfl⟩

theorem copyOn_frame {σ : Type} {r r1 : Run} {e : Endpoint} {a : CopyArgs σ}
    (hbuff : a.buff.used ≤ a.buff.head.length) (h : copyOn r e a = Except.ok r1) :
    r1.index = r.index ∧ r.std_out.sink.length ≤ r1.std_out.sink.length ∧
      r.std_err.sink.length ≤ r1.std_err.sink.length ∧
      (e = Endpoint.std_out → r1.std_err = r.std_err) ∧
      (e = Endpoint.std_err → r1.std_out = r.std_out) := by
  unfold copyOn at h
  cases hc : _pipe_copy (r.pipe e) a.set a.buff a.callback a.st a.rd a.now1 a.now2 with
  | none => simp [hc] at h
  | some res =>
    simp only [hc, Except.ok.injEq] at h
    subst h
    obtain ⟨hsink, -, -⟩ := pipe_copy_effect (r.pipe e) a hbuff res hc
    cases e
    · simp only [Run.pipe] at hsink
      refine ⟨rfl, ?_, le_refl _, fun _ => rfl, fun h => by cases h⟩
      simp only [Run.setPipe, hsink, List.length_append]
      omega
    · simp only [Run.pipe] at hsink
      refine ⟨rfl, le_refl _, ?_, fun h => (by cases h), fun _ => rfl⟩
      simp only [Run.setPipe, hsink, List.length_append]
      omega

theorem copyOn_returns {σ : Type} (r : Run) (e : Endpoint) (a : CopyArgs σ)
    (hret : ∀ f, a.callback = some f → ∀ st b, (f st b).isSome) :
    ∃ r1, copyOn r e a = Except.ok r1 := by
  obtain ⟨res, hres⟩ := pipe_copy_returns (r.pipe e) a hret
  exact ⟨r.setPipe e res.1, by simp only [copyOn, hres]⟩

theorem outputRun_frame {σ : Type} {r r1 : Run} {c : Cycle σ}
    (hbo : c.out.buff.used ≤ c.out.buff.head.length)
    (hbe : c.err.buff.used ≤ c.err.buff.head.length) (h : outputRun r c = Except.ok r1) :
    r1.index = r.index ∧ r.std_out.sink.length ≤ r1.std_out.sink.length ∧
      r.std_err.sink.length ≤ r1.std_err.sink.length := by
  unfold outputRun at h
  cases hA : copyOn r Endpoint.std_out c.out with
  | error f => simp [hA] at h
  | ok rA =>
    simp only [hA] at h
    obtain ⟨h1, h2, h3, -, -⟩ := copyOn_frame hbo hA
    obtain ⟨k1, k2, k3, -, -⟩ := copyOn_frame hbe h
    exact ⟨by rw [k1, h1], le_trans h2 k2, le_trans h3 k3⟩

theorem cycleRun_frame {σ : Type} {r r1 : Run} {c : Cycle σ}
    (hbo : c.out.buff.used ≤ c.out.buff.head.length)
    (hbe : c.err.buff.used ≤ c.err.buff.head.length) (h : cycleRun r c = Except.ok r1) :
    r.std_out.sink.length ≤ r1.std_out.sink.length ∧
      r.std_err.sink.length ≤ r1.std_err.sink.length := by
  unfold cycleRun prepareRun at h
  cases hA : _run_storePipeEvent r Endpoint.std_out with
  | error f => simp [hA] at h
  | ok rA =>
    simp only [hA] at h
    cases hB : _run_storePipeEvent rA Endpoint.std_err with
    | error f => simp [hB] at h
    | ok rB =>
      simp only [hB] at h
      obtain ⟨a1, a2⟩ := store_frame hA
      obtain ⟨b1, b2⟩ := store_frame hB
      obtain ⟨-, c1, c2⟩ := outputRun_frame hbo hbe h
      rw [b1, a1] at c1
      rw [b2, a2] at c2
      exact ⟨c1, c2⟩

theorem runCycles_frame {σ : Type} :
    ∀ (cs : List (Cycle σ)) (r rf : Run),
      (∀ c ∈ cs, c.out.buff.used ≤ c.out.buff.head.length ∧
        c.err.buff.used ≤ c.err.buff.head.length) →
      runCycles r cs = Except.ok rf →
      r.std_out.sink.length ≤ rf.std_out.sink.length ∧
        r.std_err.sink.length ≤ rf.std_err.sink.length := by
  intro cs
  induction cs with
  | nil =>
    intro r rf _ h
    simp only [runCycles, Except.ok.injEq] at h
    subst h; exact ⟨le_refl _, le_refl _⟩
  | cons c cs ih =>
    intro r rf hb h
    simp only [runCycles] at h
    cases hA : cycleRun r c with
    | error f => simp [hA] at h
    | ok rA =>
      simp only [hA] at h
      obtain ⟨a1, a2⟩ := cycleRun_frame (hb c (List.mem_cons_self _ _)).1
        (hb c (List.mem_cons_self _ _)).2 hA
      obtain ⟨b1, b2⟩ := ih rA rf (fun x hx => hb x (List.mem_cons_of_mem _ hx)) h
      exact ⟨le_trans a1 b1, le_trans a2 b2⟩

theorem runCycles_returns {σ : Type} :
    ∀ (cs : List (Cycle σ)) (r : Run) (rows : List IndexRow), r.index = some rows →
      (∀ c ∈ cs, (∀ f, c.out.callback = some f → ∀ st b, (f st b).isSome) ∧
        (∀ f, c.err.callback = some f → ∀ st b, (f st b).isSome) ∧
        c.out.buff.used ≤ c.out.buff.head.length ∧
        c.err.buff.used ≤ c.err.buff.head.length) →
      ∃ rf rows1, runCycles r cs = Except.ok rf ∧ rf.index = some rows1 := by
  intro cs
  induction cs with
  | nil => intro r rows h _; exact ⟨r, rows, rfl, h⟩
  | cons c cs ih =>
    intro r rows h hc
    obtain ⟨ho, he, hbo, hbe⟩ := hc c (List.mem_cons_self _ _)
    obtain ⟨rA, rowsA, hA, hiA⟩ := store_returns r Endpoint.std_out rows h
    obtain ⟨rB, rowsB, hB, hiB⟩ := store_returns rA Endpoint.std_err rowsA hiA
    obtain ⟨rC, hC⟩ := copyOn_returns rB Endpoint.std_out c.out ho
    obtain ⟨rD, hD⟩ := copyOn_returns rC Endpoint.std_err c.err he
    have hiD : rD.index = some rowsB := by
      rw [(copyOn_frame hbe hD).1, (copyOn_frame hbo hC).1, hiB]
    obtain ⟨rf, rows1, hf, hif⟩ := ih rD rowsB hiD (fun x hx => hc x (List.mem_cons_of_mem _ hx))
    refine ⟨rf, rows1, ?_, hif⟩
    simp only [runCycles, cycleRun, prepareRun, hA, hB, outputRun, hC, hD, hf]
theorem outputRun_step {σ : Type} {T : Int} {r r1 : Run} {rows : List IndexRow}
    (hinv : RunInv T r rows) (c : Cycle σ)
    (h1 : T ≤ c.out.now1) (h2 : c.out.now1 ≤ c.out.now2) (h3 : c.out.now2 ≤ c.err.now1)
    (h4 : c.err.now1 ≤ c.err.now2)
    (hbo : c.out.buff.used ≤ c.out.buff.head.length)
    (hbe : c.err.buff.used ≤ c.err.buff.head.length)
    (h : outputRun r c = Except.ok r1)
    (hlo : r1.std_out.sink.length < SIZE_MOD) (hle : r1.std_err.sink.length < SIZE_MOD) :
    RunInv c.err.now2 r1 rows ∧ r1.std_out.event.time ≤ c.out.now2 ∧
      (r1.std_out.event = r.std_out.event ∨
        (r1.std_out.event.time = c.out.now2 ∧ r.std_out.event.size < r.std_out.counter)) ∧
      (r1.std_err.event = r.std_err.event ∨
        (r1.std_err.event.time = c.err.now2 ∧ r.std_err.event.size < r.std_err.counter)) := by
  unfold outputRun at h
  cases hA : copyOn r Endpoint.std_out c.out with
  | error f => simp [hA] at h
  | ok rA =>
    simp only [hA] at h
    obtain ⟨-, -, -, -, hsame⟩ := copyOn_frame hbe h
    have hsame := hsame rfl
    obtain ⟨hinvA, herrA, -, hevA⟩ := copyOut_step hinv c.out h1 h2 hbo hA (by rw [← hsame]; exact hlo)
    obtain ⟨hinv1, -, -, hev1⟩ := copyErr_step hinvA c.err h3 h4 hbe h hle
    refine ⟨hinv1, ?_, ?_, ?_⟩
    · rw [hsame]; exact hinvA.out.time_le
    · rw [hsame]; exact hevA
    · rw [herrA] at hev1; exact hev1

theorem cycleRun_step {σ : Type} {T : Int} {r r1 : Run} {rows : List IndexRow}
    (hinv : RunInv T r rows) (hord : PendingOrder r) (c : Cycle σ)
    (h1 : T ≤ c.out.now1) (h2 : c.out.now1 ≤ c.out.now2) (h3 : c.out.now2 ≤ c.err.now1)
    (h4 : c.err.now1 ≤ c.err.now2)
    (hbo : c.out.buff.used ≤ c.out.buff.head.length)
    (hbe : c.err.buff.used ≤ c.err.buff.head.length)
    (h : cycleRun r c = Except.ok r1)
    (hlo : r1.std_out.sink.length < SIZE_MOD) (hle : r1.std_err.sink.length < SIZE_MOD) :
    ∃ rows1, RunInv c.err.now2 r1 rows1 ∧ PendingOrder r1 := by
  unfold cycleRun at h
  cases hA : prepareRun r with
  | error f => simp [hA] at h
  | ok rA =>
    simp only [hA] at h
    obtain ⟨rowsA, hinvA, -, hstE, -, -⟩ := prepareRun_step hinv hord hA
    obtain ⟨hinv1, htime, -, hevE⟩ := outputRun_step hinvA c h1 h2 h3 h4 hbo hbe h hlo hle
    refine ⟨rowsA, hinv1, ?_⟩
    intro _ hpe
    rcases hevE with he | ⟨he, -⟩
    · rw [he, hstE] at hpe
      exact absurd hpe (by simp)
    · rw [he]; omega

theorem runCycles_inv {σ : Type} :
    ∀ (cs : List (Cycle σ)) (r rf : Run) (T : Int) (rows : List IndexRow),
      RunInv T r rows → PendingOrder r →
      (T :: (cs.map Cycle.clock).flatten).Pairwise (fun a b => a ≤ b) →
      (∀ c ∈ cs, c.out.buff.used ≤ c.out.buff.head.length ∧
        c.err.buff.used ≤ c.err.buff.head.length) →
      runCycles r cs = Except.ok rf →
      rf.std_out.sink.length < SIZE_MOD → rf.std_err.sink.length < SIZE_MOD →
      ∃ T1 rows1, T1 ∈ T :: (cs.map Cycle.clock).flatten ∧ RunInv T1 rf rows1 ∧
        PendingOrder rf := by
  intro cs
  induction cs with
  | nil =>
    intro r rf T rows hinv hord _ _ h _ _
    simp only [runCycles, Except.ok.injEq] at h
    subst h
    exact ⟨T, rows, List.mem_cons_self _ _, hinv, hord⟩
  | cons c cs ih =>
    intro r rf T rows hinv hord hclk hb h hlo hle
    simp only [runCycles] at h
    cases hA : cycleRun r c with
    | error f => simp [hA] at h
    | ok rA =>
      simp only [hA] at h
      obtain ⟨hbo, hbe⟩ := hb c (List.mem_cons_self _ _)
      have hb2 : ∀ x ∈ cs, x.out.buff.used ≤ x.out.buff.head.length ∧
          x.err.buff.used ≤ x.err.buff.head.length :=
        fun x hx => hb x (List.mem_cons_of_mem _ hx)
      obtain ⟨m1, m2⟩ := runCycles_frame cs rA rf hb2 h
      simp only [List.map_cons, List.flatten_cons, Cycle.clock, List.cons_append,
        List.nil_append] at hclk
      obtain ⟨hT, hclk1⟩ := List.pairwise_cons.mp hclk
      obtain ⟨h12, hclk2⟩ := List.pairwise_cons.mp hclk1
      obtain ⟨h23, hclk3⟩ := List.pairwise_cons.mp hclk2
      obtain ⟨h34, hclk4⟩ := List.pairwise_cons.mp hclk3
      obtain ⟨rowsA, hinvA, hordA⟩ := cycleRun_step hinv hord c
        (hT _ (List.mem_cons_self _ _))
        (h12 _ (List.mem_cons_self _ _))
        (h23 _ (List.mem_cons_self _ _))
        (h34 _ (List.mem_cons_self _ _)) hbo hbe hA (by omega) (by omega)
      obtain ⟨T1, rows1, hmem, hinv1, hord1⟩ := ih rA rf c.err.now2 rowsA hinvA hordA hclk4 hb2 h
        hlo hle
      refine ⟨T1, rows1, ?_, hinv1, hord1⟩
      simp only [List.map_cons, List.flatten_cons, Cycle.clock, List.cons_append,
        List.nil_append]
      rcases List.mem_cons.mp hmem with h0 | h0
      · subst h0; simp
      · simp [h0]
theorem initial_inv (type : RunType) (tt pid : Int) (cmdArray : List (List Nat))
    (tOut tErr i1 i2 o1 o2 : Int) (h : tOut ≤ tErr) :
    RunInv tErr (openRun (newRun type tt pid cmdArray tOut tErr) i1 i2 o1 o2) [] ∧
      PendingOrder (openRun (newRun type tt pid cmdArray tOut tErr) i1 i2 o1 o2) := by
  constructor
  · exact
      { index_eq := rfl
        name_out := rfl
        name_err := rfl
        out :=
          { counter_eq := rfl
            size_le := le_refl _
            time_le := h
            row_le := by intro row hrow; simp [streamRows] at hrow
            pending_ge := by intro _ row hrow; simp at hrow
            sizes_sorted := by simp [streamRows]
            spaced := by simp [streamRows] }
        err :=
          { counter_eq := rfl
            size_le := le_refl _
            time_le := le_refl _
            row_le := by intro row hrow; simp [streamRows] at hrow
            pending_ge := by intro _ row hrow; simp at hrow
            sizes_sorted := by simp [streamRows]
            spaced := by simp [streamRows] }
        rows_le := by intro row hrow; simp at hrow
        times_sorted := by simp }
  · intro _ _
    exact h

theorem final_rows_ordered {T : Int} {r : Run} {rows : List IndexRow} (hinv : RunInv T r rows)
    (fOut fErr : Int) (h1 : T ≤ fOut) (h2 : fOut ≤ fErr) :
    ((streamRows "out" (rows ++ [IndexRow.mk r.std_out.name fOut r.std_out.counter,
        IndexRow.mk r.std_err.name fErr r.std_err.counter])).map IndexRow.size).Pairwise
        (fun a b => a ≤ b) ∧
    ((streamRows "err" (rows ++ [IndexRow.mk r.std_out.name fOut r.std_out.counter,
        IndexRow.mk r.std_err.name fErr r.std_err.counter])).map IndexRow.size).Pairwise
        (fun a b => a ≤ b) ∧
    ((rows ++ [IndexRow.mk r.std_out.name fOut r.std_out.counter,
        IndexRow.mk r.std_err.name fErr r.std_err.counter]).map IndexRow.time).Pairwise
        (fun a b => a ≤ b) ∧
    (streamRows "out" (rows ++ [IndexRow.mk r.std_out.name fOut r.std_out.counter,
        IndexRow.mk r.std_err.name fErr r.std_err.counter])).dropLast.Chain'
        (fun a b => a.time + 9 ≤ b.time) ∧
    (streamRows "err" (rows ++ [IndexRow.mk r.std_out.name fOut r.std_out.counter,
        IndexRow.mk r.std_err.name fErr r.std_err.counter])).dropLast.Chain'
        (fun a b => a.time + 9 ≤ b.time) ∧
    (streamRows "out" (rows ++ [IndexRow.mk r.std_out.name fOut r.std_out.counter,
        IndexRow.mk r.std_err.name fErr r.std_err.counter])).getLast?
        = some (IndexRow.mk "out" fOut r.std_out.counter) ∧
    (streamRows "err" (rows ++ [IndexRow.mk r.std_out.name fOut r.std_out.counter,
        IndexRow.mk r.std_err.name fErr r.std_err.counter])).getLast?
        = some (IndexRow.mk "err" fErr r.std_err.counter) := by
  have hO : streamRows "out" (rows ++ [IndexRow.mk r.std_out.name fOut r.std_out.counter,
      IndexRow.mk r.std_err.name fErr r.std_err.counter])
      = streamRows "out" rows ++ [IndexRow.mk "out" fOut r.std_out.counter] := by
    rw [hinv.name_out, hinv.name_err]
    simp [streamRows, List.filter_cons]
  have hE : streamRows "err" (rows ++ [IndexRow.mk r.std_out.name fOut r.std_out.counter,
      IndexRow.mk r.std_err.name fErr r.std_err.counter])
      = streamRows "err" rows ++ [IndexRow.mk "err" fErr r.std_err.counter] := by
    rw [hinv.name_out, hinv.name_err]
    simp [streamRows, List.filter_cons]
  have hrO := hinv.out.row_le
  have hsO := hinv.out.sizes_sorted
  have hcO := hinv.out.spaced
  rw [hinv.name_out] at hrO hsO hcO
  have hrE := hinv.err.row_le
  have hsE := hinv.err.sizes_sorted
  have hcE := hinv.err.spaced
  rw [hinv.name_err] at hrE hsE hcE
  rw [hO, hE]
  refine ⟨?_, ?_, ?_, ?_, ?_, by simp, by simp⟩
  · simp only [List.map_append, List.map_cons, List.map_nil]
    rw [List.pairwise_append]
    refine ⟨hsO, List.pairwise_singleton _ _, ?_⟩
    intro a ha b hb
    simp only [List.mem_singleton] at hb
    subst hb
    obtain ⟨row, hrow, rfl⟩ := List.mem_map.mp ha
    exact le_trans (hrO row hrow).1 hinv.out.size_le
  · simp only [List.map_append, List.map_cons, List.map_nil]
    rw [List.pairwise_append]
    refine ⟨hsE, List.pairwise_singleton _ _, ?_⟩
    intro a ha b hb
    simp only [List.mem_singleton] at hb
    subst hb
    obtain ⟨row, hrow, rfl⟩ := List.mem_map.mp ha
    exact le_trans (hrE row hrow).1 hinv.err.size_le
  · simp only [List.map_append, List.map_cons, List.map_nil]
    rw [List.pairwise_append]
    refine ⟨hinv.times_sorted, ?_, ?_⟩
    · simp [h2]
    · intro a ha b hb
      obtain ⟨row, hrow, rfl⟩ := List.mem_map.mp ha
      have := hinv.rows_le row hrow
      simp only [List.mem_cons, List.mem_singleton, List.not_mem_nil, or_false] at hb
      rcases hb with rfl | rfl <;> omega
  · rw [List.dropLast_concat]; exact hcO
  · rw [List.dropLast_concat]; exact hcE
/-- What the supervisor itself prints into the index stream of a run: with a
clock that never goes backwards, the life of the run returns and the lines
`_run_storePipeEvent` has printed are such that, as long as neither log
reaches `2 ^ 64` bytes, within each stream `size` never decreases, `time`
never decreases over all lines, and any two consecutive lines of a stream are
at least 9 seconds apart unless the later one is the stream's last line, which
is the sample `_run_free` forces.  This is the order in which the lines enter
the supervisor's buffer; what reaches the file is the matter of `forkRun` and
`reapWorld`. -/
theorem index_rows_ordered {σ : Type} (l : Life σ)
    (hret : ∀ a ∈ l.calls, ∀ f, a.callback = some f → ∀ st b, (f st b).isSome)
    (hbuff : ∀ a ∈ l.calls, a.buff.used ≤ a.buff.head.length)
    (hclock : l.clock.Pairwise (fun a b => a ≤ b)) :
    ∃ r rows, lifeRun l = Except.ok r ∧ r.index = some rows ∧
      (r.std_out.sink.length < SIZE_MOD → r.std_err.sink.length < SIZE_MOD →
        ((streamRows "out" rows).map IndexRow.size).Pairwise (fun a b => a ≤ b) ∧
        ((streamRows "err" rows).map IndexRow.size).Pairwise (fun a b => a ≤ b) ∧
        (rows.map IndexRow.time).Pairwise (fun a b => a ≤ b) ∧
        (streamRows "out" rows).dropLast.Chain' (fun a b => a.time + 9 ≤ b.time) ∧
        (streamRows "err" rows).dropLast.Chain' (fun a b => a.time + 9 ≤ b.time) ∧
        (streamRows "out" rows).getLast? = some (IndexRow.mk "out" l.fOut r.std_out.counter) ∧
        (streamRows "err" rows).getLast? = some (IndexRow.mk "err" l.fErr r.std_err.counter)) := by
  -- the calls and the clock, piece by piece
  have hcalls : ∀ a, (a = l.first.out ∨ a = l.first.err ∨
      ∃ c ∈ l.cycles, a = c.out ∨ a = c.err) → a ∈ l.calls := by
    intro a ha
    simp only [Life.calls, List.mem_append, List.mem_cons, List.mem_singleton,
      List.not_mem_nil, or_false, List.mem_flatten, List.mem_map]
    rcases ha with h | h | ⟨c, hc, h⟩
    · exact Or.inl (Or.inl h)
    · exact Or.inl (Or.inr h)
    · refine Or.inr ⟨[c.out, c.err], ⟨c, hc, rfl⟩, ?_⟩
      simpa using h
  have hbc : ∀ c ∈ l.cycles, c.out.buff.used ≤ c.out.buff.head.length ∧
      c.err.buff.used ≤ c.err.buff.head.length :=
    fun c hc => ⟨hbuff _ (hcalls _ (Or.inr (Or.inr ⟨c, hc, Or.inl rfl⟩))),
      hbuff _ (hcalls _ (Or.inr (Or.inr ⟨c, hc, Or.inr rfl⟩)))⟩
  have hbo := hbuff _ (hcalls _ (Or.inl rfl))
  have hbe := hbuff _ (hcalls _ (Or.inr (Or.inl rfl)))
  simp only [Life.clock, Cycle.clock, List.cons_append, List.nil_append, List.append_assoc]
    at hclock
  obtain ⟨c0, hclock⟩ := List.pairwise_cons.mp hclock
  obtain ⟨c1, hclock⟩ := List.pairwise_cons.mp hclock
  obtain ⟨c2, hclock⟩ := List.pairwise_cons.mp hclock
  obtain ⟨c3, hclock⟩ := List.pairwise_cons.mp hclock
  obtain ⟨c4, hclock⟩ := List.pairwise_cons.mp hclock
  obtain ⟨c5, hclock⟩ := List.pairwise_cons.mp hclock
  obtain ⟨hcyc, hfin, hcross⟩ := List.pairwise_append.mp hclock
  have hfOE : l.fOut ≤ l.fErr := by
    have := (List.pairwise_cons.mp hfin).1
    exact this _ (List.mem_cons_self _ _)
  -- the life returns
  obtain ⟨rA, hA⟩ := copyOn_returns
    (openRun (newRun l.type l.tt l.pid l.cmdArray l.tOut l.tErr)
      l.inputStdOut l.inputStdErr l.outFd l.errFd) Endpoint.std_out l.first.out
    (hret _ (hcalls _ (Or.inl rfl)))
  obtain ⟨r1, hB⟩ := copyOn_returns rA Endpoint.std_err l.first.err
    (hret _ (hcalls _ (Or.inr (Or.inl rfl))))
  have hfirst : outputRun (openRun (newRun l.type l.tt l.pid l.cmdArray l.tOut l.tErr)
      l.inputStdOut l.inputStdErr l.outFd l.errFd) l.first = Except.ok r1 := by
    simp only [outputRun, hA, hB]
  have hi1 : r1.index = some [] := by
    rw [(outputRun_frame hbo hbe hfirst).1]; rfl
  obtain ⟨r2, rows2, hC, hi2⟩ := runCycles_returns l.cycles r1 [] hi1 (fun c hc =>
    ⟨hret _ (hcalls _ (Or.inr (Or.inr ⟨c, hc, Or.inl rfl⟩))),
     hret _ (hcalls _ (Or.inr (Or.inr ⟨c, hc, Or.inr rfl⟩))), hbc c hc⟩)
  have hD := finalSamples_eq r2 l.fOut l.fErr rows2 hi2
  have hlife : lifeRun l = finalSamples r2 l.fOut l.fErr := by
    simp only [lifeRun, hfirst, hC]
  rw [hD] at hlife
  refine ⟨_, _, hlife, rfl, ?_⟩
  -- the order of the lines
  intro hlo hle
  simp only at hlo hle
  obtain ⟨m1, m2⟩ := runCycles_frame l.cycles r1 r2 hbc hC
  obtain ⟨hinv0, hord0⟩ := initial_inv l.type l.tt l.pid l.cmdArray l.tOut l.tErr
    l.inputStdOut l.inputStdErr l.outFd l.errFd (c0 _ (List.mem_cons_self _ _))
  obtain ⟨hinv1, -, hevO, hevE⟩ := outputRun_step hinv0 l.first
    (c1 _ (List.mem_cons_self _ _)) (c2 _ (List.mem_cons_self _ _))
    (c3 _ (List.mem_cons_self _ _)) (c4 _ (List.mem_cons_self _ _)) hbo hbe hfirst
    (by omega) (by omega)
  have hord1 : PendingOrder r1 := by
    intro _ _
    rcases hevO with ho | ⟨-, ho⟩
    · rcases hevE with he | ⟨-, he⟩
      · rw [ho, he]; exact c0 _ (List.mem_cons_self _ _)
      · exact absurd he (by simp [openRun, newRun, _pipe_init, _event_set])
    · exact absurd ho (by simp [openRun, newRun, _pipe_init, _event_set])
  obtain ⟨T1, rowsC, hT1, hinv2, -⟩ := runCycles_inv l.cycles r1 r2 l.first.err.now2 []
    hinv1 hord1 (List.pairwise_cons.mpr ⟨fun x hx => c5 x (List.mem_append_left _ hx), hcyc⟩)
    hbc hC hlo hle
  have hrows : rowsC = rows2 := by
    have := hinv2.index_eq
    rw [hi2] at this
    exact (Option.some.inj this).symm
  subst hrows
  have hT1f : T1 ≤ l.fOut := by
    rcases List.mem_cons.mp hT1 with h | h
    · subst h
      exact c5 _ (List.mem_append_right _ (List.mem_cons_self _ _))
    · exact hcross T1 h l.fOut (List.mem_cons_self _ _)
  exact final_rows_ordered hinv2 l.fOut l.fErr hT1f hfOE
/-- The order of the lines the supervisor prints, at the life of a job for
which it prints `out,0,0`, `err,0,0`, `out,25,3`, `out,30,5`, `err,30,0`. -/
theorem index_rows_ordered_witness :
    (lifeRun witnessLife).map (fun r => r.index) = Except.ok (some
      [IndexRow.mk "out" 0 0, IndexRow.mk "err" 0 0, IndexRow.mk "out" 25 3,
       IndexRow.mk "out" 30 5, IndexRow.mk "err" 30 0]) ∧
    ∃ r rows, lifeRun witnessLife = Except.ok r ∧ r.index = some rows ∧
      (r.std_out.sink.length < SIZE_MOD → r.std_err.sink.length < SIZE_MOD →
        ((streamRows "out" rows).map IndexRow.size).Pairwise (fun a b => a ≤ b) ∧
        ((streamRows "err" rows).map IndexRow.size).Pairwise (fun a b => a ≤ b) ∧
        (rows.map IndexRow.time).Pairwise (fun a b => a ≤ b) ∧
        (streamRows "out" rows).dropLast.Chain' (fun a b => a.time + 9 ≤ b.time) ∧
        (streamRows "err" rows).dropLast.Chain' (fun a b => a.time + 9 ≤ b.time) ∧
        (streamRows "out" rows).getLast? = some (IndexRow.mk "out" 30 r.std_out.counter) ∧
        (streamRows "err" rows).getLast? = some (IndexRow.mk "err" 30 r.std_err.counter)) :=
  ⟨rfl, index_rows_ordered witnessLife
    (by
      intro a ha f hf st b
      have hcb : a.callback = some resetCallback := by
        simp only [Life.calls, witnessLife, List.map_cons, List.map_nil, List.flatten_cons,
          List.flatten_nil, List.cons_append, List.nil_append, List.append_nil, List.mem_cons,
          List.mem_singleton, List.not_mem_nil, or_false] at ha
        rcases ha with rfl | rfl | rfl | rfl | rfl | rfl | rfl | rfl <;> rfl
      rw [hcb] at hf
      cases hf
      rfl)
    (by
      intro a ha
      simp only [Life.calls, witnessLife, List.map_cons, List.map_nil, List.flatten_cons,
        List.flatten_nil, List.cons_append, List.nil_append, List.append_nil, List.mem_cons,
        List.mem_singleton, List.not_mem_nil, or_false] at ha
      rcases ha with rfl | rfl | rfl | rfl | rfl | rfl | rfl | rfl <;> decide)
    (by decide)⟩
/-! ## Steps of the supervisor and the ledgers -/

theorem run_free_frame {s s1 : Supervisor} {addr : Nat} {env : ReapEnv}
    (h : _run_free s addr env = Except.ok s1) :
    s1.runs = s.runs ∧ s1.maxRun = s.maxRun ∧ s1.invoked = s.invoked ∧
      s1.ctrlRun = s.ctrlRun := by
  unfold _run_free at h
  split at h
  · exact absurd h (by simp)
  · split at h
    · exact absurd h (by simp)
    · split at h
      · exact absurd h (by simp)
      · simp only [Except.ok.injEq] at h
        subst h
        exact ⟨rfl, rfl, rfl, rfl⟩

theorem reapVisit_frame {env : ReapEnv} {s s3 : Supervisor} {addr : Nat} {run : Run}
    {c c1 : Bool} (h : reapVisit env s addr run c = Except.ok (s3, c1)) :
    s3.runs = s.runs ∧ s3.maxRun = s.maxRun ∧ s3.invoked = s.invoked ∧ (c = true → c1 = true) ∧
      (run.pid ≠ env.pid → s3 = s ∧ c1 = c) := by
  unfold reapVisit at h
  by_cases hp : run.pid = env.pid
  · simp only [hp, if_true] at h
    split at h
    · exact absurd h (by simp)
    · rename_i s2 hf
      simp only [Except.ok.injEq, Prod.mk.injEq] at h
      obtain ⟨h1, h2, h3, -⟩ := run_free_frame hf
      rw [← h.1, ← h.2]
      exact ⟨h1, h2, h3, fun _ => rfl, fun hne => absurd hp hne⟩
  · simp only [hp, if_false, Except.ok.injEq, Prod.mk.injEq] at h
    rw [← h.1, ← h.2]
    exact ⟨rfl, rfl, rfl, fun hc => hc, fun _ => ⟨rfl, rfl⟩⟩

theorem deref_ok {s : Supervisor} {addr : Nat} {run : Run}
    (h : deref s (some addr) = Except.ok run) : s.heap.getD addr none = some run := by
  cases hg : s.heap.getD addr none with
  | none =>
    simp only [deref, hg] at h
    cases h
  | some r =>
    simp only [deref, hg, Except.ok.injEq] at h
    rw [h]

theorem reapLoop_succ_true {env : ReapEnv} {s s3 : Supervisor} {n i r : Nat} {run : Run}
    {c : Bool} (hget : s.runs.getD i none = some r) (hd : deref s (some r) = Except.ok run)
    (hv : reapVisit env s r run c = Except.ok (s3, true)) :
    reapLoop env (n + 1) i c s =
      match reapShift s3 i with
      | Except.error f => Except.error f
      | Except.ok s4 => reapLoop env n (i + 1) true s4 := by
  simp only [reapLoop, hget, hd, hv, if_true]

theorem reapLoop_succ_false {env : ReapEnv} {s s3 : Supervisor} {n i r : Nat} {run : Run}
    {c : Bool} (hget : s.runs.getD i none = some r) (hd : deref s (some r) = Except.ok run)
    (hv : reapVisit env s r run c = Except.ok (s3, false)) :
    reapLoop env (n + 1) i c s = reapLoop env n (i + 1) false s3 := by
  simp only [reapLoop, hget, hd, hv]
  simp

theorem reapLoop_succ_error {env : ReapEnv} {s : Supervisor} {n i r : Nat} {c : Bool}
    (hget : s.runs.getD i none = some r)
    (h : (∃ f, deref s (some r) = Except.error f) ∨
      ∃ run f, deref s (some r) = Except.ok run ∧ reapVisit env s r run c = Except.error f) :
    ∃ f, reapLoop env (n + 1) i c s = Except.error f := by
  rcases h with ⟨f, hf⟩ | ⟨run, f, hd, hv⟩
  · exact ⟨f, by simp only [reapLoop, hget, hf]⟩
  · exact ⟨f, by simp only [reapLoop, hget, hd, hv]⟩

theorem reapShift_ok {s : Supervisor} {i : Nat} (h : i + 1 < s.maxRun) :
    reapShift s i = Except.ok { s with runs := List.set s.runs i (List.getD s.runs (i + 1) none) } := by
  simp only [reapShift, h, if_true]

theorem reapShift_error {s : Supervisor} {i : Nat} (h : ¬ i + 1 < s.maxRun) :
    reapShift s i = Except.error Fault.outOfBounds := by
  simp only [reapShift, h, if_false]

theorem reapLoop_collapse_full (env : ReapEnv) :
    ∀ (rest : List Nat) (Q : List (Option Nat)) (s : Supervisor), rest ≠ [] →
      s.runs = Q ++ rest.map some → s.maxRun = Q.length + rest.length →
      ∃ f, reapLoop env rest.length Q.length true s = Except.error f := by
  intro rest
  induction rest with
  | nil => intro Q s h; exact absurd rfl h
  | cons r rest ih =>
    intro Q s _ hruns hmax
    have hget : s.runs.getD Q.length none = some r := by
      rw [hruns]; exact getD_append_cons Q (some r) none _
    rw [List.length_cons]
    cases hd : deref s (some r) with
    | error f => exact reapLoop_succ_error hget (Or.inl ⟨f, hd⟩)
    | ok run =>
      cases hv : reapVisit env s r run true with
      | error f => exact reapLoop_succ_error hget (Or.inr ⟨run, f, hd, hv⟩)
      | ok res =>
        obtain ⟨s3, c1⟩ := res
        obtain ⟨hr, hm, -, hc, -⟩ := reapVisit_frame hv
        have hc1 : c1 = true := hc rfl
        subst hc1
        rw [reapLoop_succ_true hget hd hv]
        by_cases hlt : Q.length + 1 < s3.maxRun
        · rw [reapShift_ok hlt]
          have hne : rest ≠ [] := by
            intro e
            rw [hm, hmax, e] at hlt
            simp at hlt
          have := ih (Q ++ [List.getD s3.runs (Q.length + 1) none])
            { s3 with runs := List.set s3.runs Q.length (List.getD s3.runs (Q.length + 1) none) }
            hne
            (by
              simp only [hr, hruns, List.map_cons]
              rw [set_append_cons]
              simp)
            (by simp only [hm, hmax, List.length_append, List.length_cons, List.length_nil]; omega)
          simpa using this
        · rw [reapShift_error hlt]
          exact ⟨_, rfl⟩

theorem reapLoop_match_full (env : ReapEnv) :
    ∀ (rest : List Nat) (done : List (Option Nat)) (s : Supervisor),
      s.runs = done ++ rest.map some → s.maxRun = done.length + rest.length →
      (∃ a ∈ rest, ∃ r, s.heap.getD a none = some r ∧ r.pid = env.pid) →
      ∃ f, reapLoop env rest.length done.length false s = Except.error f := by
  intro rest
  induction rest with
  | nil => intro done s _ _ h; obtain ⟨a, ha, -⟩ := h; simp at ha
  | cons r0 rest ih =>
    intro done s hruns hmax hmatch
    have hget : s.runs.getD done.length none = some r0 := by
      rw [hruns]; exact getD_append_cons done (some r0) none _
    rw [List.length_cons]
    cases hd : deref s (some r0) with
    | error f => exact reapLoop_succ_error hget (Or.inl ⟨f, hd⟩)
    | ok run =>
      cases hv : reapVisit env s r0 run false with
      | error f => exact reapLoop_succ_error hget (Or.inr ⟨run, f, hd, hv⟩)
      | ok res =>
        obtain ⟨s3, c1⟩ := res
        obtain ⟨hr, hm, -, -, hne⟩ := reapVisit_frame hv
        cases c1 with
        | true =>
          rw [reapLoop_succ_true hget hd hv]
          by_cases hlt : done.length + 1 < s3.maxRun
          · rw [reapShift_ok hlt]
            have hnil : rest ≠ [] := by
              intro e
              rw [hm, hmax, e] at hlt
              simp at hlt
            have := reapLoop_collapse_full env rest
              (done ++ [List.getD s3.runs (done.length + 1) none])
              { s3 with runs := List.set s3.runs done.length (List.getD s3.runs (done.length + 1) none) }
              hnil
              (by
                simp only [hr, hruns, List.map_cons]
                rw [set_append_cons]
                simp)
              (by
                simp only [hm, hmax, List.length_append, List.length_cons, List.length_nil]
                omega)
            simpa using this
          · rw [reapShift_error hlt]
            exact ⟨_, rfl⟩
        | false =>
          have hp : run.pid ≠ env.pid := by
            intro hp
            unfold reapVisit at hv
            simp only [hp, if_true] at hv
            split at hv
            · exact absurd hv (by simp)
            · simp at hv
          obtain ⟨hs3, -⟩ := hne hp
          subst hs3
          rw [reapLoop_succ_false hget hd hv]
          have hd2 := deref_ok hd
          have := ih (done ++ [some r0]) s3 (by rw [hruns]; simp)
            (by simp only [hmax, List.length_append, List.length_cons, List.length_nil]; omega)
            (by
              obtain ⟨a, ha, r, hr, hrp⟩ := hmatch
              rcases List.mem_cons.mp ha with h0 | h0
              · subst h0
                rw [hd2] at hr
                cases hr
                exact absurd hrp hp
              · exact ⟨a, h0, r, hr, hrp⟩)
          simpa using this
theorem mem_dense (live : List Nat) (k a : Nat) :
    some a ∈ live.map some ++ List.replicate k none ↔ a ∈ live := by
  constructor
  · intro h
    rcases List.mem_append.mp h with h1 | h1
    · obtain ⟨b, hb, hab⟩ := List.mem_map.mp h1
      cases hab; exact hb
    · have := List.eq_of_mem_replicate h1
      cases this
  · intro h
    exact List.mem_append_left _ (List.mem_map_of_mem _ h)

theorem HeapKeep.refl (h : List (Option Run)) : HeapKeep h h :=
  fun _ r hr => ⟨r, hr, rfl, fun hi => hi⟩

theorem HeapKeep.trans {h1 h2 h3 : List (Option Run)} (a : HeapKeep h1 h2) (b : HeapKeep h2 h3) :
    HeapKeep h1 h3 := by
  intro x r hr
  obtain ⟨r2, hr2, hk2, hi2⟩ := a x r hr
  obtain ⟨r3, hr3, hk3, hi3⟩ := b x r2 hr2
  exact ⟨r3, hr3, by rw [hk3, hk2], fun hi => hi3 (hi2 hi)⟩

theorem heapKeep_set {h : List (Option Run)} {addr : Nat} {run run1 : Run}
    (hrun : h.getD addr none = some run) (hkey : key run1 = key run)
    (hidx : run.index ≠ none → run1.index ≠ none) : HeapKeep h (h.set addr (some run1)) := by
  intro x r hr
  by_cases hx : x = addr
  · subst hx
    rw [hrun] at hr
    cases hr
    exact ⟨run1, getD_set_self h _ run1 _ hrun, hkey, hidx⟩
  · exact ⟨r, by rw [getD_set_ne h addr x _ none hx]; exact hr, rfl, fun hi => hi⟩

theorem pidAt_of_keep {s s1 : Supervisor} (hk : HeapKeep s.heap s1.heap) {a : Nat} {r : Run}
    (hr : s.heap.getD a none = some r) : pidAt s1 a = pidAt s a := by
  obtain ⟨r1, hr1, hkey, -⟩ := hk a r hr
  simp only [pidAt, hr, hr1, Option.map_some']
  have : r1.pid = r.pid := by
    have := congrArg (fun t => t.2.1) hkey
    simpa [key] using this
  rw [this]

theorem TableInv.of_keep {s s1 : Supervisor} (h : TableInv s) (hruns : s1.runs = s.runs)
    (hmax : s1.maxRun = s.maxRun) (hinv : s1.invoked = s.invoked)
    (hfin : s.finished ≠ none → s1.finished ≠ none) (hk : HeapKeep s.heap s1.heap) :
    TableInv s1 := by
  obtain ⟨live, k, hr, hm, hlive, hnd⟩ := h.dense
  refine
    { dense := ⟨live, k, by rw [hruns, hr], by rw [hmax, hm], ?_, ?_⟩
      invoked_open := by rw [hruns, hinv]; exact h.invoked_open
      finished_open := by rw [hinv]; exact fun hi => hfin (h.finished_open hi) }
  · intro a ha
    obtain ⟨r, hra, hidx⟩ := hlive a ha
    obtain ⟨r1, hr1, -, hi1⟩ := hk a r hra
    exact ⟨r1, hr1, hi1 hidx⟩
  · have : live.map (pidAt s1) = live.map (pidAt s) := by
      apply List.map_congr_left
      intro a ha
      obtain ⟨r, hra, -⟩ := hlive a ha
      exact pidAt_of_keep hk hra
    rw [this]; exact hnd

theorem store_key {r r1 : Run} {e : Endpoint} (h : _run_storePipeEvent r e = Except.ok r1) :
    key r1 = key r ∧ (r.index ≠ none → r1.index ≠ none) := by
  unfold _run_storePipeEvent at h
  split at h
  · simp only [Except.ok.injEq] at h
    subst h; exact ⟨rfl, fun hi => hi⟩
  · split at h
    · exact absurd h (by simp)
    · simp only [Except.ok.injEq] at h
      subst h
      cases e <;> exact ⟨rfl, fun _ => by simp [Run.setPipe]⟩

theorem prepareRun_key {r r1 : Run} (h : prepareRun r = Except.ok r1) :
    key r1 = key r ∧ (r.index ≠ none → r1.index ≠ none) := by
  unfold prepareRun at h
  cases hA : _run_storePipeEvent r Endpoint.std_out with
  | error f => simp [hA] at h
  | ok rA =>
    simp only [hA] at h
    obtain ⟨a1, a2⟩ := store_key hA
    obtain ⟨b1, b2⟩ := store_key h
    exact ⟨by rw [b1, a1], fun hi => b2 (a2 hi)⟩

theorem copyOn_key {σ : Type} {r r1 : Run} {e : Endpoint} {a : CopyArgs σ}
    (h : copyOn r e a = Except.ok r1) : key r1 = key r ∧ r1.index = r.index := by
  unfold copyOn at h
  split at h
  · exact absurd h (by simp)
  · simp only [Except.ok.injEq] at h
    subst h
    cases e <;> exact ⟨rfl, rfl⟩

theorem prepareLoop_keep :
    ∀ (n i : Nat) (s : Supervisor) (fds : List Int) (s1 : Supervisor) (fds1 : List Int),
      prepareLoop n i s fds = Except.ok (s1, fds1) →
      s1.runs = s.runs ∧ s1.maxRun = s.maxRun ∧ s1.invoked = s.invoked ∧
        s1.finished = s.finished ∧ HeapKeep s.heap s1.heap := by
  intro n
  induction n with
  | zero =>
    intro i s fds s1 fds1 h
    simp only [prepareLoop, Except.ok.injEq, Prod.mk.injEq] at h
    rw [← h.1]
    exact ⟨rfl, rfl, rfl, rfl, HeapKeep.refl _⟩
  | succ n ih =>
    intro i s fds s1 fds1 h
    simp only [prepareLoop] at h
    cases hg : s.runs.getD i none with
    | none =>
      simp only [hg, Except.ok.injEq, Prod.mk.injEq] at h
      rw [← h.1]
      exact ⟨rfl, rfl, rfl, rfl, HeapKeep.refl _⟩
    | some addr =>
      simp only [hg] at h
      cases hd : deref s (some addr) with
      | error f => simp [hd] at h
      | ok run =>
        simp only [hd] at h
        cases hp : prepareRun run with
        | error f => simp [hp] at h
        | ok run1 =>
          simp only [hp] at h
          obtain ⟨h1, h2, h3, h4, h5⟩ := ih _ _ _ _ _ h
          obtain ⟨k1, k2⟩ := prepareRun_key hp
          exact ⟨h1, h2, h3, h4, (heapKeep_set (deref_ok hd) k1 k2).trans h5⟩

theorem copyAt_keep {σ : Type} {s s1 : Supervisor} {i : Nat} {e : Endpoint} {a : CopyArgs σ}
    (h : copyAt s i e a = Except.ok s1) :
    s1.runs = s.runs ∧ s1.maxRun = s.maxRun ∧ s1.invoked = s.invoked ∧
      s1.finished = s.finished ∧ HeapKeep s.heap s1.heap := by
  unfold copyAt at h
  cases hg : s.runs.getD i none with
  | none =>
    simp only [hg, Except.ok.injEq] at h
    rw [← h]
    exact ⟨rfl, rfl, rfl, rfl, HeapKeep.refl _⟩
  | some addr =>
    simp only [hg] at h
    cases hd : deref s (some addr) with
    | error f => simp [hd] at h
    | ok run =>
      simp only [hd] at h
      cases hp : copyOn run e a with
      | error f => simp [hp] at h
      | ok run1 =>
        simp only [hp, Except.ok.injEq] at h
        rw [← h]
        obtain ⟨k1, k2⟩ := copyOn_key hp
        exact ⟨rfl, rfl, rfl, rfl, heapKeep_set (deref_ok hd) k1 (fun hi => by rw [k2]; exact hi)⟩

theorem updateRunning_keep {s s1 : Supervisor} {now : Nat → Int}
    (h : _runs_updateRunning s now = Except.ok s1) :
    s1.runs = s.runs ∧ s1.maxRun = s.maxRun ∧ s1.invoked = s.invoked ∧
      s1.finished = s.finished ∧ s1.heap = s.heap := by
  unfold _runs_updateRunning at h
  split at h
  · exact absurd h (by simp)
  · split at h
    · exact absurd h (by simp)
    · simp only [Except.ok.injEq] at h
      rw [← h]
      exact ⟨rfl, rfl, rfl, rfl, rfl⟩
theorem others_of_nodup {s : Supervisor} {env : ReapEnv} {before after : List Nat} {a : Nat}
    {run : Run}
    (hheap : ∀ b ∈ before ++ a :: after, ∃ r, s.heap.getD b none = some r ∧ r.index ≠ none)
    (hpids : ((before ++ a :: after).map (pidAt s)).Nodup)
    (hrun : s.heap.getD a none = some run) (hrp : run.pid = env.pid) :
    ∀ b, b ∈ before ∨ b ∈ after →
      b ≠ a ∧ ∃ r, s.heap.getD b none = some r ∧ r.pid ≠ env.pid := by
  simp only [List.map_append, List.map_cons] at hpids
  have hnd := List.nodup_append.mp hpids
  have hnd2 := List.nodup_cons.mp hnd.2.1
  intro b hb
  obtain ⟨r, hr, -⟩ := hheap b (by
    rcases hb with h | h
    · exact List.mem_append_left _ h
    · exact List.mem_append_right _ (List.mem_cons_of_mem _ h))
  have hne : pidAt s b ≠ pidAt s a := by
    rcases hb with h | h
    · intro e
      exact hnd.2.2 (List.mem_map_of_mem _ h) (by rw [e]; exact List.mem_cons_self _ _)
    · intro e
      exact hnd2.1 (by rw [← e]; exact List.mem_map_of_mem _ h)
  refine ⟨fun e => hne (by rw [e]), r, hr, fun e => hne ?_⟩
  simp only [pidAt, hr, hrun, Option.map_some', hrp, e]

/-- What a round of the reap loop that returns has done: nothing, when no run
of the table has the pid; otherwise the one run with the pid is finalised and
taken out of the table. -/
theorem reapOne_cases {s s1 : Supervisor} {env : ReapEnv} (h : TableInv s)
    (hr : reapOne s env = Except.ok s1) :
    (s1 = s ∧ ∀ a, some a ∈ s.runs → pidAt s a ≠ some env.pid) ∨
    (∃ (before : List Nat) (a : Nat) (after : List Nat) (k : Nat) (run run1 : Run)
        (frows : List FinishedRow),
      s.runs = (before ++ a :: after).map some ++ List.replicate k none ∧
      s.maxRun = (before ++ a :: after).length + k ∧
      (∀ b ∈ before ++ a :: after, ∃ r, s.heap.getD b none = some r ∧ r.index ≠ none) ∧
      ((before ++ a :: after).map (pidAt s)).Nodup ∧
      s.heap.getD a none = some run ∧ run.pid = env.pid ∧ key run1 = key run ∧
      s.finished = some frows ∧
      s1 = { s with
        heap := s.heap.set a none
        finished := some (frows ++ [finishedRow run1 env.renamed])
        finalised := s.finalised ++ [run1]
        runs := (before ++ after).map some ++ List.replicate (k + 1) none } ∧
      (∀ b ∈ before ++ after, b ≠ a ∧ pidAt s b ≠ some env.pid)) := by
  obtain ⟨live, k, hruns, hmax, hlive, hnd⟩ := h.dense
  by_cases hm : ∃ a ∈ live, pidAt s a = some env.pid
  · right
    obtain ⟨a, ha, hpa⟩ := hm
    obtain ⟨before, after, rfl⟩ := List.append_of_mem ha
    obtain ⟨run, hrun, hidx⟩ := hlive a ha
    obtain ⟨rows, hrows⟩ := Option.ne_none_iff_exists'.mp hidx
    have hrp : run.pid = env.pid := by
      simp only [pidAt, hrun, Option.map_some', Option.some.injEq] at hpa
      exact hpa
    have hother := others_of_nodup hlive hnd hrun hrp
    by_cases hk : 0 < k
    · have hfin : s.finished ≠ none :=
        h.finished_open (h.invoked_open ⟨a, by rw [hruns]; exact (mem_dense _ k a).mpr ha⟩)
      obtain ⟨frows, hfrows⟩ := Option.ne_none_iff_exists'.mp hfin
      obtain ⟨run1, hfs, hloop⟩ := reapLoop_match env a after k run rows frows hk hrp hrows
        before [] s (by rw [hruns]; simp) (by rw [hmax]; simp; omega)
        (fun b hb => (hother b (Or.inl hb)).2) hrun hfrows (fun b hb => hother b (Or.inr hb))
      have hm2 : s.maxRun = before.length + 1 + after.length + k := by
        rw [hmax]; simp; omega
      unfold reapOne at hr
      rw [show reapLoop env s.maxRun 0 false s
        = reapLoop env (before.length + 1 + after.length + k) ([] : List (Option Nat)).length false s
        by rw [← hm2]; rfl, hloop] at hr
      simp only [Except.ok.injEq] at hr
      obtain ⟨-, hid, hpid1, hty, hst, -⟩ := finalSamples_ok
        { run with returnCode := env.status, end_ := env.now } env.tOut env.tErr rows hrows
      have hfs2 := (finalSamples_ok { run with returnCode := env.status, end_ := env.now }
        env.tOut env.tErr rows hrows)
      obtain ⟨run2, hfs3, k1, k2, k3, k4, -⟩ := hfs2
      rw [hfs] at hfs3
      simp only [Except.ok.injEq] at hfs3
      subst hfs3
      refine ⟨before, a, after, k, run, run1, frows, hruns, hmax, hlive, hnd, hrun, hrp, ?_,
        hfrows, ?_, ?_⟩
      · simp only [key, k1, k2, k3, k4]
      · rw [← hr]; simp
      · intro b hb
        obtain ⟨h1, r, hr1, hr2⟩ := hother b (List.mem_append.mp hb)
        refine ⟨h1, ?_⟩
        simp only [pidAt, hr1, Option.map_some', ne_eq, Option.some.injEq]
        exact hr2
    · have hk0 : k = 0 := by omega
      subst hk0
      obtain ⟨f, hf⟩ := reapLoop_match_full env (before ++ a :: after) [] s
        (by rw [hruns]; simp) (by rw [hmax]; simp) ⟨a, ha, run, hrun, hrp⟩
      unfold reapOne at hr
      rw [show reapLoop env s.maxRun 0 false s
        = reapLoop env (before ++ a :: after).length ([] : List (Option Nat)).length false s
        by rw [hmax]; rfl, hf] at hr
      cases hr
  · left
    have hno : ∀ a ∈ live, ∃ r, s.heap.getD a none = some r ∧ r.pid ≠ env.pid := by
      intro a ha
      obtain ⟨r, hra, -⟩ := hlive a ha
      refine ⟨r, hra, fun e => hm ⟨a, ha, ?_⟩⟩
      simp only [pidAt, hra, Option.map_some', e]
    have := reapLoop_no_match env live [] s k (by rw [hruns]; simp) hno
    unfold reapOne at hr
    rw [show reapLoop env s.maxRun 0 false s
      = reapLoop env (live.length + k) ([] : List (Option Nat)).length false s
      by rw [hmax]; rfl, this] at hr
    simp only [Except.ok.injEq] at hr
    refine ⟨hr.symm, ?_⟩
    intro a ha hp
    rw [hruns] at ha
    exact hm ⟨a, (mem_dense live k a).mp ha, hp⟩

theorem reapOne_inv {s s1 : Supervisor} {env : ReapEnv} (h : TableInv s)
    (hr : reapOne s env = Except.ok s1) :
    TableInv s1 ∧ s1.invoked = s.invoked ∧ s1.maxRun = s.maxRun ∧
      (∀ b r, some b ∈ s.runs → s.heap.getD b none = some r → r.pid ≠ env.pid →
        some b ∈ s1.runs ∧ s1.heap.getD b none = some r) := by
  rcases reapOne_cases h hr with ⟨h1, -⟩ | ⟨before, a, after, k, run, run1, frows, hruns, hmax,
    hlive, hnd, hrun, hrp, -, hfin, hs1, hother⟩
  · subst h1
    exact ⟨h, rfl, rfl, fun b r hb hr _ => ⟨hb, hr⟩⟩
  · subst hs1
    refine ⟨?_, rfl, rfl, ?_⟩
    · refine
        { dense := ⟨before ++ after, k + 1, rfl, ?_, ?_, ?_⟩
          invoked_open := ?_
          finished_open := fun _ => by simp }
      · simp only [hmax, List.length_append, List.length_cons]; omega
      · intro b hb
        obtain ⟨hne, -⟩ := hother b hb
        obtain ⟨r, hr1, hi⟩ := hlive b (by
          rcases List.mem_append.mp hb with h0 | h0
          · exact List.mem_append_left _ h0
          · exact List.mem_append_right _ (List.mem_cons_of_mem _ h0))
        exact ⟨r, by simp only [getD_set_ne s.heap a b none none hne, hr1], hi⟩
      · have hsub : ((before ++ after).map (pidAt s)).Nodup := by
          refine List.Nodup.sublist ?_ hnd
          apply List.Sublist.map
          exact List.Sublist.append (List.Sublist.refl _) (List.sublist_cons_self _ _)
        have : (before ++ after).map (pidAt { s with
            heap := s.heap.set a none
            finished := some (frows ++ [finishedRow run1 env.renamed])
            finalised := s.finalised ++ [run1]
            runs := (before ++ after).map some ++ List.replicate (k + 1) none })
            = (before ++ after).map (pidAt s) := by
          apply List.map_congr_left
          intro b hb
          simp only [pidAt, getD_set_ne s.heap a b none none (hother b hb).1]
        rw [this]; exact hsub
      · intro hex
        obtain ⟨b, hb⟩ := hex
        simp only at hb
        have hb2 := (mem_dense (before ++ after) (k + 1) b).mp hb
        apply h.invoked_open
        refine ⟨b, ?_⟩
        rw [hruns]
        apply (mem_dense _ k b).mpr
        rcases List.mem_append.mp hb2 with h0 | h0
        · exact List.mem_append_left _ h0
        · exact List.mem_append_right _ (List.mem_cons_of_mem _ h0)
    · intro b r hb hr1 hp
      rw [hruns] at hb
      have hb2 := (mem_dense _ k b).mp hb
      have hba : b ≠ a := by
        intro e
        subst e
        rw [hrun] at hr1
        cases hr1
        exact hp hrp
      have hb3 : b ∈ before ++ after := by
        rcases List.mem_append.mp hb2 with h0 | h0
        · exact List.mem_append_left _ h0
        · rcases List.mem_cons.mp h0 with h1 | h1
          · exact absurd h1 hba
          · exact List.mem_append_right _ h1
      exact ⟨(mem_dense _ (k + 1) b).mpr hb3,
        by simp only [getD_set_ne s.heap a b none none hba, hr1]⟩

theorem reapOne_returns {s : Supervisor} {env : ReapEnv} {a : Nat} {run : Run} (h : TableInv s)
    (hfree : none ∈ s.runs) (ha : some a ∈ s.runs) (hrun : s.heap.getD a none = some run)
    (hrp : run.pid = env.pid) :
    ∃ s1 run1 frows, reapOne s env = Except.ok s1 ∧ s.finished = some frows ∧
      s1.finished = some (frows ++ [finishedRow run1 env.renamed]) ∧ key run1 = key run ∧
      s1.invoked = s.invoked := by
  obtain ⟨live, k, hruns, hmax, hlive, hnd⟩ := h.dense
  have hk : 0 < k := by
    rw [hruns] at hfree
    rcases List.mem_append.mp hfree with h0 | h0
    · obtain ⟨b, -, hb⟩ := List.mem_map.mp h0
      cases hb
    · by_contra hk0
      have : k = 0 := by omega
      subst this
      simp at h0
  rw [hruns] at ha
  have ha2 := (mem_dense live k a).mp ha
  obtain ⟨before, after, rfl⟩ := List.append_of_mem ha2
  obtain ⟨run0, hrun0, hidx⟩ := hlive a ha2
  rw [hrun] at hrun0
  cases hrun0
  obtain ⟨rows, hrows⟩ := Option.ne_none_iff_exists'.mp hidx
  have hother := others_of_nodup hlive hnd hrun hrp
  have hfin : s.finished ≠ none :=
    h.finished_open (h.invoked_open ⟨a, by rw [hruns]; exact ha⟩)
  obtain ⟨frows, hfrows⟩ := Option.ne_none_iff_exists'.mp hfin
  obtain ⟨run1, hfs, hloop⟩ := reapLoop_match env a after k run rows frows hk hrp hrows
    before [] s (by rw [hruns]; simp) (by rw [hmax]; simp; omega)
    (fun b hb => (hother b (Or.inl hb)).2) hrun hfrows (fun b hb => hother b (Or.inr hb))
  have hm2 : s.maxRun = before.length + 1 + after.length + k := by
    rw [hmax]; simp; omega
  obtain ⟨run2, hfs3, k1, k2, k3, k4, -⟩ := finalSamples_ok
    { run with returnCode := env.status, end_ := env.now } env.tOut env.tErr rows hrows
  rw [hfs] at hfs3
  simp only [Except.ok.injEq] at hfs3
  subst hfs3
  have hone : reapOne s env = reapLoop env (before.length + 1 + after.length + k)
      ([] : List (Option Nat)).length false s := by
    unfold reapOne
    rw [← hm2]; rfl
  rw [hloop] at hone
  exact ⟨_, run1, frows, hone, hfrows, rfl, by simp only [key, k1, k2, k3, k4], rfl⟩
theorem findSlot_free (maxRun k : Nat) (hk : 0 < k) :
    ∀ (rest : List Nat) (done : List (Option Nat)),
      maxRun = done.length + rest.length + k →
      findSlot (done ++ (rest.map some ++ List.replicate k none)) maxRun (rest.length + k)
        done.length = some (done.length + rest.length) := by
  intro rest
  induction rest with
  | nil =>
    intro done _
    obtain ⟨k1, rfl⟩ : ∃ k1, k = k1 + 1 := ⟨k - 1, by omega⟩
    have hget : (done ++ (List.map some [] ++ List.replicate (k1 + 1) none)).getD done.length none
        = none := by
      simp only [List.map_nil, List.nil_append, List.replicate_succ]
      exact getD_append_cons done none none _
    simp only [List.length_nil, Nat.zero_add, findSlot, hget, if_true, Nat.add_zero]
  | cons r rest ih =>
    intro done hmax
    have hget : (done ++ (List.map some (r :: rest) ++ List.replicate k none)).getD done.length none
        = some r := by
      simp only [List.map_cons, List.cons_append]
      exact getD_append_cons done (some r) none _
    simp only [List.length_cons] at hmax
    have hih := ih (done ++ [some r]) (by
      simp only [List.length_append, List.length_cons, List.length_nil]; omega)
    simp only [List.append_assoc, List.singleton_append, List.length_append,
      List.length_singleton] at hih
    have hlast : ¬ done.length + 1 ≥ maxRun := by
      omega
    rw [show (r :: rest).length + k = (rest.length + k) + 1 by simp only [List.length_cons]; omega]
    simp only [findSlot, hget, hlast, if_false]
    simp only [List.map_cons, List.cons_append, List.length_cons] at hih ⊢
    rw [hih, if_neg (by simp), Option.some.injEq]
    omega

theorem getD_append_left_some {α : Type} (l1 l2 : List (Option α)) (a : Nat) (x : α)
    (h : l1.getD a none = some x) : (l1 ++ l2).getD a none = some x := by
  have hlt : a < l1.length := by
    by_contra hge
    rw [List.getD_eq_getElem?_getD, List.getElem?_eq_none (by omega)] at h
    simp at h
  rw [List.getD_eq_getElem?_getD, List.getElem?_append_left hlt, ← List.getD_eq_getElem?_getD]
  exact h

theorem spawn_result (s s5 : Supervisor) {live : List Nat} {k1 : Nat} (runType : RunType)
    {env : SpawnEnv} (rows : List InvokedRow) (r2 : Run)
    (hruns : s.runs = live.map some ++ List.replicate (k1 + 1) none)
    (hmax : s.maxRun = live.length + (k1 + 1))
    (hlive : ∀ a ∈ live, ∃ r, s.heap.getD a none = some r ∧ r.index ≠ none)
    (hnd : (live.map (pidAt s)).Nodup) (hfresh : FreshPid s env.pid)
    (hkey : key r2 = (toId env.tt env.pid, env.pid, runType, env.tt)) (hidx : r2.index ≠ none)
    (hR : s5.runs = (live ++ [s.heap.length]).map some ++ List.replicate k1 none)
    (hH : s5.heap = s.heap ++ [some r2]) (hM : s5.maxRun = s.maxRun)
    (hI : s5.invoked = some (rows ++ [invokedRow r2])) (hF : s5.finished ≠ none) :
    TableInv s5 ∧ some s.heap.length ∈ s5.runs ∧
      (∃ r, s5.heap.getD s.heap.length none = some r ∧
        key r = (toId env.tt env.pid, env.pid, runType, env.tt)) ∧
      (∃ rowI, s5.invoked = some (rows ++ [rowI]) ∧
        rowI.id = toId env.tt env.pid ∧ rowI.pid = env.pid ∧ rowI.runType = runType ∧
        rowI.startTime = env.tt) ∧
      (∀ b r, some b ∈ s.runs → s.heap.getD b none = some r →
        some b ∈ s5.runs ∧ s5.heap.getD b none = some r) := by
  have hnew : s5.heap.getD s.heap.length none = some r2 := by
    rw [hH]; exact getD_append_cons s.heap (some r2) none []
  have hold : ∀ b r, s.heap.getD b none = some r → s5.heap.getD b none = some r := by
    intro b r hb
    rw [hH]; exact getD_append_left_some s.heap _ b r hb
  have hk : key r2 = (toId env.tt env.pid, env.pid, runType, env.tt) := hkey
  simp only [key, Prod.mk.injEq] at hkey
  obtain ⟨k1', k2', k3', k4'⟩ := hkey
  refine ⟨?_, ?_, ⟨r2, hnew, hk⟩, ⟨invokedRow r2, hI, k1', k2', k3', k4'⟩, ?_⟩
  · refine
      { dense := ⟨live ++ [s.heap.length], k1, hR, ?_, ?_, ?_⟩
        invoked_open := fun _ => by rw [hI]; simp
        finished_open := fun _ => hF }
    · rw [hM, hmax]; simp only [List.length_append, List.length_cons, List.length_nil]; omega
    · intro a ha
      rcases List.mem_append.mp ha with h0 | h0
      · obtain ⟨r, hr, hi⟩ := hlive a h0
        exact ⟨r, hold a r hr, hi⟩
      · simp only [List.mem_singleton] at h0
        subst h0
        exact ⟨r2, hnew, hidx⟩
    · have hmap : live.map (pidAt s5) = live.map (pidAt s) := by
        apply List.map_congr_left
        intro a ha
        obtain ⟨r, hr, -⟩ := hlive a ha
        simp only [pidAt, hr, hold a r hr]
      simp only [List.map_append, List.map_cons, List.map_nil, hmap]
      rw [List.nodup_append]
      refine ⟨hnd, List.nodup_singleton _, ?_⟩
      intro x hx hy
      simp only [List.mem_singleton] at hy
      subst hy
      obtain ⟨a, ha, hpa⟩ := List.mem_map.mp hx
      have hfa := hfresh a (by rw [hruns]; exact (mem_dense live (k1 + 1) a).mpr ha)
      apply hfa
      rw [hpa]
      simp only [pidAt, hnew, Option.map_some', k2']
  · rw [hR]
    exact (mem_dense _ k1 _).mpr (List.mem_append_right _ (List.mem_singleton_self _))
  · intro b r hb hr
    rw [hruns] at hb
    have hb2 := (mem_dense live (k1 + 1) b).mp hb
    refine ⟨?_, hold b r hr⟩
    rw [hR]
    exact (mem_dense _ k1 b).mpr (List.mem_append_left _ hb2)

/-- What a spawn that returns has done: the new record sits at the fresh
address `addr` in the first empty slot, exactly one line has been appended to
`invoked`, and that line and the record carry the id, pid, kind and start time
of the spawn. -/
theorem run_new_cases {s s1 : Supervisor} {cmd : List (List Nat)} {runType : RunType}
    {env : SpawnEnv} {addr : Nat} (h : TableInv s) (hfresh : FreshPid s env.pid)
    (hr : _run_new s cmd runType env = Except.ok (s1, addr)) :
    TableInv s1 ∧ some addr ∈ s1.runs ∧
      (∃ r, s1.heap.getD addr none = some r ∧
        key r = (toId env.tt env.pid, env.pid, runType, env.tt)) ∧
      (∃ rowI, s1.invoked = some ((if runType = RunType.CONTROL then [] else s.invoked.getD [])
          ++ [rowI]) ∧
        rowI.id = toId env.tt env.pid ∧ rowI.pid = env.pid ∧ rowI.runType = runType ∧
        rowI.startTime = env.tt) ∧
      (∀ b r, some b ∈ s.runs → s.heap.getD b none = some r →
        some b ∈ s1.runs ∧ s1.heap.getD b none = some r) ∧
      (runType ≠ RunType.CONTROL → s1.finished = s.finished) := by
  obtain ⟨live, k, hruns, hmax, hlive, hnd⟩ := h.dense
  -- the table is not full
  have hk : 0 < k := by
    by_contra hk0
    have hk0 : k = 0 := by omega
    subst hk0
    have hfull := findSlot_full s.maxRun live [] (by rw [hmax]; simp)
    simp only [List.nil_append, List.length_nil, ← hmax] at hfull
    have hruns0 : s.runs = live.map some := by rw [hruns]; simp
    rw [← hruns0, show live.length = s.maxRun by rw [hmax]; simp] at hfull
    simp [_run_new, _runs_add, hfull, deref] at hr
  obtain ⟨k1, rfl⟩ : ∃ k1, k = k1 + 1 := ⟨k - 1, by omega⟩
  have hfind : findSlot s.runs s.maxRun s.maxRun 0 = some live.length := by
    have := findSlot_free s.maxRun (k1 + 1) hk live [] (by rw [hmax]; simp)
    simp only [List.nil_append, List.length_nil, Nat.zero_add] at this
    rw [hruns, show s.maxRun = live.length + (k1 + 1) from hmax]
    rw [show s.maxRun = live.length + (k1 + 1) from hmax] at this
    exact this
  have hget : (s.heap ++ [some (newRun runType env.tt env.pid cmd env.tOut env.tErr)]).getD
      s.heap.length none = some (newRun runType env.tt env.pid cmd env.tOut env.tErr) :=
    getD_append_cons s.heap _ none []
  have hset : ∀ x : Run, (s.heap ++ [some (newRun runType env.tt env.pid cmd env.tOut env.tErr)]).set
      s.heap.length (some x) = s.heap ++ [some x] :=
    fun x => set_append_cons s.heap _ (some x) []
  have hrset : s.runs.set live.length (some s.heap.length)
      = (live ++ [s.heap.length]).map some ++ List.replicate k1 none := by
    have := set_append_cons (live.map some) none (some s.heap.length) (List.replicate k1 none)
    rw [List.length_map] at this
    rw [hruns, List.replicate_succ, this]
    simp
  -- the statements of `_run_new` one after the other
  unfold _run_new at hr
  simp only [_runs_add, hfind, deref, hget] at hr
  by_cases hc : runType = RunType.CONTROL
  · subst hc
    simp only [if_true, hset] at hr
    split at hr
    · cases hr
    · rename_i s5 hup
      simp only [Except.ok.injEq, Prod.mk.injEq] at hr
      obtain ⟨hs5, haddr⟩ := hr
      subst hs5
      subst haddr
      obtain ⟨u1, u2, u3, u4, u5⟩ := updateRunning_keep hup
      simp only at u1 u2 u3 u4 u5
      have := spawn_result s s5 RunType.CONTROL []
        (openRun { newRun RunType.CONTROL env.tt env.pid cmd env.tOut env.tErr with
            control_in := env.runPipes5 } env.runPipes0 env.runPipes2 env.outFd env.errFd)
        hruns hmax hlive hnd hfresh rfl
        (by simp [openRun]) (by rw [u1, hrset]) u5 u2 (by rw [u3]) (by rw [u4]; simp)
      obtain ⟨t1, t2, t3, t4, t5⟩ := this
      exact ⟨t1, t2, t3, by simpa using t4, t5, fun hne => absurd rfl hne⟩
  · simp only [if_neg hc, hset] at hr
    cases hinv : s.invoked with
    | none =>
      simp only [hinv] at hr
      cases hr
    | some rows =>
      simp only [hinv] at hr
      split at hr
      · cases hr
      · rename_i s5 hup
        simp only [Except.ok.injEq, Prod.mk.injEq] at hr
        obtain ⟨hs5, haddr⟩ := hr
        subst hs5
        subst haddr
        obtain ⟨u1, u2, u3, u4, u5⟩ := updateRunning_keep hup
        simp only at u1 u2 u3 u4 u5
        have hfin : s.finished ≠ none := h.finished_open (by rw [hinv]; simp)
        have := spawn_result s s5 runType rows
          (openRun (newRun runType env.tt env.pid cmd env.tOut env.tErr)
            env.runPipes0 env.runPipes2 env.outFd env.errFd)
          hruns hmax hlive hnd hfresh rfl
          (by simp [openRun]) (by rw [u1, hrset]) u5 u2 (by rw [u3]) (by rw [u4]; exact hfin)
        obtain ⟨t1, t2, t3, t4, t5⟩ := this
        exact ⟨t1, t2, t3, by simpa [hc, hinv] using t4, t5, fun _ => u4⟩

/-! ## The invoked line and the finished line of a run -/

theorem key_pid {r r1 : Run} (h : key r1 = key r) : r1.pid = r.pid := by
  simp only [key, Prod.mk.injEq] at h
  exact h.2.1

theorem tracked_of_keep {s s1 : Supervisor} {addr : Nat} {kk : RunId × Int × RunType × Int}
    (ht : Tracked s addr kk) (hruns : s1.runs = s.runs) (hk : HeapKeep s.heap s1.heap) :
    Tracked s1 addr kk := by
  obtain ⟨hm, r, hr, hkey⟩ := ht
  obtain ⟨r1, hr1, hk1, -⟩ := hk addr r hr
  exact ⟨by rw [hruns]; exact hm, r1, hr1, hk1.trans hkey⟩

/-- A step that is admissible while a run is in the table, and is not the
reap of that run, leaves the run in the table with its four shared fields and
writes no ledger line for its pid. -/
theorem applyOp_tracked {s s1 : Supervisor} {op : Op} {addr : Nat}
    {kk : RunId × Int × RunType × Int}
    (h : TableInv s) (ht : Tracked s addr kk) (hadm : Admissible s op)
    (hno : ∀ renv, op = Op.reap renv → renv.pid ≠ kk.2.1)
    (hr : applyOp s op = Except.ok s1) :
    TableInv s1 ∧ Tracked s1 addr kk ∧ OthersOnly kk.2.1 s s1 := by
  have ht0 := ht
  obtain ⟨hm, r, hrec, hkey⟩ := ht
  have hrpid : r.pid = kk.2.1 := by rw [← hkey]; rfl
  cases op with
  | spawn cmd runType env =>
    simp only [applyOp] at hr
    cases hn : _run_new s cmd runType env with
    | error f => rw [hn] at hr; cases hr
    | ok res =>
      rw [hn] at hr
      obtain ⟨s2, a2⟩ := res
      simp only [Except.ok.injEq] at hr
      subst hr
      obtain ⟨hfresh, hctl⟩ := hadm
      have hnc : runType ≠ RunType.CONTROL := fun hc => hctl hc addr hm
      obtain ⟨hinv1, -, -, ⟨rowI, hI, -, hIpid, -, -⟩, hkeep, hfin⟩ := run_new_cases h hfresh hn
      obtain ⟨hb1, hb2⟩ := hkeep addr r hm hrec
      refine ⟨hinv1, ⟨hb1, r, hb2, hkey⟩, Or.inr ?_, Or.inl (hfin hnc)⟩
      obtain ⟨rows, hrows⟩ := Option.ne_none_iff_exists'.mp (h.invoked_open ⟨addr, hm⟩)
      refine ⟨rows, rowI, hrows, ?_, ?_⟩
      · rw [hI, if_neg hnc, hrows]
        rfl
      · rw [hIpid]
        intro hp
        have := hfresh addr hm
        simp only [pidAt, hrec, Option.map_some', ne_eq, Option.some.injEq] at this
        exact this (by rw [hrpid, hp])
  | reap env =>
    simp only [applyOp] at hr
    have hne : env.pid ≠ kk.2.1 := hno env rfl
    obtain ⟨hinv1, hi, -, hkeep⟩ := reapOne_inv h hr
    obtain ⟨hb1, hb2⟩ := hkeep addr r hm hrec (by rw [hrpid]; exact fun hp => hne hp.symm)
    refine ⟨hinv1, ⟨hb1, r, hb2, hkey⟩, Or.inl hi, ?_⟩
    rcases reapOne_cases h hr with ⟨h1, -⟩ | ⟨before, a, after, k, run, run1, frows, -, -,
      -, -, -, hrp, hk1, hfin, hs1, -⟩
    · left
      rw [h1]
    · right
      refine ⟨frows, finishedRow run1 env.renamed, hfin, by rw [hs1], ?_⟩
      show run1.pid ≠ kk.2.1
      rw [key_pid hk1, hrp]
      exact hne
  | update now =>
    simp only [applyOp] at hr
    obtain ⟨u1, u2, u3, u4, u5⟩ := updateRunning_keep hr
    have hk : HeapKeep s.heap s1.heap := by rw [u5]; exact HeapKeep.refl _
    exact ⟨h.of_keep u1 u2 u3 (by rw [u4]; exact id) hk, tracked_of_keep ht0 u1 hk, Or.inl u3, Or.inl u4⟩
  | prepare =>
    simp only [applyOp, _runs_prepareDescriptors] at hr
    cases hn : prepareLoop s.maxRun 0 s [] with
    | error f => rw [hn] at hr; cases hr
    | ok res =>
      rw [hn] at hr
      obtain ⟨s2, fds⟩ := res
      simp only [Except.ok.injEq] at hr
      subst hr
      obtain ⟨u1, u2, u3, u4, hk⟩ := prepareLoop_keep _ _ _ _ _ _ hn
      exact ⟨h.of_keep u1 u2 u3 (by rw [u4]; exact id) hk, tracked_of_keep ht0 u1 hk, Or.inl u3,
        Or.inl u4⟩
  | copy runIdx e a =>
    simp only [applyOp] at hr
    obtain ⟨u1, u2, u3, u4, hk⟩ := copyAt_keep hr
    exact ⟨h.of_keep u1 u2 u3 (by rw [u4]; exact id) hk, tracked_of_keep ht0 u1 hk, Or.inl u3, Or.inl u4⟩

theorem applyOps_cons_ok {s s2 : Supervisor} {op : Op} {ops : List Op}
    (h : applyOps s (op :: ops) = Except.ok s2) :
    ∃ s1, applyOp s op = Except.ok s1 ∧ applyOps s1 ops = Except.ok s2 := by
  simp only [applyOps] at h
  cases hn : applyOp s op with
  | error f => rw [hn] at h; cases h
  | ok s1 => rw [hn] at h; exact ⟨s1, rfl, h⟩

/-- Along a sequence of admissible steps none of which reaps the run, the run
stays in the table with its four shared fields, before and after every step,
and no step writes a ledger line for its pid. -/
theorem applyOps_tracked {addr : Nat} {kk : RunId × Int × RunType × Int} :
    ∀ (ops : List Op) (s s2 : Supervisor), TableInv s → Tracked s addr kk →
      AdmissibleOps s ops → (∀ renv, Op.reap renv ∈ ops → renv.pid ≠ kk.2.1) →
      applyOps s ops = Except.ok s2 →
      (TableInv s2 ∧ Tracked s2 addr kk) ∧
      ∀ pre op post sm sm1, ops = pre ++ op :: post → applyOps s pre = Except.ok sm →
        applyOp sm op = Except.ok sm1 →
        Tracked sm addr kk ∧ Tracked sm1 addr kk ∧ OthersOnly kk.2.1 sm sm1 := by
  intro ops
  induction ops with
  | nil =>
    intro s s2 h ht _ _ hr
    simp only [applyOps, Except.ok.injEq] at hr
    subst hr
    refine ⟨⟨h, ht⟩, ?_⟩
    intro pre op post sm sm1 hsplit
    cases pre <;> cases hsplit
  | cons o os ih =>
    intro s s2 h ht hadm hno hr
    obtain ⟨s1, h1, h2⟩ := applyOps_cons_ok hr
    obtain ⟨ha, hrest⟩ := hadm
    obtain ⟨hinv1, ht1, hoth⟩ := applyOp_tracked h ht ha
      (fun renv he => hno renv (by rw [he]; exact List.mem_cons_self _ _)) h1
    obtain ⟨hfinal, hsteps⟩ := ih s1 s2 hinv1 ht1 (hrest s1 h1)
      (fun renv hmem => hno renv (List.mem_cons_of_mem _ hmem)) h2
    refine ⟨hfinal, ?_⟩
    intro pre op post sm sm1 hsplit hpre hop
    cases pre with
    | nil =>
      simp only [List.nil_append, List.cons.injEq] at hsplit
      obtain ⟨rfl, rfl⟩ := hsplit
      simp only [applyOps, Except.ok.injEq] at hpre
      subst hpre
      rw [h1] at hop
      simp only [Except.ok.injEq] at hop
      subst hop
      exact ⟨ht, ht1, hoth⟩
    | cons p pre1 =>
      simp only [List.cons_append, List.cons.injEq] at hsplit
      obtain ⟨rfl, rfl⟩ := hsplit
      obtain ⟨s1b, h1b, h2b⟩ := applyOps_cons_ok hpre
      rw [h1] at h1b
      simp only [Except.ok.injEq] at h1b
      subst h1b
      exact hsteps pre1 op post sm sm1 rfl h2b hop

/-- The invariant of the run table holds after `_runs_init`. -/
theorem tableInv_runs_init (maxRun : Nat) : TableInv (_runs_init maxRun) where
  dense := ⟨[], maxRun, by simp [_runs_init], by simp [_runs_init], by simp, by simp⟩
  invoked_open := by
    rintro ⟨a, ha⟩
    simp only [_runs_init] at ha
    cases List.eq_of_mem_replicate ha
  finished_open := fun h => absurd rfl h

/-- Every step that returns keeps the invariant of the run table, when the pid
of a spawn is fresh. -/
theorem applyOp_inv {s s1 : Supervisor} {op : Op} (h : TableInv s)
    (hfresh : ∀ cmd runType env, op = Op.spawn cmd runType env → FreshPid s env.pid)
    (hr : applyOp s op = Except.ok s1) : TableInv s1 := by
  cases op with
  | spawn cmd runType env =>
    simp only [applyOp] at hr
    cases hn : _run_new s cmd runType env with
    | error f => rw [hn] at hr; cases hr
    | ok res =>
      rw [hn] at hr
      obtain ⟨s2, a2⟩ := res
      simp only [Except.ok.injEq] at hr
      subst hr
      exact (run_new_cases h (hfresh cmd runType env rfl) hn).1
  | reap env =>
    simp only [applyOp] at hr
    exact (reapOne_inv h hr).1
  | update now =>
    simp only [applyOp] at hr
    obtain ⟨u1, u2, u3, u4, u5⟩ := updateRunning_keep hr
    exact h.of_keep u1 u2 u3 (by rw [u4]; exact id) (by rw [u5]; exact HeapKeep.refl _)
  | prepare =>
    simp only [applyOp, _runs_prepareDescriptors] at hr
    cases hn : prepareLoop s.maxRun 0 s [] with
    | error f => rw [hn] at hr; cases hr
    | ok res =>
      rw [hn] at hr
      obtain ⟨s2, fds⟩ := res
      simp only [Except.ok.injEq] at hr
      subst hr
      obtain ⟨u1, u2, u3, u4, hk⟩ := prepareLoop_keep _ _ _ _ _ _ hn
      exact h.of_keep u1 u2 u3 (by rw [u4]; exact id) hk
  | copy runIdx e a =>
    simp only [applyOp] at hr
    obtain ⟨u1, u2, u3, u4, hk⟩ := copyAt_keep hr
    exact h.of_keep u1 u2 u3 (by rw [u4]; exact id) hk

/-- What the supervisor itself prints into the two ledger streams: for a run
spawned on the parent side (`_run_new` returns its record, the pid fresh among
the live runs) and reaped after any sequence of admissible steps of the
supervisor that do not reap it, the spawn prints exactly one invoked line,
the reap prints exactly one finished line and leaves the invoked stream
alone, the two lines carry the same id, pid, runType and startTime, no step
in between prints an invoked or finished line for its pid, and before and
after every step in between the run is in the table with these four fields
unchanged.  What reaches the files is the matter of `forkRun`. -/
theorem invoked_finished_rows_match (s0 : Supervisor) (cmd : List (List Nat))
    (runType : RunType) (env : SpawnEnv) (s1 : Supervisor) (addr : Nat)
    (ops : List Op) (s2 : Supervisor) (renv : ReapEnv) (s3 : Supervisor)
    (hinv : TableInv s0) (hfresh : FreshPid s0 env.pid)
    (hspawn : _run_new s0 cmd runType env = Except.ok (s1, addr))
    (hadm : AdmissibleOps s1 ops)
    (hnoreap : ∀ e, Op.reap e ∈ ops → e.pid ≠ env.pid)
    (hops : applyOps s1 ops = Except.ok s2)
    (hpid : renv.pid = env.pid)
    (hreap : reapOne s2 renv = Except.ok s3) :
    ∃ (rowI : InvokedRow) (rowF : FinishedRow) (frows : List FinishedRow),
      s1.invoked = some ((if runType = RunType.CONTROL then [] else s0.invoked.getD [])
        ++ [rowI]) ∧
      s2.finished = some frows ∧ s3.finished = some (frows ++ [rowF]) ∧
      s3.invoked = s2.invoked ∧
      (rowI.id, rowI.pid, rowI.runType, rowI.startTime)
        = (toId env.tt env.pid, env.pid, runType, env.tt) ∧
      (rowF.id, rowF.pid, rowF.runType, rowF.startTime)
        = (rowI.id, rowI.pid, rowI.runType, rowI.startTime) ∧
      Tracked s2 addr (toId env.tt env.pid, env.pid, runType, env.tt) ∧
      (∀ pre op post sm sm1, ops = pre ++ op :: post → applyOps s1 pre = Except.ok sm →
        applyOp sm op = Except.ok sm1 →
        Tracked sm addr (toId env.tt env.pid, env.pid, runType, env.tt) ∧
        Tracked sm1 addr (toId env.tt env.pid, env.pid, runType, env.tt) ∧
        OthersOnly env.pid sm sm1) := by
  obtain ⟨hinv1, hm1, ⟨r1, hr1, hk1⟩, ⟨rowI, hI, hIid, hIpid, hIrt, hIst⟩, -, -⟩ :=
    run_new_cases hinv hfresh hspawn
  obtain ⟨⟨hinv2, ht2⟩, hsteps⟩ := applyOps_tracked ops s1 s2 hinv1 ⟨hm1, r1, hr1, hk1⟩ hadm
    hnoreap hops
  have ht2b := ht2
  obtain ⟨hm2, r2, hr2, hk2⟩ := ht2
  have hk2b := hk2
  have hp2 : pidAt s2 addr = some renv.pid := by
    simp only [pidAt, hr2, Option.map_some', Option.some.injEq]
    rw [hpid]
    simp only [key, Prod.mk.injEq] at hk2
    exact hk2.2.1
  obtain ⟨-, hi3, -, -⟩ := reapOne_inv hinv2 hreap
  rcases reapOne_cases hinv2 hreap with ⟨-, hnone⟩ | ⟨before, a, after, k, run, run1, frows,
    hruns, -, -, -, hrun, -, hkr, hfin, hs3, hother⟩
  · exact absurd hp2 (hnone addr hm2)
  · have haddr : addr = a := by
      rw [hruns] at hm2
      have hmem := (mem_dense _ k addr).mp hm2
      rcases List.mem_append.mp hmem with hb | hb
      · exact absurd hp2 (hother addr (List.mem_append_left _ hb)).2
      · rcases List.mem_cons.mp hb with hb | hb
        · exact hb
        · exact absurd hp2 (hother addr (List.mem_append_right _ hb)).2
    subst haddr
    rw [hr2] at hrun
    simp only [Option.some.injEq] at hrun
    subst hrun
    have hkF : key run1 = (toId env.tt env.pid, env.pid, runType, env.tt) := hkr.trans hk2b
    refine ⟨rowI, finishedRow run1 renv.renamed, frows, hI, hfin, by rw [hs3], hi3, ?_, ?_,
      ht2b, hsteps⟩
    · rw [hIid, hIpid, hIrt, hIst]
    · rw [hIid, hIpid, hIrt, hIst]
      exact hkF

theorem stateAfter_ok {s : Supervisor} {ops : List Op} (h : (applyOps s ops).isOk = true) :
    applyOps s ops = Except.ok (stateAfter s ops) := by
  unfold stateAfter
  cases hn : applyOps s ops with
  | error f => rw [hn] at h; cases h
  | ok s1 => rfl

theorem stateAfter_step {s t : Supervisor} (op : Op) (pre : List Op)
    (hpre : applyOps s pre = Except.ok t) :
    applyOps s (pre ++ [op]) = applyOp t op := by
  induction pre generalizing s with
  | nil =>
    simp only [applyOps, Except.ok.injEq] at hpre
    subst hpre
    simp only [List.nil_append, applyOps]
    cases applyOp s op <;> rfl
  | cons p pre ih =>
    obtain ⟨s1, h1, h2⟩ := applyOps_cons_ok hpre
    simp only [List.cons_append, applyOps, h1]
    exact ih h2

theorem tableInv_controlStarted : TableInv (controlStarted 4) where
  dense := ⟨[0], 3, rfl, rfl, by
    intro a ha
    simp only [List.mem_singleton] at ha
    subst ha
    exact ⟨_, rfl, by decide⟩, by decide⟩
  invoked_open := fun _ => by decide
  finished_open := fun _ => by decide

theorem witness_fresh51 : FreshPid (controlStarted 4) 51 := by
  intro a ha
  have ha0 : a = 0 := by
    have : some a ∈ [some 0, none, none, none] := ha
    simpa using this
  subst ha0
  decide

theorem witness_spawn :
    _run_new (controlStarted 4) [[106]] RunType.RUNNING (witnessSpawn 51 101)
      = Except.ok (jobStarted 4, 1) := rfl

theorem stateAfter_snoc {s t : Supervisor} {op : Op} (pre : List Op)
    (hpre : applyOps s pre = Except.ok (stateAfter s pre))
    (hok : (applyOps s (pre ++ [op])).isOk = true)
    (h : applyOp (stateAfter s pre) op = Except.ok t) :
    t = stateAfter s (pre ++ [op]) := by
  have h1 := stateAfter_step op pre hpre
  rw [stateAfter_ok hok, h] at h1
  exact (Except.ok.inj h1).symm

theorem witness_reap :
    reapOne (stateAfter (jobStarted 4) witnessOps) (witnessReap 51 110)
      = Except.ok (stateAfter (stateAfter (jobStarted 4) witnessOps)
          [Op.reap (witnessReap 51 110)]) := by
  have h1 : applyOps (stateAfter (jobStarted 4) witnessOps) ([] ++ [Op.reap (witnessReap 51 110)])
      = applyOp (stateAfter (jobStarted 4) witnessOps) (Op.reap (witnessReap 51 110)) :=
    stateAfter_step _ [] rfl
  have h2 : applyOps (stateAfter (jobStarted 4) witnessOps) [Op.reap (witnessReap 51 110)]
      = Except.ok (stateAfter (stateAfter (jobStarted 4) witnessOps)
          [Op.reap (witnessReap 51 110)]) :=
    stateAfter_ok (by decide)
  exact h1.symm.trans h2

theorem witness_admissible : AdmissibleOps (jobStarted 4) witnessOps := by
  have e0 : applyOps (jobStarted 4) [] = Except.ok (stateAfter (jobStarted 4) []) := rfl
  refine ⟨trivial, fun t1 h1 => ⟨trivial, fun t2 h2 => ⟨trivial, fun t3 h3 => ⟨⟨?_, ?_⟩,
    fun t4 h4 => ⟨trivial, fun _ _ => trivial⟩⟩⟩⟩⟩
  · have e1 := stateAfter_snoc [] e0 (by decide) h1
    subst e1
    have e2 := stateAfter_snoc _ (stateAfter_ok (by decide)) (by decide) h2
    subst e2
    have e3 := stateAfter_snoc _ (stateAfter_ok (by decide)) (by decide) h3
    subst e3
    intro a ha
    have ha0 : a = 0 ∨ a = 1 := by
      have : some a ∈ [some 0, some 1, none, none] := ha
      simpa using this
    rcases ha0 with rfl | rfl <;> decide
  · intro hc
    cases hc

/-- The lines the supervisor prints, at a table of four slots: the control
child (pid 50), then the job with pid 51, the steps `witnessOps`, and the reap
of pid 51. -/
theorem invoked_finished_rows_match_witness :
    ∃ (rowI : InvokedRow) (rowF : FinishedRow) (frows : List FinishedRow),
      (jobStarted 4).invoked = some ((if RunType.RUNNING = RunType.CONTROL then []
        else (controlStarted 4).invoked.getD []) ++ [rowI]) ∧
      (stateAfter (jobStarted 4) witnessOps).finished = some frows ∧
      (stateAfter (stateAfter (jobStarted 4) witnessOps) [Op.reap (witnessReap 51 110)]).finished
        = some (frows ++ [rowF]) ∧
      (stateAfter (stateAfter (jobStarted 4) witnessOps) [Op.reap (witnessReap 51 110)]).invoked
        = (stateAfter (jobStarted 4) witnessOps).invoked ∧
      (rowI.id, rowI.pid, rowI.runType, rowI.startTime)
        = (toId 101 51, 51, RunType.RUNNING, 101) ∧
      (rowF.id, rowF.pid, rowF.runType, rowF.startTime)
        = (rowI.id, rowI.pid, rowI.runType, rowI.startTime) ∧
      Tracked (stateAfter (jobStarted 4) witnessOps) 1 (toId 101 51, 51, RunType.RUNNING, 101) ∧
      (∀ pre op post sm sm1, witnessOps = pre ++ op :: post →
        applyOps (jobStarted 4) pre = Except.ok sm →
        applyOp sm op = Except.ok sm1 →
        Tracked sm 1 (toId 101 51, 51, RunType.RUNNING, 101) ∧
        Tracked sm1 1 (toId 101 51, 51, RunType.RUNNING, 101) ∧
        OthersOnly 51 sm sm1) :=
  invoked_finished_rows_match (controlStarted 4) [[106]] RunType.RUNNING (witnessSpawn 51 101)
    (jobStarted 4) 1 witnessOps (stateAfter (jobStarted 4) witnessOps) (witnessReap 51 110)
    (stateAfter (stateAfter (jobStarted 4) witnessOps) [Op.reap (witnessReap 51 110)])
    tableInv_controlStarted witness_fresh51 witness_spawn witness_admissible
    (by
      intro e he
      have : e = witnessReap 52 106 := by
        simpa [witnessOps] using he
      subst this
      decide)
    (stateAfter_ok (by decide)) rfl witness_reap

/-! ## Malformed records and `print` -/

theorem verbOf_append (v rest : List Nat) (hv : COLON ∉ v) : verbOf (v ++ COLON :: rest) = v := by
  unfold verbOf
  induction v with
  | nil => simp [List.takeWhile]
  | cons x v ih =>
    have hx : x ≠ COLON := fun h => hv (by simp [h])
    have hv1 : COLON ∉ v := fun h => hv (List.mem_cons_of_mem _ h)
    simp only [List.cons_append, List.takeWhile_cons]
    have : (x != COLON) = true := by simpa using hx
    rw [this]
    simp only [if_true]
    rw [ih hv1]

/-- The control command of a record without `':'`. -/
theorem processControlCommand_no_colon (A r B : Mem) (h0 : 0 ∉ r) (hc : COLON ∉ r) :
    _processControlCommand (A ++ r ++ 0 :: B) A.length
      = some (A ++ r ++ 0 :: B, ControlAction.unrecognized r) := by
  have hsz : strlen (A ++ r ++ 0 :: B) A.length = r.length := by
    unfold strlen
    rw [cstr_terminated A r B h0]
  have hzap := zapNextChar_none A r (0 :: B) COLON hc
  simp only [_processControlCommand, hsz, hzap, cstr_terminated A r B h0]

/-- The control command of a record `v:rest`: the memory after the first
`':'` has been overwritten, the verb and the payload as the branches see
them. -/
theorem processControlCommand_colon (A v rest B : Mem) (h0 : 0 ∉ v) (h1 : 0 ∉ rest)
    (hc : COLON ∉ v) :
    zapNextChar (A ++ v ++ COLON :: rest ++ 0 :: B) A.length
        (strlen (A ++ v ++ COLON :: rest ++ 0 :: B) A.length) COLON
      = (A ++ v ++ 0 :: rest ++ 0 :: B, some (v.length + 1)) ∧
    cstr (A ++ v ++ 0 :: rest ++ 0 :: B) A.length = v ∧
    cstr (A ++ v ++ 0 :: rest ++ 0 :: B) (A.length + (v.length + 1)) = rest := by
  have hrec : 0 ∉ v ++ COLON :: rest := by
    intro h
    rcases List.mem_append.mp h with h2 | h2
    · exact h0 h2
    · rcases List.mem_cons.mp h2 with h3 | h3
      · revert h3; decide
      · exact h1 h3
  have hmem : A ++ v ++ COLON :: rest ++ 0 :: B = A ++ (v ++ COLON :: rest) ++ 0 :: B := by simp
  have hsz : strlen (A ++ v ++ COLON :: rest ++ 0 :: B) A.length = v.length + 1 + rest.length := by
    unfold strlen
    rw [hmem, cstr_terminated A _ B hrec]
    simp only [List.length_append, List.length_cons]
    omega
  have hzap := zapNextChar_found A v (rest ++ 0 :: B) COLON (v.length + 1 + rest.length) hc
    (by omega)
  refine ⟨?_, ?_, ?_⟩
  · rw [hsz]
    have e1 : A ++ v ++ COLON :: rest ++ 0 :: B = A ++ v ++ COLON :: (rest ++ 0 :: B) := by simp
    have e2 : A ++ v ++ 0 :: rest ++ 0 :: B = A ++ v ++ 0 :: (rest ++ 0 :: B) := by simp
    rw [e1, e2, hzap]
  · have e2 : A ++ v ++ 0 :: rest ++ 0 :: B = A ++ v ++ 0 :: (rest ++ 0 :: B) := by simp
    rw [e2]
    exact cstr_terminated A v _ h0
  · have e3 : A ++ v ++ 0 :: rest ++ 0 :: B = (A ++ v ++ [0]) ++ rest ++ 0 :: B := by simp
    have hlen : (A ++ v ++ [0]).length = A.length + (v.length + 1) := by simp
    rw [e3, ← hlen]
    exact cstr_terminated (A ++ v ++ [0]) rest B h1

/-- C11: for a record without NUL that holds no `':'`, or whose prefix before
the first `':'` is neither `exec` nor `print`, `_processControlCommand`
returns, leaves the run table, the records and the ledgers as they were,
writes nothing to stdout and writes one diagnostic line to stderr; in memory
only bytes of the record change. -/
theorem malformed_command_no_effect (w : Process) (env : SpawnEnv) (A r B : Mem)
    (h0 : 0 ∉ r)
    (hbad : COLON ∉ r ∨ (verbOf r ≠ execVerb ∧ verbOf r ≠ printVerb)) :
    ∃ r1 diag, runControlCommand w (A ++ r ++ 0 :: B) A.length env
        = Except.ok ({ w with stderr := w.stderr ++ diag ++ [NL] }, A ++ r1 ++ 0 :: B) ∧
      r1.length = r.length ∧
      (diag = unrecognizedText ++ r ∨
        ∃ rest, r = verbOf r ++ COLON :: rest ∧
          diag = unknownText ++ verbOf r ++ [COLON] ++ rest) := by
  by_cases hc : COLON ∈ r
  · obtain ⟨v, rest, hr, hv⟩ := exists_first_occurrence COLON r hc
    have hverb : verbOf r = v := by rw [hr]; exact verbOf_append v rest hv
    have hv0 : 0 ∉ v := fun h => h0 (by rw [hr]; exact List.mem_append_left _ h)
    have hr0 : 0 ∉ rest := fun h => h0 (by
      rw [hr]; exact List.mem_append_right _ (List.mem_cons_of_mem _ h))
    obtain ⟨hzap, hcv, hcr⟩ := processControlCommand_colon A v rest B hv0 hr0 hv
    rcases hbad with hno | ⟨hne, hnp⟩
    · exact absurd hc hno
    · rw [hverb] at hne hnp
      refine ⟨v ++ 0 :: rest, unknownText ++ v ++ [COLON] ++ rest, ?_, ?_, Or.inr ⟨rest, ?_, ?_⟩⟩
      · have e1 : A ++ r ++ 0 :: B = A ++ v ++ COLON :: rest ++ 0 :: B := by rw [hr]; simp
        have e2 : A ++ (v ++ 0 :: rest) ++ 0 :: B = A ++ v ++ 0 :: rest ++ 0 :: B := by simp
        have hcmd : _processControlCommand (A ++ v ++ COLON :: rest ++ 0 :: B) A.length
            = some (A ++ v ++ 0 :: rest ++ 0 :: B, ControlAction.unknown v rest) := by
          simp only [_processControlCommand, hzap, hcv, hcr, if_neg hne, if_neg hnp]
        rw [e1, e2]
        simp only [runControlCommand, hcmd, perform]
        simp
      · rw [hr]; simp
      · rw [hverb]; exact hr
      · rw [hverb]
  · refine ⟨r, unrecognizedText ++ r, ?_, rfl, Or.inl rfl⟩
    simp only [runControlCommand, processControlCommand_no_colon A r B h0 hc, perform]
    simp

/-- C11 at the records `hello` and `run:x`. -/
theorem malformed_command_no_effect_witness :
    (0 ∉ [104, 101, 108, 108, 111] ∧ COLON ∉ [104, 101, 108, 108, 111] ∧
      ∃ r1 diag, runControlCommand witnessProcess ([] ++ [104, 101, 108, 108, 111] ++ 0 :: [])
          ([] : Mem).length (witnessSpawn 60 120)
        = Except.ok ({ witnessProcess with stderr := witnessProcess.stderr ++ diag ++ [NL] },
            [] ++ r1 ++ 0 :: []) ∧
      r1.length = [104, 101, 108, 108, 111].length ∧
      (diag = unrecognizedText ++ [104, 101, 108, 108, 111] ∨
        ∃ rest, [104, 101, 108, 108, 111] = verbOf [104, 101, 108, 108, 111] ++ COLON :: rest ∧
          diag = unknownText ++ verbOf [104, 101, 108, 108, 111] ++ [COLON] ++ rest)) ∧
    (0 ∉ [114, 117, 110, 58, 120] ∧ verbOf [114, 117, 110, 58, 120] ≠ execVerb ∧
      verbOf [114, 117, 110, 58, 120] ≠ printVerb ∧
      ∃ r1 diag, runControlCommand witnessProcess ([] ++ [114, 117, 110, 58, 120] ++ 0 :: [])
          ([] : Mem).length (witnessSpawn 60 120)
        = Except.ok ({ witnessProcess with stderr := witnessProcess.stderr ++ diag ++ [NL] },
            [] ++ r1 ++ 0 :: []) ∧
      r1.length = [114, 117, 110, 58, 120].length ∧
      (diag = unrecognizedText ++ [114, 117, 110, 58, 120] ∨
        ∃ rest, [114, 117, 110, 58, 120] = verbOf [114, 117, 110, 58, 120] ++ COLON :: rest ∧
          diag = unknownText ++ verbOf [114, 117, 110, 58, 120] ++ [COLON] ++ rest)) :=
  ⟨⟨by decide, by decide,
      malformed_command_no_effect witnessProcess (witnessSpawn 60 120) []
        [104, 101, 108, 108, 111] [] (by decide) (Or.inl (by decide))⟩,
    ⟨by decide, by decide, by decide,
      malformed_command_no_effect witnessProcess (witnessSpawn 60 120) []
        [114, 117, 110, 58, 120] [] (by decide) (Or.inr ⟨by decide, by decide⟩)⟩⟩

/-- C12: for the record `print:` followed by a payload without NUL (further
`':'` in it allowed), `_processControlCommand` returns, having written exactly
the payload and one newline to stdout; the run table, the records, the ledgers
and stderr are as they were. -/
theorem print_payload_to_stdout (w : Process) (env : SpawnEnv) (A payload B : Mem)
    (h0 : 0 ∉ payload) :
    ∃ b1, runControlCommand w (A ++ printVerb ++ COLON :: payload ++ 0 :: B) A.length env
      = Except.ok ({ w with stdout := w.stdout ++ payload ++ [NL] }, b1) := by
  obtain ⟨hzap, hcv, hcr⟩ := processControlCommand_colon A printVerb payload B (by decide) h0
    (by decide)
  have hcmd : _processControlCommand (A ++ printVerb ++ COLON :: payload ++ 0 :: B) A.length
      = some (A ++ printVerb ++ 0 :: payload ++ 0 :: B, ControlAction.print payload) := by
    simp only [_processControlCommand, hzap, hcv, hcr,
      if_neg (show printVerb ≠ execVerb by decide), if_true]
  refine ⟨A ++ printVerb ++ 0 :: payload ++ 0 :: B, ?_⟩
  simp only [runControlCommand, hcmd, perform]

/-- C12 at the record `print:a:b`: the line `a:b` goes to stdout. -/
theorem print_payload_to_stdout_witness :
    0 ∉ [97, 58, 98] ∧
    ∃ b1, runControlCommand witnessProcess
        ([] ++ printVerb ++ COLON :: [97, 58, 98] ++ 0 :: []) ([] : Mem).length
        (witnessSpawn 60 120)
      = Except.ok ({ witnessProcess with
          stdout := witnessProcess.stdout ++ [97, 58, 98] ++ [NL] }, b1) :=
  ⟨by decide, print_payload_to_stdout witnessProcess (witnessSpawn 60 120) [] [97, 58, 98] []
    (by decide)⟩

/-! ## The reap pass and the states the supervisor reaches -/

theorem updateRunning_ctrl {s s1 : Supervisor} {now : Nat → Int}
    (h : _runs_updateRunning s now = Except.ok s1) :
    s1.ctrlRun = s.ctrlRun ∧ ∃ c r, s.ctrlRun = some c ∧ s.heap.getD c none = some r := by
  unfold _runs_updateRunning at h
  cases hd : deref s s.ctrlRun with
  | error f => simp [hd] at h
  | ok ctrl =>
    simp only [hd] at h
    cases hr : runningRows s now s.maxRun 0 with
    | error f => simp [hr] at h
    | ok rows =>
      simp only [hr, Except.ok.injEq] at h
      rw [← h]
      refine ⟨rfl, ?_⟩
      cases hc : s.ctrlRun with
      | none =>
        rw [hc] at hd
        simp [deref] at hd
      | some c =>
        rw [hc] at hd
        exact ⟨c, ctrl, rfl, deref_ok hd⟩

theorem prepareLoop_ctrl :
    ∀ (n i : Nat) (s : Supervisor) (fds : List Int) (s1 : Supervisor) (fds1 : List Int),
      prepareLoop n i s fds = Except.ok (s1, fds1) → s1.ctrlRun = s.ctrlRun := by
  intro n
  induction n with
  | zero =>
    intro i s fds s1 fds1 h
    simp only [prepareLoop, Except.ok.injEq, Prod.mk.injEq] at h
    rw [← h.1]
  | succ n ih =>
    intro i s fds s1 fds1 h
    simp only [prepareLoop] at h
    cases hg : s.runs.getD i none with
    | none =>
      simp only [hg, Except.ok.injEq, Prod.mk.injEq] at h
      rw [← h.1]
    | some addr =>
      simp only [hg] at h
      cases hd : deref s (some addr) with
      | error f => simp [hd] at h
      | ok run =>
        simp only [hd] at h
        cases hp : prepareRun run with
        | error f => simp [hp] at h
        | ok run1 =>
          simp only [hp] at h
          have hrec := ih _ _ _ _ _ h
          exact hrec

theorem copyAt_ctrl {σ : Type} {s s1 : Supervisor} {i : Nat} {e : Endpoint} {a : CopyArgs σ}
    (h : copyAt s i e a = Except.ok s1) : s1.ctrlRun = s.ctrlRun := by
  unfold copyAt at h
  cases hg : s.runs.getD i none with
  | none =>
    simp only [hg, Except.ok.injEq] at h
    rw [← h]
  | some addr =>
    simp only [hg] at h
    cases hd : deref s (some addr) with
    | error f => simp [hd] at h
    | ok run =>
      simp only [hd] at h
      cases hp : copyOn run e a with
      | error f => simp [hp] at h
      | ok run1 =>
        simp only [hp, Except.ok.injEq] at h
        rw [← h]

/-- In a dense table the first slot tells whether any run is left. -/
theorem dense_head {s : Supervisor} (h : TableInv s) :
    s.runs.getD 0 none ≠ none ↔ ∃ a, some a ∈ s.runs := by
  obtain ⟨live, k, hruns, -, -, -⟩ := h.dense
  rw [hruns]
  cases live with
  | nil =>
    constructor
    · intro h0
      exfalso
      apply h0
      cases k <;> simp [List.replicate_succ]
    · rintro ⟨a, ha⟩
      simp only [List.map_nil, List.nil_append] at ha
      cases List.eq_of_mem_replicate ha
  | cons a l =>
    constructor
    · intro _
      exact ⟨a, by simp⟩
    · intro _
      simp

/-- One round of the reap loop leaves `ctrlRun` alone; a freed record stays
freed, and a record of the table is still in the table or has been freed. -/
theorem reapOne_ctrl {s s1 : Supervisor} {env : ReapEnv} (h : TableInv s)
    (hr : reapOne s env = Except.ok s1) :
    s1.ctrlRun = s.ctrlRun ∧
      (∀ c, s.heap.getD c none = none → s1.heap.getD c none = none) ∧
      (∀ c, some c ∈ s.runs → some c ∈ s1.runs ∨ s1.heap.getD c none = none) := by
  rcases reapOne_cases h hr with ⟨h1, -⟩ | ⟨before, a, after, k, run, run1, frows, hruns, -,
    -, -, -, -, -, -, hs1, -⟩
  · subst h1
    exact ⟨rfl, fun c hc => hc, fun c hc => Or.inl hc⟩
  · subst hs1
    refine ⟨rfl, ?_, ?_⟩
    · intro c hc
      by_cases hca : c = a
      · subst hca
        exact getD_set_none _ _
      · show (s.heap.set a none).getD c none = none
        rw [getD_set_ne _ _ _ _ _ hca]
        exact hc
    · intro c hc
      rw [hruns] at hc
      have hmem := (mem_dense _ k c).mp hc
      rcases List.mem_append.mp hmem with hb | hb
      · exact Or.inl ((mem_dense _ (k + 1) c).mpr (List.mem_append_left _ hb))
      · rcases List.mem_cons.mp hb with hb | hb
        · subst hb
          exact Or.inr (getD_set_none _ _)
        · exact Or.inl ((mem_dense _ (k + 1) c).mpr (List.mem_append_right _ hb))

theorem reapAll_cons_ok {s s2 : Supervisor} {env : ReapEnv} {envs : List ReapEnv}
    (h : reapAll s (env :: envs) = Except.ok s2) :
    ∃ s1, reapOne s env = Except.ok s1 ∧ reapAll s1 envs = Except.ok s2 := by
  simp only [reapAll] at h
  cases hn : reapOne s env with
  | error f => rw [hn] at h; cases h
  | ok s1 => rw [hn] at h; exact ⟨s1, rfl, h⟩

/-- The rounds of the reap loop keep the invariant of the table. -/
theorem reapAll_inv :
    ∀ (waits : List ReapEnv) (s s1 : Supervisor), TableInv s →
      reapAll s waits = Except.ok s1 →
      TableInv s1 ∧ s1.maxRun = s.maxRun ∧ s1.invoked = s.invoked ∧ s1.ctrlRun = s.ctrlRun ∧
      (∀ c, s.heap.getD c none = none → s1.heap.getD c none = none) ∧
      (∀ c, some c ∈ s.runs → some c ∈ s1.runs ∨ s1.heap.getD c none = none) := by
  intro waits
  induction waits with
  | nil =>
    intro s s1 h hr
    simp only [reapAll, Except.ok.injEq] at hr
    subst hr
    exact ⟨h, rfl, rfl, rfl, fun c hc => hc, fun c hc => Or.inl hc⟩
  | cons env envs ih =>
    intro s s2 h hr
    obtain ⟨s1, h1, h2⟩ := reapAll_cons_ok hr
    obtain ⟨hinv1, hi1, hm1, -⟩ := reapOne_inv h h1
    obtain ⟨hc1, hf1, ht1⟩ := reapOne_ctrl h h1
    obtain ⟨hinv2, hm2, hi2, hc2, hf2, ht2⟩ := ih s1 s2 hinv1 h2
    refine ⟨hinv2, by rw [hm2, hm1], by rw [hi2, hi1], by rw [hc2, hc1],
      fun c hc => hf2 c (hf1 c hc), ?_⟩
    intro c hc
    rcases ht1 c hc with h3 | h3
    · exact ht2 c h3
    · exact Or.inr (hf2 c h3)

theorem pass_cases {s s2 : Supervisor} {waits : List ReapEnv} {now : Nat → Int} {r : Bool}
    (h : _runs_checkForTerminatedJobs s waits now = Except.ok (s2, r)) :
    r = decide (s2.runs.getD 0 none ≠ none) ∧
    ((waits = [] ∧ s2 = s) ∨
      (waits ≠ [] ∧ ∃ s1, reapAll s waits = Except.ok s1 ∧
        _runs_updateRunning s1 now = Except.ok s2)) := by
  unfold _runs_checkForTerminatedJobs at h
  cases hra : reapAll s waits with
  | error f => simp [hra] at h
  | ok s1 =>
    simp only [hra] at h
    cases waits with
    | nil =>
      simp only [List.isEmpty_nil, Bool.not_true, Bool.false_eq_true, if_false,
        Except.ok.injEq, Prod.mk.injEq] at h
      simp only [reapAll, Except.ok.injEq] at hra
      obtain ⟨h1, h2⟩ := h
      subst h1
      exact ⟨h2.symm, Or.inl ⟨rfl, hra.symm⟩⟩
    | cons e es =>
      simp only [List.isEmpty_cons, Bool.not_false, if_true] at h
      cases hu : _runs_updateRunning s1 now with
      | error f => simp [hu] at h
      | ok s3 =>
        simp only [hu, Except.ok.injEq, Prod.mk.injEq] at h
        obtain ⟨h1, h2⟩ := h
        subst h1
        exact ⟨h2.symm, Or.inr ⟨by simp, s1, rfl, hu⟩⟩

/-- A reap pass that returns keeps the invariant of the table, and its value
tells whether a run is left; it leaves a supervisor without control child as
it is, and after it `ctrlRun` still points to a run of the table if it did
before. -/
theorem pass_inv {s s2 : Supervisor} {waits : List ReapEnv} {now : Nat → Int} {r : Bool}
    (hinv : TableInv s)
    (h : _runs_checkForTerminatedJobs s waits now = Except.ok (s2, r)) :
    TableInv s2 ∧ s2.maxRun = s.maxRun ∧ (r = true ↔ ∃ a, some a ∈ s2.runs) ∧
      (Pristine s → Pristine s2) ∧ (CtrlLive s → CtrlLive s2) := by
  obtain ⟨hr, hcase⟩ := pass_cases h
  have hiff : ∀ (hinv2 : TableInv s2), (r = true ↔ ∃ a, some a ∈ s2.runs) := by
    intro hinv2
    rw [hr, decide_eq_true_iff]
    exact dense_head hinv2
  rcases hcase with ⟨-, h2⟩ | ⟨hne, s1, hra, hu⟩
  · subst h2
    exact ⟨hinv, rfl, hiff hinv, fun hp => hp, fun hc => hc⟩
  · obtain ⟨hinv1, hm1, hi1, hc1, -, ht1⟩ := reapAll_inv waits s s1 hinv hra
    obtain ⟨u1, u2, u3, u4, u5⟩ := updateRunning_keep hu
    obtain ⟨uc, c, rc, hcs1, hrc⟩ := updateRunning_ctrl hu
    have hinv2 : TableInv s2 :=
      hinv1.of_keep u1 u2 u3 (by rw [u4]; exact id) (by rw [u5]; exact HeapKeep.refl _)
    refine ⟨hinv2, by rw [u2, hm1], hiff hinv2, ?_, ?_⟩
    · intro hp
      rw [hc1, hp.1] at hcs1
      cases hcs1
    · rintro ⟨c0, hc0, hmem⟩
      have hcc : c0 = c := by
        rw [hc1, hc0] at hcs1
        exact Option.some.inj hcs1
      subst hcc
      refine ⟨c0, by rw [uc, hc1, hc0], ?_⟩
      rw [u1]
      rcases ht1 c0 hmem with h3 | h3
      · exact h3
      · rw [h3] at hrc
        cases hrc

/-- What a spawn that returns has done to the table and to `ctrlRun`. -/
theorem run_new_shape {s s1 : Supervisor} {cmd : List (List Nat)} {runType : RunType}
    {env : SpawnEnv} {addr : Nat} (hr : _run_new s cmd runType env = Except.ok (s1, addr)) :
    ∃ runIdx, findSlot s.runs s.maxRun s.maxRun 0 = some runIdx ∧ addr = s.heap.length ∧
      s1.runs = s.runs.set runIdx (some addr) ∧ s1.maxRun = s.maxRun ∧
      s1.ctrlRun = (if runType = RunType.CONTROL then some addr else s.ctrlRun) ∧
      (runType ≠ RunType.CONTROL → s.invoked ≠ none) := by
  have hget : (s.heap ++ [some (newRun runType env.tt env.pid cmd env.tOut env.tErr)]).getD
      s.heap.length none = some (newRun runType env.tt env.pid cmd env.tOut env.tErr) :=
    getD_append_cons s.heap _ none []
  unfold _run_new at hr
  cases hf : findSlot s.runs s.maxRun s.maxRun 0 with
  | none => simp [_runs_add, hf, deref] at hr
  | some runIdx =>
    simp only [_runs_add, hf, deref, hget] at hr
    refine ⟨runIdx, rfl, ?_⟩
    by_cases hc : runType = RunType.CONTROL
    · subst hc
      simp only [if_true] at hr
      split at hr
      · cases hr
      · rename_i s5 hup
        simp only [Except.ok.injEq, Prod.mk.injEq] at hr
        obtain ⟨hs5, haddr⟩ := hr
        subst hs5
        subst haddr
        obtain ⟨u1, u2, -, -, -⟩ := updateRunning_keep hup
        obtain ⟨uc, -⟩ := updateRunning_ctrl hup
        simp only at u1 u2 uc
        exact ⟨rfl, u1, u2, by rw [uc]; simp, fun hne => absurd rfl hne⟩
    · simp only [if_neg hc] at hr
      cases hinv : s.invoked with
      | none =>
        simp only [hinv] at hr
        cases hr
      | some rows =>
        simp only [hinv] at hr
        split at hr
        · cases hr
        · rename_i s5 hup
          simp only [Except.ok.injEq, Prod.mk.injEq] at hr
          obtain ⟨hs5, haddr⟩ := hr
          subst hs5
          subst haddr
          obtain ⟨u1, u2, -, -, -⟩ := updateRunning_keep hup
          obtain ⟨uc, -⟩ := updateRunning_ctrl hup
          simp only at u1 u2 uc
          exact ⟨rfl, u1, u2, by rw [uc, if_neg hc], fun _ => by simp⟩

/-- Every state the supervisor reaches has a dense table of `maxRun` slots
with live records, and either no control child has been started or `ctrlRun`
points to a run of the table. -/
theorem reachable_inv {maxRun : Nat} {s : Supervisor} (h : Reachable maxRun s) :
    TableInv s ∧ s.maxRun = maxRun ∧ (Pristine s ∨ CtrlLive s) := by
  induction h with
  | init =>
    refine ⟨tableInv_runs_init maxRun, rfl, Or.inl ⟨rfl, ?_, rfl⟩⟩
    intro a ha
    simp only [_runs_init] at ha
    cases List.eq_of_mem_replicate ha
  | spawn s s1 cmd runType env addr _ hfresh hctl hr ih =>
    obtain ⟨hinv, hmax, hstate⟩ := ih
    obtain ⟨hinv1, hmem, -, -, hkeep, -⟩ := run_new_cases hinv hfresh hr
    obtain ⟨runIdx, -, -, -, hm1, hc1, hi⟩ := run_new_shape hr
    refine ⟨hinv1, by rw [hm1, hmax], Or.inr ?_⟩
    by_cases hc : runType = RunType.CONTROL
    · exact ⟨addr, by rw [hc1, if_pos hc], hmem⟩
    · rw [if_neg hc] at hc1
      rcases hstate with hp | ⟨c, hcs, hcm⟩
      · exact absurd hp.2.2 (hi hc)
      · obtain ⟨live, k, hruns, -, hlive, -⟩ := hinv.dense
        obtain ⟨r, hrec, -⟩ := hlive c (by
          rw [hruns] at hcm
          exact (mem_dense live k c).mp hcm)
        exact ⟨c, by rw [hc1, hcs], (hkeep c r hcm hrec).1⟩
  | prepare s s1 fds n _ hr ih =>
    obtain ⟨hinv, hmax, hstate⟩ := ih
    simp only [_runs_prepareDescriptors] at hr
    cases hn : prepareLoop s.maxRun 0 s [] with
    | error f => rw [hn] at hr; cases hr
    | ok res =>
      rw [hn] at hr
      obtain ⟨s2, fds2⟩ := res
      simp only [Except.ok.injEq, Prod.mk.injEq] at hr
      obtain ⟨hs, -⟩ := hr
      subst hs
      obtain ⟨u1, u2, u3, u4, hk⟩ := prepareLoop_keep _ _ _ _ _ _ hn
      have uc := prepareLoop_ctrl _ _ _ _ _ _ hn
      refine ⟨hinv.of_keep u1 u2 u3 (by rw [u4]; exact id) hk, by rw [u2, hmax], ?_⟩
      rcases hstate with hp | ⟨c, hcs, hcm⟩
      · exact Or.inl ⟨by rw [uc]; exact hp.1, by rw [u1]; exact hp.2.1, by rw [u3]; exact hp.2.2⟩
      · exact Or.inr ⟨c, by rw [uc]; exact hcs, by rw [u1]; exact hcm⟩
  | copy s s1 runIdx e a _ hr ih =>
    obtain ⟨hinv, hmax, hstate⟩ := ih
    obtain ⟨u1, u2, u3, u4, hk⟩ := copyAt_keep hr
    have uc := copyAt_ctrl hr
    refine ⟨hinv.of_keep u1 u2 u3 (by rw [u4]; exact id) hk, by rw [u2, hmax], ?_⟩
    rcases hstate with hp | ⟨c, hcs, hcm⟩
    · exact Or.inl ⟨by rw [uc]; exact hp.1, by rw [u1]; exact hp.2.1, by rw [u3]; exact hp.2.2⟩
    · exact Or.inr ⟨c, by rw [uc]; exact hcs, by rw [u1]; exact hcm⟩
  | pass s s1 waits now r _ hr ih =>
    obtain ⟨hinv, hmax, hstate⟩ := ih
    obtain ⟨hinv1, hm1, -, hp1, hl1⟩ := pass_inv hinv hr
    refine ⟨hinv1, by rw [hm1, hmax], ?_⟩
    rcases hstate with hp | hl
    · exact Or.inl (hp1 hp)
    · exact Or.inr (hl1 hl)

theorem free_slot_count {live : List Nat} {k : Nat}
    (hfree : none ∈ live.map some ++ List.replicate k none) : 0 < k := by
  rcases List.mem_append.mp hfree with h0 | h0
  · obtain ⟨b, -, hb⟩ := List.mem_map.mp h0
    cases hb
  · by_contra hk0
    have : k = 0 := by omega
    subst this
    simp at h0

/-- A round of the reap loop for a pid of no run of the table returns and
changes nothing. -/
theorem reapOne_no_match {s : Supervisor} {env : ReapEnv} (h : TableInv s)
    (hno : ∀ a, some a ∈ s.runs → pidAt s a ≠ some env.pid) : reapOne s env = Except.ok s := by
  obtain ⟨live, k, hruns, hmax, hlive, -⟩ := h.dense
  have hloop := reapLoop_no_match env live [] s k (by rw [hruns]; simp) (by
    intro a ha
    obtain ⟨r, hr, -⟩ := hlive a ha
    refine ⟨r, hr, ?_⟩
    intro hp
    apply hno a (by rw [hruns]; exact (mem_dense live k a).mpr ha)
    simp only [pidAt, hr, Option.map_some', hp])
  unfold reapOne
  rw [hmax]
  exact hloop

/-- With an empty slot in the table a round of the reap loop returns, an
empty slot is still there, the record with the pid has been freed and every
other run is in the table as before. -/
theorem reapOne_total {s : Supervisor} (env : ReapEnv) (h : TableInv s) (hfree : none ∈ s.runs) :
    ∃ s1, reapOne s env = Except.ok s1 ∧ none ∈ s1.runs ∧
      ∀ c r, some c ∈ s.runs → s.heap.getD c none = some r →
        (r.pid = env.pid → s1.heap.getD c none = none) ∧
        (r.pid ≠ env.pid → some c ∈ s1.runs ∧ s1.heap.getD c none = some r) := by
  by_cases hm : ∃ a, some a ∈ s.runs ∧ pidAt s a = some env.pid
  · obtain ⟨a, ha, hpa⟩ := hm
    obtain ⟨live, k, hruns, -, hlive, -⟩ := h.dense
    obtain ⟨run, hrun, -⟩ := hlive a (by rw [hruns] at ha; exact (mem_dense live k a).mp ha)
    have hrp : run.pid = env.pid := by
      simp only [pidAt, hrun, Option.map_some', Option.some.injEq] at hpa
      exact hpa
    obtain ⟨s1, -, -, hr, -⟩ := reapOne_returns h hfree ha hrun hrp
    obtain ⟨-, -, -, hkeep⟩ := reapOne_inv h hr
    refine ⟨s1, hr, ?_, ?_⟩
    · rcases reapOne_cases h hr with ⟨h1, -⟩ | ⟨before, a2, after, k2, run2, run1, frows, -, -,
        -, -, -, -, -, -, hs1, -⟩
      · rw [h1]; exact hfree
      · rw [hs1]
        show none ∈ (before ++ after).map some ++ List.replicate (k2 + 1) none
        simp [List.replicate_succ]
    · intro c r hc hrec
      refine ⟨?_, fun hne => hkeep c r hc hrec hne⟩
      intro hp
      rcases reapOne_cases h hr with ⟨-, hnone⟩ | ⟨before, a2, after, k2, run2, run1, frows,
        hruns2, -, -, -, -, -, -, -, hs1, hother⟩
      · exfalso
        apply hnone c hc
        simp only [pidAt, hrec, Option.map_some', hp]
      · have hca : c = a2 := by
          rw [hruns2] at hc
          have hmem := (mem_dense _ k2 c).mp hc
          have hpc : pidAt s c = some env.pid := by
            simp only [pidAt, hrec, Option.map_some', hp]
          rcases List.mem_append.mp hmem with hb | hb
          · exact absurd hpc (hother c (List.mem_append_left _ hb)).2
          · rcases List.mem_cons.mp hb with hb | hb
            · exact hb
            · exact absurd hpc (hother c (List.mem_append_right _ hb)).2
        subst hca
        rw [hs1]
        exact getD_set_none _ _
  · have hno : ∀ a, some a ∈ s.runs → pidAt s a ≠ some env.pid :=
      fun a ha hp => hm ⟨a, ha, hp⟩
    refine ⟨s, reapOne_no_match h hno, hfree, ?_⟩
    intro c r hc hrec
    refine ⟨?_, fun _ => ⟨hc, hrec⟩⟩
    intro hp
    exfalso
    apply hno c hc
    simp only [pidAt, hrec, Option.map_some', hp]

/-- With an empty slot in the table the rounds of the reap loop return; the
records of the runs whose pid was reported have been freed, the other runs
are in the table as before. -/
theorem reapAll_total :
    ∀ (waits : List ReapEnv) (s : Supervisor), TableInv s → none ∈ s.runs →
      ∃ s1, reapAll s waits = Except.ok s1 ∧ TableInv s1 ∧ none ∈ s1.runs ∧
        s1.ctrlRun = s.ctrlRun ∧
        ∀ c r, some c ∈ s.runs → s.heap.getD c none = some r →
          ((∃ e ∈ waits, e.pid = r.pid) → s1.heap.getD c none = none) ∧
          ((∀ e ∈ waits, e.pid ≠ r.pid) → some c ∈ s1.runs ∧ s1.heap.getD c none = some r) := by
  intro waits
  induction waits with
  | nil =>
    intro s h hfree
    refine ⟨s, rfl, h, hfree, rfl, ?_⟩
    intro c r hc hrec
    refine ⟨?_, fun _ => ⟨hc, hrec⟩⟩
    rintro ⟨e, he, -⟩
    cases he
  | cons env envs ih =>
    intro s h hfree
    obtain ⟨s1, h1, hfree1, hrec1⟩ := reapOne_total env h hfree
    obtain ⟨hinv1, -, -, -⟩ := reapOne_inv h h1
    obtain ⟨hc1, hf1, -⟩ := reapOne_ctrl h h1
    obtain ⟨s2, h2, hinv2, hfree2, hc2, hrec2⟩ := ih s1 hinv1 hfree1
    obtain ⟨-, -, -, -, hf2, -⟩ := reapAll_inv envs s1 s2 hinv1 h2
    refine ⟨s2, by simp only [reapAll, h1, h2], hinv2, hfree2, by rw [hc2, hc1], ?_⟩
    intro c r hc hrec
    obtain ⟨hyes, hnot⟩ := hrec1 c r hc hrec
    constructor
    · rintro ⟨e, he, hep⟩
      by_cases hp : r.pid = env.pid
      · exact hf2 c (hyes hp)
      · obtain ⟨hc1m, hrec1r⟩ := hnot hp
        rcases List.mem_cons.mp he with he1 | he1
        · rw [he1] at hep
          exact absurd hep.symm hp
        · exact (hrec2 c r hc1m hrec1r).1 ⟨e, he1, hep⟩
    · intro hall
      have hp : r.pid ≠ env.pid := fun hp => hall env (List.mem_cons_self _ _) hp.symm
      obtain ⟨hc1m, hrec1r⟩ := hnot hp
      exact (hrec2 c r hc1m hrec1r).2 (fun e he => hall e (List.mem_cons_of_mem _ he))

/-- The reap pass in which `waitpid` reports the control child, in a table
with an empty slot: the rounds of the reap loop return, the control record
has been freed, and `_runs_updateRunning` reads it through `ctrlRun`. -/
theorem pass_reaps_control {s : Supervisor} {c : Nat} {r : Run} (waits : List ReapEnv)
    (now : Nat → Int) (h : TableInv s) (hfree : none ∈ s.runs) (hctrl : s.ctrlRun = some c)
    (hc : some c ∈ s.runs) (hrec : s.heap.getD c none = some r)
    (hw : ∃ e ∈ waits, e.pid = r.pid) :
    _runs_checkForTerminatedJobs s waits now = Except.error Fault.useAfterFree := by
  obtain ⟨s1, h1, -, -, hc1, hrec1⟩ := reapAll_total waits s h hfree
  have hfreed := (hrec1 c r hc hrec).1 hw
  have hne : waits.isEmpty = false := by
    obtain ⟨e, he, -⟩ := hw
    cases waits with
    | nil => cases he
    | cons x xs => rfl
  simp only [_runs_checkForTerminatedJobs, h1, hne, Bool.not_false, if_true,
    _runs_updateRunning, hc1, hctrl, deref, hfreed]

/-! ## The reap loop in a table without empty slot -/

/-- The reap loop after the match, in a table without empty slot: the shift
at the last slot reads `runs[maxRun]`. -/
theorem reapLoop_collapse_oob (env : ReapEnv) :
    ∀ (rest : List Nat) (Q : List (Option Nat)) (s : Supervisor), rest ≠ [] →
      s.runs = Q ++ rest.map some → s.maxRun = Q.length + rest.length →
      (∀ b ∈ rest, ∃ r, s.heap.getD b none = some r ∧ r.pid ≠ env.pid) →
      reapLoop env rest.length Q.length true s = Except.error Fault.outOfBounds := by
  intro rest
  induction rest with
  | nil => intro Q s h; exact absurd rfl h
  | cons r0 rest ih =>
    intro Q s _ hruns hmax hlive
    obtain ⟨r, hrec, hpid⟩ := hlive r0 (List.mem_cons_self _ _)
    have hget : s.runs.getD Q.length none = some r0 := by
      rw [hruns]; exact getD_append_cons Q (some r0) none _
    rw [List.length_cons]
    cases rest with
    | nil =>
      have hlt : ¬ Q.length + 1 < s.maxRun := by
        rw [hmax]; simp
      simp only [reapLoop, hget, deref, hrec, reapVisit, hpid, if_false, if_true, reapShift, hlt]
    | cons r1 rest1 =>
      have hlt : Q.length + 1 < s.maxRun := by
        rw [hmax]; simp only [List.length_cons]; omega
      have hget2 : s.runs.getD (Q.length + 1) none = some r1 := by
        rw [hruns]
        simp only [List.map_cons]
        rw [getD_append_cons_succ]
        rfl
      have hset : s.runs.set Q.length (some r1) = (Q ++ [some r1]) ++ (r1 :: rest1).map some := by
        rw [hruns]
        simp only [List.map_cons]
        rw [set_append_cons]
        simp
      have hih := ih (Q ++ [some r1]) { s with runs := List.set s.runs Q.length (some r1) }
        (by simp) hset
        (by simp only [hmax, List.length_append, List.length_cons, List.length_nil]; omega)
        (fun b hb => hlive b (List.mem_cons_of_mem _ hb))
      rw [show (Q ++ [some r1]).length = Q.length + 1 by simp] at hih
      rw [reapLoop]
      simp only [hget, deref, hrec, reapVisit, hpid, if_false, if_true, reapShift, hlt, hget2]
      exact hih

/-- The reap loop for the pid of a run of a table without empty slot: the run
is finalised and freed, and the shift at the last slot reads `runs[maxRun]`. -/
theorem reapLoop_match_oob (env : ReapEnv) (a : Nat) (after : List Nat) (run : Run)
    (rows : List IndexRow) (frows : List FinishedRow)
    (hpid : run.pid = env.pid) (hindex : run.index = some rows) :
    ∀ (before : List Nat) (done : List (Option Nat)) (s : Supervisor),
      s.runs = done ++ (before.map some ++ some a :: after.map some) →
      s.maxRun = done.length + before.length + 1 + after.length →
      (∀ b ∈ before, ∃ r, s.heap.getD b none = some r ∧ r.pid ≠ env.pid) →
      s.heap.getD a none = some run → s.finished = some frows →
      (∀ b ∈ after, b ≠ a ∧ ∃ r, s.heap.getD b none = some r ∧ r.pid ≠ env.pid) →
      reapLoop env (before.length + 1 + after.length) done.length false s
        = Except.error Fault.outOfBounds := by
  intro before
  induction before with
  | nil =>
    intro done s hruns hmax _ hrun hfin hafter
    obtain ⟨run1, hfs, -⟩ := finalSamples_ok { run with returnCode := env.status, end_ := env.now }
      env.tOut env.tErr rows hindex
    simp only [List.map_nil, List.nil_append] at hruns
    have hget : s.runs.getD done.length none = some a := by
      rw [hruns]; exact getD_append_cons done (some a) none _
    have hself := getD_set_self s.heap a
      { run with returnCode := env.status, end_ := env.now } run hrun
    have hfree : _run_free
          { s with heap := List.set s.heap a (some { run with returnCode := env.status, end_ := env.now }) }
          a env
        = Except.ok { s with
            heap := s.heap.set a none
            finished := some (frows ++ [finishedRow run1 env.renamed])
            finalised := s.finalised ++ [run1] } := by
      simp only [_run_free, deref, hself, hfs, hfin, List.set_set]
    rw [show ([] : List Nat).length + 1 + after.length = after.length + 1
      by simp only [List.length_nil]; omega]
    rw [reapLoop]
    simp only [hget, deref, hrun, reapVisit]
    rw [if_pos hpid]
    cases after with
    | nil =>
      have hlt : ¬ done.length + 1 < s.maxRun := by
        rw [hmax]; simp
      simp only [hfree, if_true, reapShift, hlt, if_false]
    | cons a1 after1 =>
      have hlt : done.length + 1 < s.maxRun := by
        rw [hmax]; simp only [List.length_cons, List.length_nil]; omega
      have hget2 : s.runs.getD (done.length + 1) none = some a1 := by
        rw [hruns]
        simp only [List.map_cons]
        rw [getD_append_cons_succ]
        rfl
      have hset : s.runs.set done.length (some a1)
          = (done ++ [some a1]) ++ (a1 :: after1).map some := by
        rw [hruns]
        simp only [List.map_cons]
        rw [set_append_cons]
        simp
      have hcol := reapLoop_collapse_oob env (a1 :: after1) (done ++ [some a1])
        { s with
          heap := s.heap.set a none
          finished := some (frows ++ [finishedRow run1 env.renamed])
          finalised := s.finalised ++ [run1]
          runs := List.set s.runs done.length (some a1) }
        (by simp) hset
        (by
          have hm := hmax
          simp only [List.length_append, List.length_cons, List.length_nil] at hm ⊢
          omega)
        (fun b hb => by
          obtain ⟨hne, r, hr, hp⟩ := hafter b hb
          exact ⟨r, by simp only [getD_set_ne s.heap a b none none hne, hr], hp⟩)
      rw [show (done ++ [some a1]).length = done.length + 1 by simp] at hcol
      simp only [hfree, if_true, reapShift, hlt, hget2]
      exact hcol
  | cons b before ih =>
    intro done s hruns hmax hbefore hrun hfin hafter
    obtain ⟨r, hrec, hp⟩ := hbefore b (List.mem_cons_self _ _)
    have hget : s.runs.getD done.length none = some b := by
      rw [hruns]
      simp only [List.map_cons, List.cons_append]
      exact getD_append_cons done (some b) none _
    have hih := ih (done ++ [some b]) s (by rw [hruns]; simp)
      (by simp only [hmax, List.length_append, List.length_cons, List.length_nil]; omega)
      (fun x hx => hbefore x (List.mem_cons_of_mem _ hx)) hrun hfin hafter
    rw [show (done ++ [some b]).length = done.length + 1 by simp] at hih
    rw [show (b :: before).length + 1 + after.length
      = (before.length + 1 + after.length) + 1 by simp only [List.length_cons]; omega]
    simp only [reapLoop, hget, deref, hrec, reapVisit, hp, if_false, hih]
    simp

/-- In a table without empty slot a round of the reap loop for the pid of a
run of the table reads `runs[maxRun]`. -/
theorem reapOne_full_oob {s : Supervisor} {env : ReapEnv} {a : Nat} (h : TableInv s)
    (hfull : none ∉ s.runs) (ha : some a ∈ s.runs) (hpa : pidAt s a = some env.pid) :
    reapOne s env = Except.error Fault.outOfBounds := by
  obtain ⟨live, k, hruns, hmax, hlive, hnd⟩ := h.dense
  have hk : k = 0 := by
    by_contra hk0
    apply hfull
    rw [hruns]
    obtain ⟨k1, rfl⟩ : ∃ k1, k = k1 + 1 := ⟨k - 1, by omega⟩
    simp [List.replicate_succ]
  subst hk
  simp only [List.replicate_zero, List.append_nil, Nat.add_zero] at hruns hmax
  have ha2 : a ∈ live := by
    rw [hruns] at ha
    obtain ⟨b, hb, hbe⟩ := List.mem_map.mp ha
    cases hbe
    exact hb
  obtain ⟨before, after, rfl⟩ := List.append_of_mem ha2
  obtain ⟨run, hrun, hidx⟩ := hlive a ha2
  obtain ⟨rows, hrows⟩ := Option.ne_none_iff_exists'.mp hidx
  have hrp : run.pid = env.pid := by
    simp only [pidAt, hrun, Option.map_some', Option.some.injEq] at hpa
    exact hpa
  have hother := others_of_nodup hlive hnd hrun hrp
  have hfin : s.finished ≠ none :=
    h.finished_open (h.invoked_open ⟨a, ha⟩)
  obtain ⟨frows, hfrows⟩ := Option.ne_none_iff_exists'.mp hfin
  have hloop := reapLoop_match_oob env a after run rows frows hrp hrows before [] s
    (by rw [hruns]; simp) (by rw [hmax]; simp; omega)
    (fun b hb => (hother b (Or.inl hb)).2) hrun hfrows (fun b hb => hother b (Or.inr hb))
  unfold reapOne
  rw [show s.maxRun = before.length + 1 + after.length by rw [hmax]; simp; omega]
  exact hloop

/-! ## Spawns return, and the table fills up -/

theorem runningRows_returns (s : Supervisor) (now : Nat → Int) :
    ∀ (rest : List Nat) (done : List (Option Nat)) (k : Nat),
      s.runs = done ++ (rest.map some ++ List.replicate k none) →
      (∀ a ∈ rest, ∃ r, s.heap.getD a none = some r) →
      ∃ rows, runningRows s now (rest.length + k) done.length = Except.ok rows := by
  intro rest
  induction rest with
  | nil =>
    intro done k hruns _
    cases k with
    | zero => exact ⟨[], by simp [runningRows]⟩
    | succ k1 =>
      have hget : s.runs.getD done.length none = none := by
        rw [hruns]
        simp only [List.map_nil, List.nil_append, List.replicate_succ]
        exact getD_append_cons done none none _
      exact ⟨[], by simp only [List.length_nil, Nat.zero_add, runningRows, hget]⟩
  | cons r0 rest ih =>
    intro done k hruns hlive
    obtain ⟨r, hrec⟩ := hlive r0 (List.mem_cons_self _ _)
    have hget : s.runs.getD done.length none = some r0 := by
      rw [hruns]
      simp only [List.map_cons, List.cons_append]
      exact getD_append_cons done (some r0) none _
    obtain ⟨rows, hrows⟩ := ih (done ++ [some r0]) k (by rw [hruns]; simp)
      (fun a ha => hlive a (List.mem_cons_of_mem _ ha))
    rw [show (done ++ [some r0]).length = done.length + 1 by simp] at hrows
    refine ⟨runningRow r (now done.length) :: rows, ?_⟩
    rw [show (r0 :: rest).length + k = (rest.length + k) + 1 by simp only [List.length_cons]; omega]
    rw [runningRows]
    simp only [hget, deref, hrec, hrows]

/-- With a dense table of live records and `ctrlRun` pointing to a live
record `_runs_updateRunning` does not fault. -/
theorem updateRunning_ne_error {s : Supervisor} {now : Nat → Int} {f : Fault}
    (herr : _runs_updateRunning s now = Except.error f) {live : List Nat} {k : Nat}
    (hruns : s.runs = live.map some ++ List.replicate k none)
    (hmax : s.maxRun = live.length + k)
    (hlive : ∀ a ∈ live, ∃ r, s.heap.getD a none = some r)
    (hctrl : ∃ c r, s.ctrlRun = some c ∧ s.heap.getD c none = some r) : False := by
  obtain ⟨c, r, hc, hr⟩ := hctrl
  obtain ⟨rows, hrows⟩ := runningRows_returns s now live [] k (by rw [hruns]; simp) hlive
  simp only [List.length_nil] at hrows
  rw [← hmax] at hrows
  simp only [_runs_updateRunning, hc, deref, hr, hrows] at herr
  cases herr

theorem run_new_dense {s s1 : Supervisor} {cmd : List (List Nat)} {runType : RunType}
    {env : SpawnEnv} {addr : Nat} (live : List Nat) (k1 : Nat)
    (hruns : s.runs = live.map some ++ List.replicate (k1 + 1) none)
    (hmax : s.maxRun = live.length + (k1 + 1))
    (hr : _run_new s cmd runType env = Except.ok (s1, addr)) :
    s1.runs = (live ++ [addr]).map some ++ List.replicate k1 none := by
  obtain ⟨runIdx, hf, haddr, hr1, -, -, -⟩ := run_new_shape hr
  have hfind : findSlot s.runs s.maxRun s.maxRun 0 = some live.length := by
    have := findSlot_free s.maxRun (k1 + 1) (by omega) live [] (by rw [hmax]; simp)
    simp only [List.nil_append, List.length_nil, Nat.zero_add] at this
    rw [hruns, show s.maxRun = live.length + (k1 + 1) from hmax]
    rw [show s.maxRun = live.length + (k1 + 1) from hmax] at this
    exact this
  rw [hfind] at hf
  cases hf
  rw [hr1, hruns]
  have := set_append_cons (live.map some) none (some addr) (List.replicate k1 none)
  rw [List.length_map] at this
  rw [List.replicate_succ, this]
  simp

/-- With an empty slot in the table a spawn on the parent's side returns: the
control child always, a job when the ledgers are open and `ctrlRun` points to
a live record. -/
theorem run_new_returns {s : Supervisor} (cmd : List (List Nat)) (runType : RunType)
    (env : SpawnEnv) (h : TableInv s) (hfree : none ∈ s.runs)
    (hok : runType = RunType.CONTROL ∨
      (s.invoked ≠ none ∧ ∃ c r, s.ctrlRun = some c ∧ s.heap.getD c none = some r)) :
    ∃ s1 addr, _run_new s cmd runType env = Except.ok (s1, addr) := by
  obtain ⟨live, k, hruns, hmax, hlive, -⟩ := h.dense
  have hk : 0 < k := by
    rw [hruns] at hfree
    exact free_slot_count hfree
  obtain ⟨k1, rfl⟩ : ∃ k1, k = k1 + 1 := ⟨k - 1, by omega⟩
  have hfind : findSlot s.runs s.maxRun s.maxRun 0 = some live.length := by
    have := findSlot_free s.maxRun (k1 + 1) hk live [] (by rw [hmax]; simp)
    simp only [List.nil_append, List.length_nil, Nat.zero_add] at this
    rw [hruns, show s.maxRun = live.length + (k1 + 1) from hmax]
    rw [show s.maxRun = live.length + (k1 + 1) from hmax] at this
    exact this
  have hget : (s.heap ++ [some (newRun runType env.tt env.pid cmd env.tOut env.tErr)]).getD
      s.heap.length none = some (newRun runType env.tt env.pid cmd env.tOut env.tErr) :=
    getD_append_cons s.heap _ none []
  have hset : ∀ x : Run, (s.heap ++ [some (newRun runType env.tt env.pid cmd env.tOut env.tErr)]).set
      s.heap.length (some x) = s.heap ++ [some x] :=
    fun x => set_append_cons s.heap _ (some x) []
  have hrset : s.runs.set live.length (some s.heap.length)
      = (live ++ [s.heap.length]).map some ++ List.replicate k1 none := by
    have := set_append_cons (live.map some) none (some s.heap.length) (List.replicate k1 none)
    rw [List.length_map] at this
    rw [hruns, List.replicate_succ, this]
    simp
  have hmax1 : s.maxRun = (live ++ [s.heap.length]).length + k1 := by
    rw [hmax]; simp only [List.length_append, List.length_cons, List.length_nil]; omega
  have hlive1 : ∀ x : Run, ∀ a ∈ live ++ [s.heap.length],
      ∃ r, (s.heap ++ [some x]).getD a none = some r := by
    intro x a ha
    rcases List.mem_append.mp ha with h0 | h0
    · obtain ⟨r, hr, -⟩ := hlive a h0
      exact ⟨r, getD_append_left_some s.heap _ a r hr⟩
    · simp only [List.mem_singleton] at h0
      subst h0
      exact ⟨x, getD_append_cons s.heap (some x) none []⟩
  unfold _run_new
  simp only [_runs_add, hfind, deref, hget]
  by_cases hc : runType = RunType.CONTROL
  · subst hc
    simp only [if_true, hset]
    split
    · rename_i f heq
      exact absurd heq (fun herr => updateRunning_ne_error herr hrset hmax1 (hlive1 _)
        ⟨s.heap.length, _, rfl, getD_append_cons s.heap _ none []⟩)
    · exact ⟨_, _, rfl⟩
  · rcases hok with hok | ⟨hinv, c, r, hcs, hcr⟩
    · exact absurd hok hc
    · obtain ⟨rows, hrows⟩ := Option.ne_none_iff_exists'.mp hinv
      simp only [if_neg hc, hset, hrows]
      split
      · rename_i f heq
        exact absurd heq (fun herr => updateRunning_ne_error herr hrset hmax1 (hlive1 _)
          ⟨c, r, hcs, getD_append_left_some s.heap _ c r hcr⟩)
      · exact ⟨_, _, rfl⟩

/-- Spawns fill the table: for every `j` below `maxRun` a state is reached in
which the first `j + 1` slots hold live runs, the control child among them,
with pids up to `j`. -/
theorem reachable_fill (n : Nat) :
    ∀ j, j < n → ∃ (s : Supervisor) (live : List Nat), Reachable n s ∧
      s.runs = live.map some ++ List.replicate (n - 1 - j) none ∧ live.length = j + 1 ∧
      CtrlLive s ∧ ∀ a ∈ live, ∃ i : Nat, i ≤ j ∧ pidAt s a = some (i : Int) := by
  intro j
  induction j with
  | zero =>
    intro hn
    have hinv := tableInv_runs_init n
    have hfree : none ∈ (_runs_init n).runs := by
      obtain ⟨m, rfl⟩ : ∃ m, n = m + 1 := ⟨n - 1, by omega⟩
      simp [_runs_init, List.replicate_succ]
    have hempty : ∀ a, some a ∉ (_runs_init n).runs := by
      intro a ha
      simp only [_runs_init] at ha
      cases List.eq_of_mem_replicate ha
    have hfresh : FreshPid (_runs_init n) (witnessSpawn 0 100).pid :=
      fun a ha => absurd ha (hempty a)
    obtain ⟨s1, addr, hr⟩ := run_new_returns [[99]] RunType.CONTROL (witnessSpawn 0 100) hinv
      hfree (Or.inl rfl)
    have hreach : Reachable n s1 :=
      Reachable.spawn _ s1 [[99]] RunType.CONTROL (witnessSpawn 0 100) addr Reachable.init
        hfresh (fun _ => hempty) hr
    obtain ⟨-, hmem, ⟨r, hrec, hkey⟩, -, -, -⟩ := run_new_cases hinv hfresh hr
    obtain ⟨-, -, -, -, -, hctrl, -⟩ := run_new_shape hr
    have hdense := run_new_dense [] (n - 1)
      (by simp only [_runs_init, List.map_nil, List.nil_append]; congr 1; omega)
      (by simp only [_runs_init, List.length_nil]; omega) hr
    refine ⟨s1, [addr], hreach, by simpa using hdense, rfl, ⟨addr, by simpa using hctrl, hmem⟩, ?_⟩
    intro a ha
    simp only [List.mem_singleton] at ha
    subst ha
    refine ⟨0, le_refl _, ?_⟩
    simp only [key, Prod.mk.injEq] at hkey
    simp only [pidAt, hrec, Option.map_some', hkey.2.1]
    rfl
  | succ j ih =>
    intro hn
    obtain ⟨s, live, hreach, hruns, hlen, ⟨c, hcs, hcm⟩, hpids⟩ := ih (by omega)
    obtain ⟨hinv, hmax, -⟩ := reachable_inv hreach
    have hk : n - 1 - j = (n - 1 - (j + 1)) + 1 := by omega
    rw [hk] at hruns
    have hfree : none ∈ s.runs := by
      rw [hruns]
      simp [List.replicate_succ]
    have hfresh : FreshPid s (witnessSpawn ((j + 1 : Nat) : Int) 100).pid := by
      intro a ha hp
      rw [hruns] at ha
      obtain ⟨i, hi, hpi⟩ := hpids a ((mem_dense live _ a).mp ha)
      rw [hpi] at hp
      simp only [witnessSpawn, Option.some.injEq, Nat.cast_inj] at hp
      omega
    obtain ⟨rc, hrc⟩ : ∃ rc, s.heap.getD c none = some rc := by
      obtain ⟨live2, k2, hruns2, -, hlive2, -⟩ := hinv.dense
      obtain ⟨r, hr, -⟩ := hlive2 c (by rw [hruns2] at hcm; exact (mem_dense live2 k2 c).mp hcm)
      exact ⟨r, hr⟩
    obtain ⟨s1, addr, hr⟩ := run_new_returns [[106]] RunType.RUNNING
      (witnessSpawn ((j + 1 : Nat) : Int) 100) hinv hfree
      (Or.inr ⟨hinv.invoked_open ⟨c, hcm⟩, c, rc, hcs, hrc⟩)
    have hreach1 : Reachable n s1 :=
      Reachable.spawn s s1 [[106]] RunType.RUNNING (witnessSpawn ((j + 1 : Nat) : Int) 100) addr
        hreach hfresh (fun hc => by cases hc) hr
    obtain ⟨-, -, ⟨r, hrec, hkey⟩, -, hkeep, -⟩ := run_new_cases hinv hfresh hr
    obtain ⟨-, -, -, -, -, hctrl, -⟩ := run_new_shape hr
    have hdense := run_new_dense live (n - 1 - (j + 1)) hruns (by rw [hmax, hlen]; omega) hr
    refine ⟨s1, live ++ [addr], hreach1, hdense, by simp [hlen],
      ⟨c, by rw [hctrl, if_neg (by decide)]; exact hcs, (hkeep c rc hcm hrc).1⟩, ?_⟩
    intro a ha
    rcases List.mem_append.mp ha with h0 | h0
    · obtain ⟨i, hi, hpi⟩ := hpids a h0
      have hmem : some a ∈ s.runs := by rw [hruns]; exact (mem_dense live _ a).mpr h0
      obtain ⟨ra, hra⟩ : ∃ ra, s.heap.getD a none = some ra := by
        cases hg : s.heap.getD a none with
        | none =>
          rw [pidAt, hg] at hpi
          cases hpi
        | some ra => exact ⟨ra, rfl⟩
      refine ⟨i, by omega, ?_⟩
      have h1 := (hkeep a ra hmem hra).2
      simp only [pidAt, h1, Option.map_some']
      simp only [pidAt, hra, Option.map_some'] at hpi
      exact hpi
    · simp only [List.mem_singleton] at h0
      subst h0
      refine ⟨j + 1, le_refl _, ?_⟩
      simp only [key, Prod.mk.injEq] at hkey
      simp only [pidAt, hrec, Option.map_some', hkey.2.1]
      rfl

/-- A table without empty slot is reached, whatever the number of slots. -/
theorem reachable_full (n : Nat) (hn : 0 < n) :
    ∃ s, Reachable n s ∧ s.runs.length = n ∧ none ∉ s.runs ∧ CtrlLive s := by
  obtain ⟨s, live, hreach, hruns, hlen, hctrl, -⟩ := reachable_fill n (n - 1) (by omega)
  have hz : n - 1 - (n - 1) = 0 := by omega
  rw [hz] at hruns
  simp only [List.replicate_zero, List.append_nil] at hruns
  refine ⟨s, hreach, by rw [hruns, List.length_map, hlen]; omega, ?_, hctrl⟩
  rw [hruns]
  intro hmem
  obtain ⟨b, -, hb⟩ := List.mem_map.mp hmem
  cases hb

/-! ## The end of the loop, the shift and the control record -/

theorem ctrlLive_of_reachable {maxRun : Nat} {s : Supervisor} (h : Reachable maxRun s)
    (hc : s.ctrlRun ≠ none) : CtrlLive s := by
  rcases (reachable_inv h).2.2 with hp | hl
  · exact absurd hp.1 hc
  · exact hl

theorem record_of_mem {s : Supervisor} (h : TableInv s) {c : Nat} (hc : some c ∈ s.runs) :
    ∃ r, s.heap.getD c none = some r := by
  obtain ⟨live, k, hruns, -, hlive, -⟩ := h.dense
  obtain ⟨r, hr, -⟩ := hlive c (by rw [hruns] at hc; exact (mem_dense live k c).mp hc)
  exact ⟨r, hr⟩

/-- With an empty slot in the table a reap pass in which the control child is
not reported returns, and the control record is as it was. -/
theorem pass_returns {s : Supervisor} {c : Nat} {r : Run} (waits : List ReapEnv)
    (now : Nat → Int) (h : TableInv s) (hfree : none ∈ s.runs) (hctrl : s.ctrlRun = some c)
    (hc : some c ∈ s.runs) (hrec : s.heap.getD c none = some r)
    (hw : ∀ e ∈ waits, e.pid ≠ r.pid) :
    ∃ s2 b, _runs_checkForTerminatedJobs s waits now = Except.ok (s2, b) ∧
      s2.heap.getD c none = some r ∧ s2.ctrlRun = some c := by
  obtain ⟨s1, h1, hinv1, -, hc1, hrec1⟩ := reapAll_total waits s h hfree
  obtain ⟨-, hrec2⟩ := (hrec1 c r hc hrec).2 hw
  cases hwe : waits.isEmpty with
  | true =>
    refine ⟨s1, decide (s1.runs.getD 0 none ≠ none), ?_, hrec2, by rw [hc1, hctrl]⟩
    simp only [_runs_checkForTerminatedJobs, h1, hwe, Bool.not_true, Bool.false_eq_true,
      if_false]
  | false =>
    cases hu : _runs_updateRunning s1 now with
    | error f =>
      exfalso
      obtain ⟨live, k, hruns, hmax, hlive, -⟩ := hinv1.dense
      exact updateRunning_ne_error hu hruns hmax
        (fun a ha => by
          obtain ⟨ra, hra, -⟩ := hlive a ha
          exact ⟨ra, hra⟩)
        ⟨c, r, by rw [hc1, hctrl], hrec2⟩
    | ok s2 =>
      obtain ⟨-, -, -, -, u5⟩ := updateRunning_keep hu
      obtain ⟨uc, -⟩ := updateRunning_ctrl hu
      refine ⟨s2, decide (s2.runs.getD 0 none ≠ none), ?_, by rw [u5]; exact hrec2,
        by rw [uc, hc1, hctrl]⟩
      simp only [_runs_checkForTerminatedJobs, h1, hwe, Bool.not_false, if_true, hu]

/-- C13 fails on the code.  The value of `_runs_checkForTerminatedJobs` is
right whenever the pass returns: in every state the supervisor reaches it is
`true` exactly when a run is left in the table.  But once the control child
has been started no pass that returns has the value `false`, so the loop of
`main` is never left by an execution without fault: the pass after which the
table would be empty reports the control child, frees its record, and faults
in `_runs_updateRunning` before the `return`. -/
theorem reap_pass_never_ends_loop (maxRun : Nat) (s : Supervisor)
    (hreach : Reachable maxRun s) :
    (∀ waits now s1 r, _runs_checkForTerminatedJobs s waits now = Except.ok (s1, r) →
      (r = true ↔ ∃ a, some a ∈ s1.runs)) ∧
    (s.ctrlRun ≠ none → ∀ waits now s1 r,
      _runs_checkForTerminatedJobs s waits now = Except.ok (s1, r) → r = true) ∧
    (s.ctrlRun ≠ none → none ∈ s.runs → ∀ waits now,
      (∀ a, some a ∈ s.runs → ∃ e ∈ waits, pidAt s a = some e.pid) →
      _runs_checkForTerminatedJobs s waits now = Except.error Fault.useAfterFree) := by
  obtain ⟨hinv, -, -⟩ := reachable_inv hreach
  refine ⟨?_, ?_, ?_⟩
  · intro waits now s1 r hr
    exact (pass_inv hinv hr).2.2.1
  · intro hc waits now s1 r hr
    obtain ⟨-, -, hiff, -, hl⟩ := pass_inv hinv hr
    obtain ⟨c, -, hcm⟩ := hl (ctrlLive_of_reachable hreach hc)
    exact hiff.mpr ⟨c, hcm⟩
  · intro hc hfree waits now hall
    obtain ⟨c, hcs, hcm⟩ := ctrlLive_of_reachable hreach hc
    obtain ⟨r, hrec⟩ := record_of_mem hinv hcm
    obtain ⟨e, he, hpe⟩ := hall c hcm
    refine pass_reaps_control waits now hinv hfree hcs hcm hrec ⟨e, he, ?_⟩
    simp only [pidAt, hrec, Option.map_some', Option.some.injEq] at hpe
    exact hpe.symm

theorem reachable_controlStarted : Reachable 4 (controlStarted 4) :=
  Reachable.spawn (_runs_init 4) (controlStarted 4) [[99]] RunType.CONTROL (witnessSpawn 50 100) 0
    Reachable.init
    (by
      intro a ha
      simp only [_runs_init] at ha
      cases List.eq_of_mem_replicate ha)
    (by
      intro _ a ha
      simp only [_runs_init] at ha
      cases List.eq_of_mem_replicate ha)
    rfl

theorem reachable_jobStarted : Reachable 4 (jobStarted 4) :=
  Reachable.spawn (controlStarted 4) (jobStarted 4) [[106]] RunType.RUNNING (witnessSpawn 51 101)
    1 reachable_controlStarted witness_fresh51 (fun hc => by cases hc) witness_spawn

/-- C13 at the supervisor that has started the control child (pid 50) alone:
the pass that reports pid 50 faults, and a pass that reports nothing returns
`true`. -/
theorem reap_pass_never_ends_loop_witness :
    _runs_checkForTerminatedJobs (controlStarted 4) [witnessReap 50 110] (fun _ => 110)
      = Except.error Fault.useAfterFree ∧
    (∀ s1 r, _runs_checkForTerminatedJobs (controlStarted 4) [] (fun _ => 110)
        = Except.ok (s1, r) → r = true ∧ (r = true ↔ ∃ a, some a ∈ s1.runs)) ∧
    ∃ s1, _runs_checkForTerminatedJobs (controlStarted 4) [] (fun _ => 110)
      = Except.ok (s1, true) :=
  ⟨(reap_pass_never_ends_loop 4 (controlStarted 4) reachable_controlStarted).2.2
      (by decide) (by decide) [witnessReap 50 110] (fun _ => 110)
      (by
        intro a ha
        have ha0 : a = 0 := by
          have : some a ∈ [some 0, none, none, none] := ha
          simpa using this
        subst ha0
        exact ⟨witnessReap 50 110, List.mem_singleton_self _, by decide⟩),
    fun s1 r hr =>
      ⟨(reap_pass_never_ends_loop 4 (controlStarted 4) reachable_controlStarted).2.1
          (by decide) [] (fun _ => 110) s1 r hr,
        (reap_pass_never_ends_loop 4 (controlStarted 4) reachable_controlStarted).1
          [] (fun _ => 110) s1 r hr⟩,
    ⟨controlStarted 4, rfl⟩⟩

/-- C14 fails on the code.  Spawns fill the table, so a state in which all
`n` slots hold runs is reached; there a round of the reap loop for the pid of
any run of the table, and with it the reap pass, reads `runs[n]` in the shift
at the last slot.  While an empty slot is left every round returns, all its
reads within the table.  The shift `runs[i] = runs[i+1]` is the fault
`outOfBounds` exactly when `i + 1` is not below the number of slots. -/
theorem reap_shift_out_of_bounds (n : Nat) (hn : 0 < n) :
    (∃ s, Reachable n s ∧ s.runs.length = n ∧ none ∉ s.runs ∧ ∃ a, some a ∈ s.runs) ∧
    (∀ s, Reachable n s → none ∉ s.runs → ∀ env a, some a ∈ s.runs →
      pidAt s a = some env.pid →
      reapOne s env = Except.error Fault.outOfBounds ∧
      ∀ waits now, _runs_checkForTerminatedJobs s (env :: waits) now
        = Except.error Fault.outOfBounds) ∧
    (∀ s, Reachable n s → none ∈ s.runs → ∀ env, ∃ s1, reapOne s env = Except.ok s1) ∧
    (∀ s i, reapShift s i = Except.error Fault.outOfBounds ↔ ¬ i + 1 < s.maxRun) := by
  refine ⟨?_, ?_, ?_, ?_⟩
  · obtain ⟨s, hreach, hlen, hfull, c, -, hcm⟩ := reachable_full n hn
    exact ⟨s, hreach, hlen, hfull, c, hcm⟩
  · intro s hreach hfull env a ha hpa
    have h1 := reapOne_full_oob (reachable_inv hreach).1 hfull ha hpa
    refine ⟨h1, ?_⟩
    intro waits now
    simp only [_runs_checkForTerminatedJobs, reapAll, h1]
  · intro s hreach hfree env
    obtain ⟨s1, h1, -⟩ := reapOne_total env (reachable_inv hreach).1 hfree
    exact ⟨s1, h1⟩
  · intro s i
    constructor
    · intro h hlt
      rw [reapShift_ok hlt] at h
      cases h
    · exact reapShift_error

/-- C14 at the table of the source, with `MAX_RUN` slots. -/
theorem reap_shift_out_of_bounds_witness :
    0 < MAX_RUN ∧
    (∃ s, Reachable MAX_RUN s ∧ s.runs.length = MAX_RUN ∧ none ∉ s.runs ∧
      ∃ a, some a ∈ s.runs) ∧
    (∀ s, Reachable MAX_RUN s → none ∉ s.runs → ∀ env a, some a ∈ s.runs →
      pidAt s a = some env.pid →
      reapOne s env = Except.error Fault.outOfBounds ∧
      ∀ waits now, _runs_checkForTerminatedJobs s (env :: waits) now
        = Except.error Fault.outOfBounds) ∧
    (∀ s, Reachable MAX_RUN s → none ∈ s.runs → ∀ env, ∃ s1, reapOne s env = Except.ok s1) ∧
    (∀ s i, reapShift s i = Except.error Fault.outOfBounds ↔ ¬ i + 1 < s.maxRun) :=
  ⟨by decide, reap_shift_out_of_bounds MAX_RUN (by decide)⟩

/-- C15 fails on the code.  In every state the supervisor reaches `ctrlRun`
points to a live record of a run of the table, and with an empty slot in the
table a reap pass in which the control child is not reported returns and
leaves that record live.  But the pass in which the control child is
reported, with jobs still running or without, frees the record in `_run_free`
and then takes the path of `running.csv` from it in `_runs_updateRunning`. -/
theorem running_path_from_freed_control (maxRun : Nat) (s : Supervisor)
    (hreach : Reachable maxRun s) (c : Nat) (hc : s.ctrlRun = some c) :
    ∃ r, s.heap.getD c none = some r ∧ some c ∈ s.runs ∧
      (none ∈ s.runs → ∀ waits now, (∀ e ∈ waits, e.pid ≠ r.pid) →
        ∃ s1 b, _runs_checkForTerminatedJobs s waits now = Except.ok (s1, b) ∧
          s1.heap.getD c none = some r ∧ s1.ctrlRun = some c) ∧
      (none ∈ s.runs → ∀ waits now, (∃ e ∈ waits, e.pid = r.pid) →
        _runs_checkForTerminatedJobs s waits now = Except.error Fault.useAfterFree) := by
  obtain ⟨hinv, -, -⟩ := reachable_inv hreach
  obtain ⟨c0, hcs, hcm⟩ := ctrlLive_of_reachable hreach (by rw [hc]; simp)
  have hcc : c0 = c := by
    rw [hc] at hcs
    exact (Option.some.inj hcs).symm
  subst hcc
  obtain ⟨r, hrec⟩ := record_of_mem hinv hcm
  refine ⟨r, hrec, hcm, ?_, ?_⟩
  · intro hfree waits now hw
    exact pass_returns waits now hinv hfree hc hcm hrec hw
  · intro hfree waits now hw
    exact pass_reaps_control waits now hinv hfree hc hcm hrec hw

/-- C15 at the supervisor that has started the control child (pid 50) and a
job (pid 51): the control record is at address 0; the pass that reports the
job returns, the pass that reports the control child faults. -/
theorem running_path_from_freed_control_witness :
    (jobStarted 4).ctrlRun = some 0 ∧ pidAt (jobStarted 4) 0 = some 50 ∧
    (∃ s1 b, _runs_checkForTerminatedJobs (jobStarted 4) [witnessReap 51 110] (fun _ => 110)
      = Except.ok (s1, b) ∧ pidAt s1 0 = some 50 ∧ s1.ctrlRun = some 0) ∧
    _runs_checkForTerminatedJobs (jobStarted 4) [witnessReap 50 110] (fun _ => 110)
      = Except.error Fault.useAfterFree := by
  obtain ⟨r, hrec, -, hret, hfault⟩ :=
    running_path_from_freed_control 4 (jobStarted 4) reachable_jobStarted 0 rfl
  have hp : pidAt (jobStarted 4) 0 = some 50 := by decide
  have hr : r.pid = 50 := by
    simp only [pidAt, hrec, Option.map_some', Option.some.injEq] at hp
    exact hp
  refine ⟨rfl, hp, ?_, ?_⟩
  · obtain ⟨s1, b, h1, h2, h3⟩ := hret (by decide) [witnessReap 51 110] (fun _ => 110) (by
      intro e he
      simp only [List.mem_singleton] at he
      subst he
      rw [hr]
      decide)
    exact ⟨s1, b, h1, by simp only [pidAt, h2, Option.map_some', hr], h3⟩
  · exact hfault (by decide) [witnessReap 50 110] (fun _ => 110)
      ⟨witnessReap 50 110, List.mem_singleton_self _, by rw [hr]; rfl⟩

/-! ## What a failed `execve` leaves on disk -/

theorem worldAfter_ok {as : List Act} (h : (acts (initialWorld 4) as).isOk = true) :
    acts (initialWorld 4) as = Except.ok (worldAfter as) := by
  unfold worldAfter
  cases hn : acts (initialWorld 4) as with
  | error f => rw [hn] at h; cases h
  | ok w => rfl

/-- A spawn whose child fails in `execve`: the child's `exit` writes its copy
of every stdio buffer of the supervisor, as it was at the `fork`, to the
files. -/
theorem forkRun_child_exit {w w1 : World} {cmd : List (List Nat)} {runType : RunType}
    {env : SpawnEnv} (h : forkRun w cmd runType env true = Except.ok w1) :
    w1.disk = exitFlush w.sup (createFiles runType env w.disk) := by
  unfold forkRun at h
  cases hn : _run_new w.sup cmd runType env with
  | error f => rw [hn] at h; cases h
  | ok r =>
    obtain ⟨s1, addr⟩ := r
    obtain ⟨runIdx, hf, -, -, -, -, -⟩ := run_new_shape hn
    rw [hn] at h
    simp only [Except.ok.injEq] at h
    rw [← h]
    simp only [_run_new_child, _runs_add, hf, if_true]

/-- C8 fails on the code.  The supervisor itself prints one invoked line and
one finished line for a run, but it prints them into stdio buffers that it
never flushes, and `fork` hands a copy of these buffers to the child: when
the child's `execve` fails, its `exit(-1)` writes the copy to `invoked.csv`
and `finished.csv`, all lines printed so far included.  After the control
child (pid 50) and a job (pid 51) that is reaped, two spawns with a failing
`execve` (pids 52 and 53) leave the invoked line and the finished line of the
job twice on disk, while the supervisor has printed each of them once. -/
theorem ledger_rows_repeated_on_disk :
    (∀ (w w1 : World) (cmd : List (List Nat)) (env : SpawnEnv) (rows : List InvokedRow)
        (frows : List FinishedRow),
      forkRun w cmd RunType.RUNNING env true = Except.ok w1 →
      w.sup.invoked = some rows → w.sup.finished = some frows →
      w1.disk.invoked = w.disk.invoked ++ unflushed rows ∧
      w1.disk.finished = w.disk.finished ++ unflushed frows) ∧
    acts (initialWorld 4) ledgerTrace = Except.ok (worldAfter ledgerTrace) ∧
    ((worldAfter ledgerTrace).sup.invoked.getD []).map InvokedRow.pid = [50, 51, 52, 53] ∧
    ((worldAfter ledgerTrace).sup.finished.getD []).map FinishedRow.pid = [51] ∧
    (rowsOf (worldAfter ledgerTrace).disk.invoked).map InvokedRow.pid = [50, 51, 50, 51, 52] ∧
    (rowsOf (worldAfter ledgerTrace).disk.finished).map FinishedRow.pid = [51, 51] ∧
    ((worldAfter ledgerTrace).disk.invoked.filter (fun l => l = Line.header)).length = 2 := by
  refine ⟨?_, worldAfter_ok (by decide), by decide, by decide, by decide, by decide, by decide⟩
  intro w w1 cmd env rows frows h hinv hfin
  rw [forkRun_child_exit h]
  constructor <;> simp [exitFlush, createFiles, hinv, hfin]

/-- C9 fails on the code.  The lines of an index file are printed into a
stdio buffer that is written only by `fclose` in `_run_free`, and `fork` hands
a copy of the buffer of every open index stream to the child: when the
child's `execve` fails, its `exit(-1)` writes the copy to the file, and the
supervisor's `fclose` writes the same lines once more.  For the job with pid
51 the file then holds the header twice and the lines `out,101,0`,
`err,101,0`, `out,125,3` twice, before the final samples: the time goes back
from 125 to 101, the size of `out` goes back from 3 to 0, and two lines of
`out` that are not final samples are less than 9 seconds apart.  The lines
the supervisor itself has printed are in order.  The sizes are printed with
`%ld`: the number in the file is the size below `2 ^ 63` and negative from
there on. -/
theorem index_rows_repeated_on_disk :
    (∀ (w w1 : World) (cmd : List (List Nat)) (env : SpawnEnv) (id : RunId),
      forkRun w cmd RunType.RUNNING env true = Except.ok w1 → id ≠ toId env.tt env.pid →
      w1.disk.index id = w.disk.index id ++ openIndexes w.sup id) ∧
    acts (initialWorld 4) indexTrace = Except.ok (worldAfter indexTrace) ∧
    (worldAfter indexTrace).sup.finalised.map (fun r => r.index) =
      [some [IndexRow.mk "out" 101 0, IndexRow.mk "err" 101 0, IndexRow.mk "out" 125 3,
        IndexRow.mk "out" 130 5, IndexRow.mk "err" 130 0]] ∧
    (worldAfter indexTrace).disk.index (toId 101 51) =
      [Line.header, Line.row (IndexRow.mk "out" 101 0), Line.row (IndexRow.mk "err" 101 0),
        Line.row (IndexRow.mk "out" 125 3),
        Line.header, Line.row (IndexRow.mk "out" 101 0), Line.row (IndexRow.mk "err" 101 0),
        Line.row (IndexRow.mk "out" 125 3), Line.row (IndexRow.mk "out" 130 5),
        Line.row (IndexRow.mk "err" 130 0)] ∧
    (streamRows "out" (rowsOf ((worldAfter indexTrace).disk.index (toId 101 51)))).map
        (fun r => longOf r.size) = [0, 3, 0, 3, 5] ∧
    ¬ ((streamRows "out" (rowsOf ((worldAfter indexTrace).disk.index (toId 101 51)))).map
        IndexRow.size).Pairwise (fun a b => a ≤ b) ∧
    ¬ ((rowsOf ((worldAfter indexTrace).disk.index (toId 101 51))).map
        IndexRow.time).Pairwise (fun a b => a ≤ b) ∧
    ¬ (streamRows "out" (rowsOf ((worldAfter indexTrace).disk.index (toId 101 51)))).dropLast.Chain'
        (fun a b => a.time + 9 ≤ b.time) ∧
    (∀ n : Nat, n < 2 ^ 63 → longOf n = (n : Int)) ∧ longOf (2 ^ 63) = -(2 ^ 63 : Int) := by
  refine ⟨?_, worldAfter_ok (by decide), by decide, by decide, by decide, by decide, by decide,
    ?_, ?_, by decide⟩
  · intro w w1 cmd env id h hid
    rw [forkRun_child_exit h]
    simp only [exitFlush, createFiles, if_neg hid]
  · have hl : (streamRows "out"
        (rowsOf ((worldAfter indexTrace).disk.index (toId 101 51)))).dropLast
        = [IndexRow.mk "out" 101 0, IndexRow.mk "out" 125 3, IndexRow.mk "out" 101 0,
            IndexRow.mk "out" 125 3] := by decide
    rw [hl]
    intro h
    simp only [List.chain'_cons] at h
    exact absurd h.2.1 (by decide)
  · intro n hn
    have h1 : n % SIZE_MOD = n := Nat.mod_eq_of_lt (by unfold SIZE_MOD; omega)
    have h2 : n < SIZE_MOD / 2 := by unfold SIZE_MOD; omega
    simp only [longOf, h1, h2, if_true]

theorem rowsOf_append {α : Type} (a b : List (Line α)) :
    rowsOf (a ++ b) = rowsOf a ++ rowsOf b := by
  induction a with
  | nil => rfl
  | cons x a ih =>
    cases x with
    | header => simpa [rowsOf] using ih
    | row r => simp [rowsOf, ih]

theorem rowsOf_unflushed {α : Type} (rows : List α) : rowsOf (unflushed rows) = rows := by
  unfold unflushed
  simp only [rowsOf]
  induction rows with
  | nil => rfl
  | cons r rows ih => simp [rowsOf, ih]

/-- The `fclose` at the end of `_run_free` writes the supervisor's buffer
behind whatever the index file holds: the last line of a stream in the file
is the last line the supervisor has printed for it. -/
theorem closeIndex_last_rows (d : Disk) (run : Run) (rows : List IndexRow) (label : String)
    (h : run.index = some rows) (hne : streamRows label rows ≠ []) :
    (streamRows label (rowsOf ((closeIndex d run).index run.id))).getLast?
      = (streamRows label rows).getLast? := by
  simp only [closeIndex, h, if_true, rowsOf_append, rowsOf_unflushed, streamRows_append]
  exact List.getLast?_append_of_ne_nil _ hne

end Gopard
